import Mathlib

/-!
Binarized neural network layers (`lab4/ecelinux/layer.cpp`).

A shallow embedding of the layer routines of `layer.cpp`: `if_mac`, `pad`,
`conv_first`, `conv_second`, `max_pool`, `reshape` and `dense`, followed by
theorems about them.

Modelling conventions.

* `int` values are mathematical integers (`Int`); `/` on `int` is truncating
  division (`Int.tdiv`).  Every index the routines form is far below `2^31`
  for buffers of `MAX_FMAP` entries, so no wrap-around is modelled.
* A buffer (`bit*`, `bit[MAX_FMAP]`) is a total map from indices to bits; a
  store `buf[i] = v` is `Fmap.set`.  The routines receive the output buffer
  with arbitrary prior contents and return its final contents.  Input and
  output buffers are distinct objects: a store to `output` never changes what
  is read from `input`.
* `bit` is a two-valued type (`Bool`): `1` is `true`, `0` is `false`.
* The headers `layer.h` and `model.h` are not part of the sources at hand.
  Their compile-time constants and weight tables are the fields of `Consts`.
* `float` is IEEE 754 binary32 with round to nearest, ties to even (`F32`):
  every operation of `dense` rounds as the machine does, each on its own (no
  fused multiply-add, no wider intermediate format), and infinities and NaN
  arise as they do there.  `2. / M` is a binary64 division whose result is
  then converted to binary32; `sqrt` is correctly rounded.
-/

namespace Layer

/-- One binarized activation or weight (`bit`). -/
abbrev bit := Bool

/-- A flat buffer of bits (`bit[MAX_FMAP]`, `bit*`). -/
abbrev Fmap := Int → bit

/-- The store `buf[i] = v`. -/
def Fmap.set (buf : Fmap) (i : Int) (v : bit) : Fmap :=
  fun j => if j = i then v else buf j

/-- Compile-time constants and constant tables of `layer.h` / `model.h`. -/
structure Consts where
  MAX_FMAP : Int
  F : Int
  FILTER_SIZE : Int
  PADDING : Int
  N_CHANNEL1 : Int
  N_CHANNEL2 : Int
  O_WIDTH : Int
  w_conv1 : Int → bit
  w_conv2 : Int → bit

/-- The loop `for (int i = 0; i < n; i++) body`, threading the variables the
body assigns as a state `σ`. -/
def forLoop {σ : Type} (n : Int) (init : σ) (body : Int → σ → σ) : σ :=
  (List.range n.toNat).foldl (fun s i => body (i : Int) s) init

/-- The value of the C expression `a == b` on bits, as an `int`. -/
def eqInt (a b : bit) : Int := if a = b then 1 else 0

/-- Helper `if_mac`: false on padding pixels. -/
def if_mac (k : Consts) (x y I : Int) : Bool :=
  if x < Int.tdiv k.PADDING 2 || x ≥ I - Int.tdiv k.PADDING 2
      || y < Int.tdiv k.PADDING 2 || y ≥ I - Int.tdiv k.PADDING 2 then
    false
  else
    true

/-- Routine `pad`. -/
def pad (k : Consts) (input output : Fmap) (M I : Int) : Fmap :=
  let ifmap_size := I * I
  let ofmap_size := (I + k.PADDING) * (I + k.PADDING)
  let output := forLoop k.MAX_FMAP output fun i output => output.set i false
  forLoop M output fun m output =>
    forLoop I output fun x output =>
      forLoop I output fun y output =>
        let i_index := x + y * I + m * ifmap_size
        let o_index := (x + Int.tdiv k.PADDING 2)
          + (y + Int.tdiv k.PADDING 2) * (I + k.PADDING) + m * ofmap_size
        output.set o_index (input i_index)

/-- Routine `conv_first`.  The local variables `one_out` and `mac_num` are the
two components of `acc`; `one_out << 1` is `acc.1 * 2`.  The local
`ifmap_size`, which the routine never reads, is left out. -/
def conv_first (k : Consts) (input output : Fmap) (threshold : Int → Int) (N I : Int) :
    Fmap :=
  let O := I - k.F + 1
  let ofmap_size := O * O
  forLoop N output fun n output =>
    forLoop O output fun x output =>
      forLoop O output fun y output =>
        let sum : Int := 0
        let o_index := x + y * O + n * ofmap_size
        let acc := forLoop k.F ((0 : Int), (0 : Int)) fun c acc =>
          forLoop k.F acc fun r acc =>
            if if_mac k (x + c) (y + r) I then
              let i_index := x + c + (y + r) * I
              let w_index := c + r * k.F + n * k.FILTER_SIZE
              (acc.1 + eqInt (input i_index) (k.w_conv1 w_index), acc.2 + 1)
            else
              acc
        let sum := sum + (acc.1 * 2 - acc.2)
        output.set o_index (if sum > threshold o_index then true else false)

/-- Routine `conv_second`. -/
def conv_second (k : Consts) (input output : Fmap) (threshold : Int → Int) (N I : Int) :
    Fmap :=
  let O := I - k.F + 1
  let ifmap_size := I * I
  let ofmap_size := O * O
  forLoop N output fun n output =>
    forLoop O output fun x output =>
      forLoop O output fun y output =>
        let sum : Int := 0
        let o_index := x + y * O + n * ofmap_size
        let sum := forLoop k.N_CHANNEL1 sum fun m sum =>
          let acc := forLoop k.F ((0 : Int), (0 : Int)) fun c acc =>
            forLoop k.F acc fun r acc =>
              if if_mac k (x + c) (y + r) I then
                let i_index := x + c + (y + r) * I + m * ifmap_size
                let w_index := c + r * k.F + (n + m * N) * k.FILTER_SIZE
                (acc.1 + eqInt (input i_index) (k.w_conv2 w_index), acc.2 + 1)
              else
                acc
          sum + (acc.1 * 2 - acc.2)
        output.set o_index (if sum > threshold o_index then true else false)

/-- Routine `max_pool`. -/
def max_pool (k : Consts) (input output : Fmap) (M I : Int) : Fmap :=
  let O := Int.tdiv I 2
  let ifmap_size := I * I
  let ofmap_size := O * O
  let output := forLoop k.MAX_FMAP output fun i output => output.set i false
  forLoop M output fun m output =>
    forLoop O output fun x output =>
      forLoop O output fun y output =>
        let o_index := x + y * O + m * ofmap_size
        let max : bit := false
        let max := forLoop 2 max fun c max =>
          forLoop 2 max fun r max =>
            let i_index := 2 * x + c + (2 * y + r) * I + m * ifmap_size
            if input i_index then true else max
        output.set o_index max

/-- Routine `reshape`. -/
def reshape (k : Consts) (input output : Fmap) : Fmap :=
  forLoop k.N_CHANNEL2 output fun c output =>
    forLoop k.O_WIDTH output fun y output =>
      forLoop k.O_WIDTH output fun x output =>
        let o_index := c + (x + y * k.O_WIDTH) * k.N_CHANNEL2
        let i_index := x + y * k.O_WIDTH + c * k.O_WIDTH * k.O_WIDTH
        output.set o_index (input i_index)

/-- Routine `reshape` with its memory accesses recorded: the second component
collects, in iteration order, the pair `(i_index, o_index)` of the index read
from `input` and the index written in `output` by each iteration. -/
def reshape_traced (k : Consts) (input output : Fmap) : Fmap × List (Int × Int) :=
  forLoop k.N_CHANNEL2 (output, ([] : List (Int × Int))) fun c st =>
    forLoop k.O_WIDTH st fun y st =>
      forLoop k.O_WIDTH st fun x st =>
        let o_index := c + (x + y * k.O_WIDTH) * k.N_CHANNEL2
        let i_index := x + y * k.O_WIDTH + c * k.O_WIDTH * k.O_WIDTH
        (st.1.set o_index (input i_index), st.2 ++ [(i_index, o_index)])

/-- A binary32 value (`float`).  A finite value is `fin k`, standing for
`k * 2^(-149)`: every finite binary32 value is an integer multiple of the
smallest subnormal `2^(-149)`.  The two zeros are one value `fin 0`; no
operation of `dense` tells them apart. -/
inductive F32 where
  | nan
  | ninf
  | pinf
  | fin (k : Int)
  deriving DecidableEq

/-- The loop of `bitLog`. -/
def bitLogLoop : Nat → Nat → Nat
  | 0, _ => 0
  | fuel + 1, n => if n < 2 then 0 else bitLogLoop fuel (n / 2) + 1

/-- The position of the leading bit of `n`: the largest `e` with `2^e ≤ n`
(`0` for `n = 0`). -/
def bitLog (n : Nat) : Nat := bitLogLoop n n

/-- Round to nearest, ties to even, into binary32.  The exact value has sign
`neg` and magnitude `n * 2^(-t)` units of `2^(-149)`, plus a positive amount
below `2^(-t)` when `sticky` is set.  Magnitudes below `2^24` units are spaced
one unit apart; above, 24 significant bits are kept; a result of
`2^24 * 2^253` units (`2^128`) or more is an infinity. -/
def F32.round (neg : Bool) (n t : Nat) (sticky : Bool) : F32 :=
  let L := bitLog n
  let d := if L < 24 + t then t else L - 23
  let q := n / 2 ^ d
  let r := n % 2 ^ d
  let up := decide (2 ^ d < 2 * r) || (decide (2 * r = 2 ^ d) && (sticky || decide (q % 2 = 1)))
  let q2 := if up then q + 1 else q
  let k := q2 * 2 ^ (d - t)
  if 2 ^ 24 * 2 ^ 253 ≤ k then (if neg then F32.ninf else F32.pinf)
  else F32.fin (if neg then -(k : Int) else (k : Int))

/-- Conversion `int → float`. -/
def F32.ofInt (z : Int) : F32 :=
  F32.round (decide (z < 0)) (z.natAbs * 2 ^ 149) 0 false

/-- Negation. -/
def F32.neg : F32 → F32
  | F32.nan => F32.nan
  | F32.ninf => F32.pinf
  | F32.pinf => F32.ninf
  | F32.fin k => F32.fin (-k)

/-- Addition of two `float`s. -/
def F32.add : F32 → F32 → F32
  | F32.nan, _ => F32.nan
  | _, F32.nan => F32.nan
  | F32.pinf, F32.ninf => F32.nan
  | F32.ninf, F32.pinf => F32.nan
  | F32.pinf, _ => F32.pinf
  | F32.ninf, _ => F32.ninf
  | _, F32.pinf => F32.pinf
  | _, F32.ninf => F32.ninf
  | F32.fin a, F32.fin b => F32.round (decide (a + b < 0)) (a + b).natAbs 0 false

/-- Subtraction of two `float`s. -/
def F32.sub (a b : F32) : F32 := F32.add a (F32.neg b)

/-- The sign of a `float` that is not a NaN: `-1`, `0` or `1`. -/
def F32.sign : F32 → Int
  | F32.nan => 0
  | F32.ninf => -1
  | F32.pinf => 1
  | F32.fin k => Int.sign k

/-- Multiplication of two `float`s. -/
def F32.mul : F32 → F32 → F32
  | F32.nan, _ => F32.nan
  | _, F32.nan => F32.nan
  | F32.fin a, F32.fin b => F32.round (decide (a * b < 0)) (a * b).natAbs 149 false
  | a, b =>
    if F32.sign a * F32.sign b = 0 then F32.nan
    else if F32.sign a * F32.sign b < 0 then F32.ninf
    else F32.pinf

/-- The comparison `a < b` of two `float`s; false when either is a NaN. -/
def F32.lt : F32 → F32 → Bool
  | F32.nan, _ => false
  | _, F32.nan => false
  | F32.ninf, F32.ninf => false
  | F32.ninf, _ => true
  | _, F32.ninf => false
  | F32.pinf, _ => false
  | F32.fin _, F32.pinf => true
  | F32.fin a, F32.fin b => decide (a < b)

/-- The comparison `a > b` of two `float`s. -/
def F32.gt (a b : F32) : Bool := F32.lt b a

/-- One step of the bitwise integer square root. -/
def isqrtLoop (n : Nat) : Nat → Nat → Nat
  | 0, r => r
  | b + 1, r => isqrtLoop n b (if (r + 2 ^ b) ^ 2 ≤ n then r + 2 ^ b else r)

/-- The integer square root: the largest `r` with `r^2 ≤ n`. -/
def isqrt (n : Nat) : Nat := isqrtLoop n (bitLog n / 2 + 1) 0

/-- The correctly rounded square root `sqrt(float)`. -/
def F32.sqrt : F32 → F32
  | F32.nan => F32.nan
  | F32.ninf => F32.nan
  | F32.pinf => F32.pinf
  | F32.fin k =>
    if k < 0 then F32.nan
    else if k = 0 then F32.fin 0
    else
      let n := k.natAbs * 2 ^ 151
      let r := isqrt n
      F32.round false r 1 (decide (r * r ≠ n))

/-- The binary64 quotient `a / b` of two positive integers (below `2^53`, so
that both are exact `double`s and the quotient is a normal number), as
`(m, s)` standing for `m * 2^(-s)`: round to nearest, ties to even, to 53
significant bits. -/
def doubleDiv (a b : Nat) : Nat × Nat :=
  let s := 64 + bitLog b + 1
  let x := a * 2 ^ s
  let q0 := x / b
  let sticky := decide (x % b ≠ 0)
  let d := bitLog q0 - 52
  let q := q0 / 2 ^ d
  let r := q0 % 2 ^ d
  let up := decide (2 ^ d < 2 * r) || (decide (2 * r = 2 ^ d) && (sticky || decide (q % 2 = 1)))
  ((if up then q + 1 else q) * 2 ^ d, s)

/-- The C expression `(float)(a / b)` for a positive `double` constant `a` that
is a small integer and an `int` `b`: division in binary64, then conversion to
binary32. -/
def F32.ofDoubleQuot (a : Nat) (b : Int) : F32 :=
  if b = 0 then F32.pinf
  else
    let v := doubleDiv a b.natAbs
    F32.round (decide (b < 0)) (v.1 * 2 ^ 149) v.2 false

/-- Routine `dense`; the state of the loop over `n` is `(max, output)`.  Every
arithmetic operation is the binary32 one: `2. / M` is `F32.ofDoubleQuot 2 M`,
the `int` operands `0`, `2`, `M`, `-100` and the value of `==` are converted
by `F32.ofInt`. -/
def dense (input output weight : Fmap) (bias : Int → F32) (M N : Int) (use_relu : Bool) :
    Fmap :=
  let var_w : F32 := F32.ofDoubleQuot 2 M
  let c : F32 := F32.sqrt var_w
  let max : F32 := F32.ofInt (-100)
  (forLoop N (max, output) fun n st =>
    let one_out : F32 := F32.ofInt 0
    let one_out := forLoop M one_out fun m one_out =>
      let w_index := m * N + n
      F32.add one_out (F32.ofInt (eqInt (input m) (weight w_index)))
    let one_out := F32.mul (F32.sub (F32.mul (F32.ofInt 2) one_out) (F32.ofInt M)) c
    let biased := F32.add one_out (bias n)
    if use_relu then
      (st.1, st.2.set n (if F32.gt biased (F32.ofInt 0) then true else false))
    else if F32.gt biased st.1 then
      (biased, st.2.set n true)
    else
      (st.1, st.2.set n false)).2

/-! ## Auxiliary definitions -/

/-- Three nested loops that store `val a b c` at index `idx a b c`. -/
def nest3 (A B C : Int) (idx : Int → Int → Int → Int) (val : Int → Int → Int → bit)
    (out : Fmap) : Fmap :=
  forLoop A out fun a out =>
    forLoop B out fun b out =>
      forLoop C out fun c out => out.set (idx a b c) (val a b c)

/-- The window offsets `(c, r)` in `[0,F) × [0,F)` whose pixel `(x + c, y + r)`
lies in the non-padded interior of a width-`I` map, as the specification
words the boundary test. -/
def spec_valid_offsets (k : Consts) (x y I : Int) : Finset (Int × Int) :=
  (Finset.Ico 0 k.F ×ˢ Finset.Ico 0 k.F).filter fun p =>
    Int.tdiv k.PADDING 2 ≤ x + p.1 ∧ x + p.1 < I - Int.tdiv k.PADDING 2 ∧
    Int.tdiv k.PADDING 2 ≤ y + p.2 ∧ y + p.2 < I - Int.tdiv k.PADDING 2

/-- The specification's `valid_window_size`: the number of valid offsets. -/
def spec_valid_window_size (k : Consts) (x y I : Int) : Int :=
  ((spec_valid_offsets k x y I).card : Int)

/-- The specification's `match_count` for the single-channel convolution: the
number of valid offsets at which the input bit equals the weight bit. -/
def spec_match_count1 (k : Consts) (input : Fmap) (n x y I : Int) : Int :=
  (((spec_valid_offsets k x y I).filter fun p =>
    input ((x + p.1) + (y + p.2) * I) = k.w_conv1 (p.1 + p.2 * k.F + n * k.F * k.F)).card : Int)

/-- The specification's `match_count` of input channel `m` for the
multi-channel convolution. -/
def spec_match_count2 (k : Consts) (input : Fmap) (N n m x y I : Int) : Int :=
  (((spec_valid_offsets k x y I).filter fun p =>
    input ((x + p.1) + (y + p.2) * I + m * I * I)
      = k.w_conv2 (p.1 + p.2 * k.F + (n + m * N) * k.F * k.F)).card : Int)

/-- The specification's `match_count` of dense unit `n`: the number of inputs
`m < M` whose bit equals the weight bit `weight[m*N + n]`. -/
def spec_dense_match_count (input weight : Fmap) (M N n : Int) : Int :=
  (((Finset.Ico (0 : Int) M).filter fun m => input m = weight (m * N + n)).card : Int)

/-- The specification's `activated` value of dense unit `n` with the
arithmetic of an ordered field such as the reals:
`(2*match_count - M) * sqrt(2/M) + bias[n]`. -/
def spec_activated {α : Type} [LinearOrderedField α] (sqrt : α → α) (input weight : Fmap)
    (bias : Int → α) (M N n : Int) : α :=
  (2 * ((spec_dense_match_count input weight M N n : Int) : α) - (M : α))
    * sqrt (2 / (M : α)) + bias n

/-- The value `biased` that `dense` computes for unit `n`: the activated value
`(2*one_out - M)*c + bias[n]` in binary32, as the body of the loop over `n`
computes it. -/
def dense_biased (input weight : Fmap) (bias : Int → F32) (M N n : Int) : F32 :=
  let var_w : F32 := F32.ofDoubleQuot 2 M
  let c : F32 := F32.sqrt var_w
  let one_out : F32 := F32.ofInt 0
  let one_out := forLoop M one_out fun m one_out =>
    let w_index := m * N + n
    F32.add one_out (F32.ofInt (eqInt (input m) (weight w_index)))
  let one_out := F32.mul (F32.sub (F32.mul (F32.ofInt 2) one_out) (F32.ofInt M)) c
  F32.add one_out (bias n)

/-- The specification's `activated` value of dense unit `n` evaluated in
binary32 in the order of the code: `fl(fl(fl(fl(2*match_count) - M) * c) +
bias[n])` with `c = fl(sqrt(fl(2/M)))`. -/
def spec_activated32 (input weight : Fmap) (bias : Int → F32) (M N n : Int) : F32 :=
  F32.add
    (F32.mul
      (F32.sub (F32.mul (F32.ofInt 2) (F32.ofInt (spec_dense_match_count input weight M N n)))
        (F32.ofInt M))
      (F32.sqrt (F32.ofDoubleQuot 2 M)))
    (bias n)

/-- The comparison `a ≤ b` of two `float`s; false when either is a NaN. -/
def F32.le (a b : F32) : Bool := F32.lt a b || (decide (a = b) && decide (a ≠ F32.nan))

/-- The rational number that a finite `float` stands for (`0` for infinities
and NaN). -/
def F32.toRat : F32 → ℚ
  | F32.fin k => (k : ℚ) / 2 ^ 149
  | _ => 0

/-- The loop over the units of `dense` with the value `biased` of unit `n`
abbreviated to `a n`. -/
def dense_loop (a : Int → F32) (output : Fmap) (N : Int) (use_relu : Bool) : F32 × Fmap :=
  forLoop N (F32.ofInt (-100), output) fun n st =>
    if use_relu then
      (st.1, st.2.set n (if F32.gt (a n) (F32.ofInt 0) then true else false))
    else if F32.gt (a n) st.1 then
      (a n, st.2.set n true)
    else
      (st.1, st.2.set n false)

/-- The index map of `reshape` on flat indices: the channel-major index
`r + c * (W*W)` (`r = x + y*W`) is sent to the position-major index
`c + r * C`. -/
def reshape_index_map (k : Consts) (i : Int) : Int :=
  i / (k.O_WIDTH * k.O_WIDTH) + (i % (k.O_WIDTH * k.O_WIDTH)) * k.N_CHANNEL2

/-- A loop nest of the shape of `reshape` that only records the pairs
`pr c y x`. -/
def trace3 (C W : Int) (pr : Int → Int → Int → Int × Int) : List (Int × Int) :=
  forLoop C [] fun c tr =>
    forLoop W tr fun y tr =>
      forLoop W tr fun x tr => tr ++ [pr c y x]

/-- A set of constants on which the routines can be evaluated: 3x3 kernels,
one pixel of padding per side, kernels with a checkerboard of weights. -/
def sampleConsts : Consts where
  MAX_FMAP := 64
  F := 3
  FILTER_SIZE := 9
  PADDING := 2
  N_CHANNEL1 := 2
  N_CHANNEL2 := 2
  O_WIDTH := 2
  w_conv1 := fun i => decide (i % 2 = 0)
  w_conv2 := fun i => decide (i % 3 = 0)

/-- A sample input buffer: ones at the multiples of three. -/
def sampleInput : Fmap := fun i => decide (i % 3 = 0)

/-- A sample output buffer before a call: all ones. -/
def sampleOutput : Fmap := fun _ => true

/-- The value of a bit as an `int`: `1` or `0`. -/
def bitInt (b : bit) : Int := if b then 1 else 0

/-- The popcount loop shared by the convolutions and the dense layer,
`one_out += a[i] == b[i]` for `i < L`, on two bit sequences. -/
def xnor_popcount (a b : Fmap) (L : Int) : Int :=
  forLoop L (0 : Int) fun i one_out => one_out + eqInt (a i) (b i)

/-- The window loops `LOOP_C`/`LOOP_R` of `conv_first` at output position
`(n, x, y)`: the final `(one_out, mac_num)`. -/
def conv_first_acc (k : Consts) (input : Fmap) (n x y I : Int) : Int × Int :=
  forLoop k.F ((0 : Int), (0 : Int)) fun c acc =>
    forLoop k.F acc fun r acc =>
      if if_mac k (x + c) (y + r) I then
        let i_index := x + c + (y + r) * I
        let w_index := c + r * k.F + n * k.FILTER_SIZE
        (acc.1 + eqInt (input i_index) (k.w_conv1 w_index), acc.2 + 1)
      else
        acc

/-- The signed sum `sum` of `conv_second` at output position `(n, x, y)`: the
loop `LOOP_M` over the input channels around the window loops. -/
def conv_second_sum (k : Consts) (input : Fmap) (N n x y I : Int) : Int :=
  forLoop k.N_CHANNEL1 (0 : Int) fun m sum =>
    let acc := forLoop k.F ((0 : Int), (0 : Int)) fun c acc =>
      forLoop k.F acc fun r acc =>
        if if_mac k (x + c) (y + r) I then
          let i_index := x + c + (y + r) * I + m * (I * I)
          let w_index := c + r * k.F + (n + m * N) * k.FILTER_SIZE
          (acc.1 + eqInt (input i_index) (k.w_conv2 w_index), acc.2 + 1)
        else
          acc
    sum + (acc.1 * 2 - acc.2)

/-- Constants of the worked example: 3x3 kernels of all-one weights and no
padding. -/
def exampleConsts : Consts where
  MAX_FMAP := 64
  F := 3
  FILTER_SIZE := 9
  PADDING := 0
  N_CHANNEL1 := 1
  N_CHANNEL2 := 1
  O_WIDTH := 2
  w_conv1 := fun _ => true
  w_conv2 := fun _ => true

/-- A 4x4 single-channel input of all-one bits (zero beyond its 16 entries). -/
def onesInput4x4 : Fmap := fun i => decide (0 ≤ i ∧ i < 16)

/-- An output buffer holding zeros before a call. -/
def zeroOutput : Fmap := fun _ => false

/-- The window offsets `(c, r)` in `[0,F) × [0,F)` that fall on a real pixel of
an unpadded width-`I` map when the window is anchored at `(x, y)` of the padded
map: `0 ≤ x + c - PADDING/2 < I` and `0 ≤ y + r - PADDING/2 < I`. -/
def spec_real_offsets (k : Consts) (x y I : Int) : Finset (Int × Int) :=
  (Finset.Ico 0 k.F ×ˢ Finset.Ico 0 k.F).filter fun p =>
    0 ≤ x + p.1 - Int.tdiv k.PADDING 2 ∧ x + p.1 - Int.tdiv k.PADDING 2 < I ∧
    0 ≤ y + p.2 - Int.tdiv k.PADDING 2 ∧ y + p.2 - Int.tdiv k.PADDING 2 < I

/-- The number of real-pixel offsets at which the unpadded input bit equals
the weight bit of kernel `n`. -/
def spec_real_matches (k : Consts) (input : Fmap) (n x y I : Int) : Int :=
  (((spec_real_offsets k x y I).filter fun p =>
    input ((x + p.1 - Int.tdiv k.PADDING 2) + (y + p.2 - Int.tdiv k.PADDING 2) * I)
      = k.w_conv1 (p.1 + p.2 * k.F + n * k.F * k.F)).card : Int)

/-- The buffers that `conv_second` accesses. -/
inductive BufferId where
  | input
  | weight
  | threshold
  | output
  deriving DecidableEq

/-- Routine `conv_second` with its memory accesses recorded: the second
component of every loop state is the list of accesses `(buffer, index)` made
so far, in order.  Each guarded iteration of the window loops reads
`input[i_index]` and `w_conv2[w_index]`; each output position reads
`threshold[o_index]` and writes `output[o_index]`. -/
def conv_second_traced (k : Consts) (input output : Fmap) (threshold : Int → Int)
    (N I : Int) : Fmap × List (BufferId × Int) :=
  let O := I - k.F + 1
  let ifmap_size := I * I
  let ofmap_size := O * O
  forLoop N (output, ([] : List (BufferId × Int))) fun n st =>
    forLoop O st fun x st =>
      forLoop O st fun y st =>
        let o_index := x + y * O + n * ofmap_size
        let s := forLoop k.N_CHANNEL1 ((0 : Int), st.2) fun m s =>
          let a := forLoop k.F (((0 : Int), (0 : Int)), s.2) fun c a =>
            forLoop k.F a fun r a =>
              if if_mac k (x + c) (y + r) I then
                let i_index := x + c + (y + r) * I + m * ifmap_size
                let w_index := c + r * k.F + (n + m * N) * k.FILTER_SIZE
                ((a.1.1 + eqInt (input i_index) (k.w_conv2 w_index), a.1.2 + 1),
                  a.2 ++ [(BufferId.input, i_index), (BufferId.weight, w_index)])
              else
                a
          (s.1 + (a.1.1 * 2 - a.1.2), a.2)
        (st.1.set o_index (if s.1 > threshold o_index then true else false),
          s.2 ++ [(BufferId.threshold, o_index), (BufferId.output, o_index)])

/-- The index ranges the specification gives for the accesses of
`conv_second`, with `C = N_CHANNEL1` and `O = I-F+1`: input indices below
`C*I*I`, weight indices below `C*N*F*F`, threshold and output indices below
`N*O*O`. -/
def spec_access_in_range (k : Consts) (N I : Int) (e : BufferId × Int) : Prop :=
  match e.1 with
  | BufferId.input => 0 ≤ e.2 ∧ e.2 < k.N_CHANNEL1 * I * I
  | BufferId.weight => 0 ≤ e.2 ∧ e.2 < k.N_CHANNEL1 * N * k.F * k.F
  | BufferId.threshold => 0 ≤ e.2 ∧ e.2 < N * (I - k.F + 1) * (I - k.F + 1)
  | BufferId.output => 0 ≤ e.2 ∧ e.2 < N * (I - k.F + 1) * (I - k.F + 1)

/-! ## Loops -/

theorem forLoop_nonpos {σ : Type} {n : Int} (h : n ≤ 0) (init : σ) (body : Int → σ → σ) :
    forLoop n init body = init := by
  simp [forLoop, Int.toNat_eq_zero.mpr h]

theorem forLoop_succ {σ : Type} {n : Int} (h : 0 ≤ n) (init : σ) (body : Int → σ → σ) :
    forLoop (n + 1) init body = body n (forLoop n init body) := by
  obtain ⟨m, rfl⟩ := Int.eq_ofNat_of_zero_le h
  have e : ((m : Int) + 1).toNat = m + 1 := by omega
  simp [forLoop, e, List.range_succ, List.foldl_append]

/-- Loop invariant rule: `Inv i s` relates the loop counter to the state. -/
theorem forLoop_inv {σ : Type} (Inv : Int → σ → Prop) {n : Int} (hn : 0 ≤ n) (init : σ)
    (body : Int → σ → σ) (h0 : Inv 0 init)
    (hstep : ∀ i s, 0 ≤ i → i < n → Inv i s → Inv (i + 1) (body i s)) :
    Inv n (forLoop n init body) := by
  obtain ⟨m, rfl⟩ := Int.eq_ofNat_of_zero_le hn
  induction m with
  | zero => simpa [forLoop] using h0
  | succ m ih =>
    have hm : (0 : Int) ≤ (m : Int) := Int.ofNat_nonneg m
    rw [Nat.cast_succ, forLoop_succ hm]
    refine hstep _ _ hm (by omega) (ih hm ?_)
    intro i s hi hlt hI
    exact hstep i s hi (by push_cast; omega) hI

/-- A property kept by every iteration holds after the loop. -/
theorem forLoop_preserves {σ : Type} (P : σ → Prop) (n : Int) (init : σ)
    (body : Int → σ → σ) (h0 : P init)
    (hstep : ∀ i s, 0 ≤ i → i < n → P s → P (body i s)) :
    P (forLoop n init body) := by
  rcases le_or_lt n 0 with hn | hn
  · rw [forLoop_nonpos hn]; exact h0
  · exact forLoop_inv (fun _ s => P s) hn.le init body h0 hstep

/-- Two loops with bodies that agree on the iterations run are equal. -/
theorem forLoop_congr {σ : Type} (n : Int) (init : σ) (body body2 : Int → σ → σ)
    (h : ∀ i s, 0 ≤ i → i < n → body i s = body2 i s) :
    forLoop n init body = forLoop n init body2 := by
  rcases le_or_lt n 0 with hn | hn
  · rw [forLoop_nonpos hn, forLoop_nonpos hn]
  · refine forLoop_inv (fun i s => s = forLoop i init body2) hn.le init body ?_ ?_
    · exact (forLoop_nonpos le_rfl _ _).symm
    · intro i s hi hlt hs
      rw [forLoop_succ hi, ← hs, h i s hi hlt]

theorem Fmap.set_same (buf : Fmap) (i : Int) (v : bit) : buf.set i v i = v := by
  simp [Fmap.set]

theorem Fmap.set_other (buf : Fmap) {i j : Int} (v : bit) (h : j ≠ i) :
    buf.set i v j = buf j := by
  simp [Fmap.set, h]

/-- A loop none of whose iterations changes entry `j` leaves entry `j` alone. -/
theorem forLoop_frame (n : Int) (out : Fmap) (body : Int → Fmap → Fmap) (j : Int)
    (hframe : ∀ i s, 0 ≤ i → i < n → body i s j = s j) :
    forLoop n out body j = out j :=
  forLoop_preserves (fun s => s j = out j) n out body rfl
    (fun i s hi hlt hs => (hframe i s hi hlt).trans hs)

/-- When iteration `i0` gives entry `j` the value `v` and the other
iterations leave entry `j` alone, the loop ends with `v` in entry `j`. -/
theorem forLoop_get (n : Int) (out : Fmap) (body : Int → Fmap → Fmap) (j : Int) (v : bit)
    (i0 : Int) (h0 : 0 ≤ i0) (h1 : i0 < n) (hval : ∀ s, body i0 s j = v)
    (hframe : ∀ i s, 0 ≤ i → i < n → i ≠ i0 → body i s j = s j) :
    forLoop n out body j = v := by
  refine forLoop_inv (fun i s => i0 < i → s j = v) (by omega) out body (by omega) ?_ h1
  intro i s hi hlt hI hlt2
  rcases eq_or_ne i i0 with rfl | hne
  · exact hval s
  · rw [hframe i s hi hlt hne]
    exact hI (by omega)

theorem nest3_frame (A B C : Int) (idx : Int → Int → Int → Int)
    (val : Int → Int → Int → bit) (out : Fmap) (j : Int)
    (h : ∀ a b c, 0 ≤ a → a < A → 0 ≤ b → b < B → 0 ≤ c → c < C → idx a b c ≠ j) :
    nest3 A B C idx val out j = out j := by
  unfold nest3
  refine forLoop_frame _ _ _ _ fun a s ha ha2 => ?_
  refine forLoop_frame _ _ _ _ fun b s hb hb2 => ?_
  refine forLoop_frame _ _ _ _ fun c s hc hc2 => ?_
  exact Fmap.set_other _ _ (h a b c ha ha2 hb hb2 hc hc2).symm

theorem nest3_get (A B C : Int) (idx : Int → Int → Int → Int)
    (val : Int → Int → Int → bit) (out : Fmap) (a0 b0 c0 : Int)
    (ha : 0 ≤ a0 ∧ a0 < A) (hb : 0 ≤ b0 ∧ b0 < B) (hc : 0 ≤ c0 ∧ c0 < C)
    (hinj : ∀ a b c, 0 ≤ a → a < A → 0 ≤ b → b < B → 0 ≤ c → c < C →
      idx a b c = idx a0 b0 c0 → a = a0 ∧ b = b0 ∧ c = c0) :
    nest3 A B C idx val out (idx a0 b0 c0) = val a0 b0 c0 := by
  unfold nest3
  refine forLoop_get _ _ _ _ _ a0 ha.1 ha.2 (fun s => ?_) (fun a s h1 h2 hne => ?_)
  · refine forLoop_get _ _ _ _ _ b0 hb.1 hb.2 (fun s => ?_) (fun b s h1 h2 hne => ?_)
    · refine forLoop_get _ _ _ _ _ c0 hc.1 hc.2 (fun s => ?_) (fun c s h1 h2 hne => ?_)
      · exact Fmap.set_same _ _ _
      · refine Fmap.set_other _ _ fun e => hne ?_
        exact (hinj a0 b0 c ha.1 ha.2 hb.1 hb.2 h1 h2 e.symm).2.2
    · refine forLoop_frame _ _ _ _ fun c s hc1 hc2 => ?_
      refine Fmap.set_other _ _ fun e => hne ?_
      exact (hinj a0 b c ha.1 ha.2 h1 h2 hc1 hc2 e.symm).2.1
  · refine forLoop_frame _ _ _ _ fun b s hb1 hb2 => ?_
    refine forLoop_frame _ _ _ _ fun c s hc1 hc2 => ?_
    refine Fmap.set_other _ _ fun e => hne ?_
    exact (hinj a b c h1 h2 hb1 hb2 hc1 hc2 e.symm).1

/-- The zeroing loop `for (i = 0; i < n; i++) output[i] = 0`. -/
theorem zero_loop_get (n : Int) (out : Fmap) (j : Int) :
    forLoop n out (fun i output => output.set i false) j
      = if 0 ≤ j ∧ j < n then false else out j := by
  split
  · next h =>
    refine forLoop_get _ _ _ _ _ j h.1 h.2 (fun s => Fmap.set_same _ _ _) ?_
    intro i s _ _ hne
    exact Fmap.set_other _ _ (Ne.symm hne)
  · next h =>
    refine forLoop_frame _ _ _ _ fun i s hi hlt => ?_
    refine Fmap.set_other _ _ fun e => h ?_
    subst e; exact ⟨hi, hlt⟩

/-! ## Index arithmetic -/

/-- A row-major index `x + y * W` with `0 ≤ x < W` determines `x` and `y`. -/
theorem row_major_inj {W x y x2 y2 : Int} (hx : 0 ≤ x) (hxW : x < W) (hx2 : 0 ≤ x2)
    (hx2W : x2 < W) (h : x + y * W = x2 + y2 * W) : x = x2 ∧ y = y2 := by
  have hy : y = y2 := by
    rcases lt_trichotomy y y2 with hlt | heq | hgt
    · exfalso
      have : (y2 - y) * W ≥ 1 * W := by
        apply mul_le_mul_of_nonneg_right <;> omega
      nlinarith
    · exact heq
    · exfalso
      have : (y - y2) * W ≥ 1 * W := by
        apply mul_le_mul_of_nonneg_right <;> omega
      nlinarith
  subst hy
  exact ⟨by omega, rfl⟩

/-- A channel-major index `x + y * W + m * (W * W)` with `0 ≤ x, y < W`
determines `x`, `y` and `m`. -/
theorem chan_major_inj {W x y m x2 y2 m2 : Int} (hx : 0 ≤ x) (hxW : x < W) (hy : 0 ≤ y)
    (hyW : y < W) (hx2 : 0 ≤ x2) (hx2W : x2 < W) (hy2 : 0 ≤ y2) (hy2W : y2 < W)
    (h : x + y * W + m * (W * W) = x2 + y2 * W + m2 * (W * W)) :
    m = m2 ∧ x = x2 ∧ y = y2 := by
  have h1 : x + (y + m * W) * W = x2 + (y2 + m2 * W) * W := by linarith
  obtain ⟨e1, e2⟩ := row_major_inj hx hxW hx2 hx2W h1
  obtain ⟨e3, e4⟩ := row_major_inj hy hyW hy2 hy2W e2
  exact ⟨e4, e1, e3⟩

/-! ## Padding -/

theorem tdiv_two_bounds {p : Int} (hp : 0 ≤ p) : 0 ≤ Int.tdiv p 2 ∧ Int.tdiv p 2 ≤ p := by
  rw [Int.tdiv_eq_ediv hp (by decide)]
  omega

theorem pad_eq_nest3 (k : Consts) (input output : Fmap) (M I : Int) :
    pad k input output M I
      = nest3 M I I
          (fun m x y => (x + Int.tdiv k.PADDING 2)
            + (y + Int.tdiv k.PADDING 2) * (I + k.PADDING)
            + m * ((I + k.PADDING) * (I + k.PADDING)))
          (fun m x y => input (x + y * I + m * (I * I)))
          (forLoop k.MAX_FMAP output fun i output => output.set i false) :=
  rfl

/-- C3 (padding round trip): with `PADDING ≥ 0` and
`M * (I + PADDING)^2 ≤ MAX_FMAP`, after `pad(input, output, M, I)` the entry
`output[(x + PADDING/2) + (y + PADDING/2)*(I + PADDING) + m*(I + PADDING)^2]`
equals `input[x + y*I + m*I*I]` for every `m < M` and `x, y < I`. -/
theorem pad_round_trip (k : Consts) (input output : Fmap) (M I : Int)
    (hP : 0 ≤ k.PADDING) (_hcap : M * (I + k.PADDING) ^ 2 ≤ k.MAX_FMAP)
    (m x y : Int) (hm : 0 ≤ m ∧ m < M) (hx : 0 ≤ x ∧ x < I) (hy : 0 ≤ y ∧ y < I) :
    pad k input output M I
        ((x + Int.tdiv k.PADDING 2) + (y + Int.tdiv k.PADDING 2) * (I + k.PADDING)
          + m * (I + k.PADDING) ^ 2)
      = input (x + y * I + m * I * I) := by
  obtain ⟨h0, h1⟩ := tdiv_two_bounds hP
  have e1 : (x + Int.tdiv k.PADDING 2) + (y + Int.tdiv k.PADDING 2) * (I + k.PADDING)
        + m * (I + k.PADDING) ^ 2
      = (fun m x y => (x + Int.tdiv k.PADDING 2)
            + (y + Int.tdiv k.PADDING 2) * (I + k.PADDING)
            + m * ((I + k.PADDING) * (I + k.PADDING))) m x y := by
    simp only; ring
  have e2 : input (x + y * I + m * I * I)
      = (fun m x y => input (x + y * I + m * (I * I))) m x y := by
    simp only [mul_assoc]
  rw [pad_eq_nest3, e1, e2]
  refine nest3_get _ _ _ _ _ _ m x y hm hx hy ?_
  intro a b c _ _ hb hb2 hc hc2 e
  obtain ⟨r1, r2, r3⟩ := chan_major_inj (W := I + k.PADDING) (by omega) (by omega)
    (by omega) (by omega) (by omega) (by omega) (by omega) (by omega) e
  exact ⟨r1, by omega, by omega⟩

/-- Instance of `pad_round_trip` on the sample constants: two channels of width 3. -/
theorem pad_round_trip_witness :
    ((0 : Int) ≤ sampleConsts.PADDING ∧
      (2 : Int) * (3 + sampleConsts.PADDING) ^ 2 ≤ sampleConsts.MAX_FMAP) ∧
    pad sampleConsts sampleInput sampleOutput 2 3
        ((1 + Int.tdiv sampleConsts.PADDING 2)
          + (2 + Int.tdiv sampleConsts.PADDING 2) * (3 + sampleConsts.PADDING)
          + 1 * (3 + sampleConsts.PADDING) ^ 2)
      = sampleInput (1 + 2 * 3 + 1 * 3 * 3) :=
  ⟨by decide,
   pad_round_trip sampleConsts sampleInput sampleOutput 2 3 (by decide) (by decide)
    1 1 2 (by decide) (by decide) (by decide)⟩

/-- C4 (padding leaves the rest zero): with `M * (I + PADDING)^2 ≤ MAX_FMAP`,
after `pad(input, output, M, I)` every index `0 ≤ i < MAX_FMAP` that is not
an interior index
`(x + PADDING/2) + (y + PADDING/2)*(I + PADDING) + m*(I + PADDING)^2` with
`m < M`, `x, y < I` holds `0`; when `M = 0` or `I = 0` the whole output
`0 .. MAX_FMAP - 1` is zero. -/
theorem pad_border_zero (k : Consts) (input output : Fmap) (M I : Int)
    (_hcap : M * (I + k.PADDING) ^ 2 ≤ k.MAX_FMAP) :
    (∀ i : Int, 0 ≤ i → i < k.MAX_FMAP →
      (¬ ∃ m x y : Int, 0 ≤ m ∧ m < M ∧ 0 ≤ x ∧ x < I ∧ 0 ≤ y ∧ y < I ∧
        i = (x + Int.tdiv k.PADDING 2) + (y + Int.tdiv k.PADDING 2) * (I + k.PADDING)
          + m * (I + k.PADDING) ^ 2) →
      pad k input output M I i = false) ∧
    ((M = 0 ∨ I = 0) → ∀ i : Int, 0 ≤ i → i < k.MAX_FMAP →
      pad k input output M I i = false) := by
  have key : ∀ i : Int, 0 ≤ i → i < k.MAX_FMAP →
      (∀ m x y : Int, 0 ≤ m → m < M → 0 ≤ x → x < I → 0 ≤ y → y < I →
        (x + Int.tdiv k.PADDING 2) + (y + Int.tdiv k.PADDING 2) * (I + k.PADDING)
          + m * ((I + k.PADDING) * (I + k.PADDING)) ≠ i) →
      pad k input output M I i = false := by
    intro i hi hlt hne
    rw [pad_eq_nest3, nest3_frame _ _ _ _ _ _ i hne, zero_loop_get, if_pos ⟨hi, hlt⟩]
  refine ⟨fun i hi hlt hnot => key i hi hlt ?_, fun h0 i hi hlt => key i hi hlt ?_⟩
  · intro m x y hm hm2 hx hx2 hy hy2 e
    refine hnot ⟨m, x, y, hm, hm2, hx, hx2, hy, hy2, ?_⟩
    rw [← e]; ring
  · intro m x y hm hm2 hx hx2 hy hy2 _
    rcases h0 with h | h <;> omega

/-- Instance of `pad_border_zero`: a corner of the border, and the last entry when `M = 0`. -/
theorem pad_border_zero_witness :
    ((2 : Int) * (3 + sampleConsts.PADDING) ^ 2 ≤ sampleConsts.MAX_FMAP) ∧
    (pad sampleConsts sampleInput sampleOutput 2 3 0 = false) ∧
    (pad sampleConsts sampleInput sampleOutput 0 3 63 = false) := by
  have h := pad_border_zero sampleConsts sampleInput sampleOutput 2 3 (by decide)
  have h2 := pad_border_zero sampleConsts sampleInput sampleOutput 0 3 (by decide)
  refine ⟨by decide, h.1 0 (by decide) (by decide) ?_,
    h2.2 (Or.inl rfl) 63 (by decide) (by decide)⟩
  rintro ⟨m, x, y, hm, hm2, hx, hx2, hy, hy2, e⟩
  have e2 : Int.tdiv sampleConsts.PADDING 2 = 1 := by decide
  have e3 : sampleConsts.PADDING = 2 := rfl
  rw [e2, e3] at e
  nlinarith

/-! ## Sums computed by loops -/

theorem Ico_zero_succ {i : Int} (hi : 0 ≤ i) :
    Finset.Ico (0 : Int) (i + 1) = insert i (Finset.Ico (0 : Int) i) := by
  ext j
  simp only [Finset.mem_Ico, Finset.mem_insert]
  omega

/-- An accumulating loop computes a finite sum. -/
theorem forLoop_sum {A : Type} [AddCommMonoid A] (n : Int) (a : A) (g : Int → A) :
    forLoop n a (fun i s => s + g i) = a + ∑ i ∈ Finset.Ico (0 : Int) n, g i := by
  rcases le_or_lt n 0 with hn | hn
  · rw [forLoop_nonpos hn, Finset.Ico_eq_empty (by omega)]
    simp
  · refine forLoop_inv (fun i s => s = a + ∑ j ∈ Finset.Ico (0 : Int) i, g j) hn.le a _
      (by simp) ?_
    intro i s hi _ hs
    rw [Ico_zero_succ hi, Finset.sum_insert (by simp), hs, add_assoc,
      add_comm (g i)]

/-- The two window loops `LOOP_C`/`LOOP_R` with the counters `(one_out, mac_num)`
compute the number of matches and the number of counted positions. -/
theorem window_loop (F : Int) (valid : Int → Int → Bool) (hit : Int → Int → Int) :
    (forLoop F ((0 : Int), (0 : Int)) fun c acc =>
      forLoop F acc fun r acc =>
        if valid c r then (acc.1 + hit c r, acc.2 + 1) else acc)
      = (∑ c ∈ Finset.Ico (0 : Int) F, ∑ r ∈ Finset.Ico (0 : Int) F,
            (if valid c r then hit c r else 0),
         ∑ c ∈ Finset.Ico (0 : Int) F, ∑ r ∈ Finset.Ico (0 : Int) F,
            (if valid c r then 1 else 0)) := by
  have inner : ∀ (c : Int) (acc : Int × Int),
      (forLoop F acc fun r acc =>
        if valid c r then (acc.1 + hit c r, acc.2 + 1) else acc)
        = acc + ∑ r ∈ Finset.Ico (0 : Int) F,
            (if valid c r then (hit c r, (1 : Int)) else 0) := by
    intro c acc
    rw [← forLoop_sum]
    refine forLoop_congr _ _ _ _ fun r s _ _ => ?_
    split <;> simp [Prod.ext_iff]
  have outer : (forLoop F ((0 : Int), (0 : Int)) fun c acc =>
      forLoop F acc fun r acc =>
        if valid c r then (acc.1 + hit c r, acc.2 + 1) else acc)
      = (0 : Int × Int) + ∑ c ∈ Finset.Ico (0 : Int) F, ∑ r ∈ Finset.Ico (0 : Int) F,
            (if valid c r then (hit c r, (1 : Int)) else 0) := by
    rw [← forLoop_sum]
    exact forLoop_congr _ _ _ _ fun c s _ _ => inner c s
  rw [outer, zero_add]
  refine Prod.ext ?_ ?_
  · simp only [Prod.fst_sum]
    refine Finset.sum_congr rfl fun c _ => Finset.sum_congr rfl fun r _ => ?_
    split <;> rfl
  · simp only [Prod.snd_sum]
    refine Finset.sum_congr rfl fun c _ => Finset.sum_congr rfl fun r _ => ?_
    split <;> rfl

theorem if_mac_iff (k : Consts) (x y I : Int) :
    if_mac k x y I = true ↔
      (Int.tdiv k.PADDING 2 ≤ x ∧ x < I - Int.tdiv k.PADDING 2 ∧
        Int.tdiv k.PADDING 2 ≤ y ∧ y < I - Int.tdiv k.PADDING 2) := by
  unfold if_mac
  simp only [Bool.or_eq_true, decide_eq_true_eq, ge_iff_le]
  split <;> constructor <;> intro h <;> first | omega | simp_all

/-- The double sum counting positions accepted by `if_mac` is the
specification's `valid_window_size`. -/
theorem valid_sum_eq (k : Consts) (x y I : Int) :
    (∑ c ∈ Finset.Ico (0 : Int) k.F, ∑ r ∈ Finset.Ico (0 : Int) k.F,
        (if if_mac k (x + c) (y + r) I then (1 : Int) else 0))
      = spec_valid_window_size k x y I := by
  unfold spec_valid_window_size spec_valid_offsets
  rw [Finset.card_filter, Finset.sum_product]
  push_cast
  refine Finset.sum_congr rfl fun c _ => Finset.sum_congr rfl fun r _ => ?_
  simp only [if_mac_iff]

/-- The double sum of matches at positions accepted by `if_mac` is the size of
the set of valid offsets that satisfy the match predicate `q`. -/
theorem match_sum_eq (k : Consts) (x y I : Int) (a b : Int → Int → bit)
    (q : Int × Int → Prop) [DecidablePred q]
    (hq : ∀ c r, a c r = b c r ↔ q (c, r)) :
    (∑ c ∈ Finset.Ico (0 : Int) k.F, ∑ r ∈ Finset.Ico (0 : Int) k.F,
        (if if_mac k (x + c) (y + r) I then eqInt (a c r) (b c r) else 0))
      = (((spec_valid_offsets k x y I).filter q).card : Int) := by
  unfold spec_valid_offsets
  rw [Finset.filter_filter, Finset.card_filter, Finset.sum_product]
  push_cast
  refine Finset.sum_congr rfl fun c _ => Finset.sum_congr rfl fun r _ => ?_
  by_cases h1 : if_mac k (x + c) (y + r) I = true
  · have h2 := (if_mac_iff k (x + c) (y + r) I).mp h1
    by_cases h3 : a c r = b c r
    · simp [h1, h2, eqInt, h3, (hq c r).mp h3]
    · have h4 : ¬ q (c, r) := fun h => h3 ((hq c r).mpr h)
      simp [h1, eqInt, h3, h4]
  · have h2 := mt (if_mac_iff k (x + c) (y + r) I).mpr h1
    rw [if_neg h1, if_neg fun h => h2 h.1]

/-! ## Convolution -/

/-- The window loops of `conv_first` at output position `(n, x, y)`. -/
theorem conv_first_window (k : Consts) (input : Fmap) (n x y I : Int)
    (hFS : k.FILTER_SIZE = k.F * k.F) :
    (forLoop k.F ((0 : Int), (0 : Int)) fun c acc =>
      forLoop k.F acc fun r acc =>
        if if_mac k (x + c) (y + r) I then
          (acc.1 + eqInt (input (x + c + (y + r) * I))
            (k.w_conv1 (c + r * k.F + n * k.FILTER_SIZE)), acc.2 + 1)
        else
          acc)
      = (spec_match_count1 k input n x y I, spec_valid_window_size k x y I) := by
  refine (window_loop k.F (fun c r => if_mac k (x + c) (y + r) I)
    (fun c r => eqInt (input (x + c + (y + r) * I))
      (k.w_conv1 (c + r * k.F + n * k.FILTER_SIZE)))).trans (Prod.ext ?_ ?_)
  · refine match_sum_eq k x y I _ _ _ fun c r => ?_
    simp only [hFS, mul_assoc]
  · exact valid_sum_eq k x y I

/-- The window loops of `conv_second` at output position `(n, x, y)` and
input channel `m`. -/
theorem conv_second_window (k : Consts) (input : Fmap) (N n m x y I : Int)
    (hFS : k.FILTER_SIZE = k.F * k.F) :
    (forLoop k.F ((0 : Int), (0 : Int)) fun c acc =>
      forLoop k.F acc fun r acc =>
        if if_mac k (x + c) (y + r) I then
          (acc.1 + eqInt (input (x + c + (y + r) * I + m * (I * I)))
            (k.w_conv2 (c + r * k.F + (n + m * N) * k.FILTER_SIZE)), acc.2 + 1)
        else
          acc)
      = (spec_match_count2 k input N n m x y I, spec_valid_window_size k x y I) := by
  refine (window_loop k.F (fun c r => if_mac k (x + c) (y + r) I)
    (fun c r => eqInt (input (x + c + (y + r) * I + m * (I * I)))
      (k.w_conv2 (c + r * k.F + (n + m * N) * k.FILTER_SIZE)))).trans (Prod.ext ?_ ?_)
  · refine match_sum_eq k x y I _ _ _ fun c r => ?_
    simp only [hFS, mul_assoc]
  · exact valid_sum_eq k x y I

/-- Output indices of a convolution are distinct for distinct `(n, x, y)`. -/
theorem conv_index_inj (N O : Int) (n0 x0 y0 : Int) (hx : 0 ≤ x0 ∧ x0 < O)
    (hy : 0 ≤ y0 ∧ y0 < O) (n x y : Int) (_ : 0 ≤ n) (_ : n < N) (hx1 : 0 ≤ x)
    (hx2 : x < O) (hy1 : 0 ≤ y)
    (hy2 : y < O) (e : x + y * O + n * (O * O) = x0 + y0 * O + n0 * (O * O)) :
    n = n0 ∧ x = x0 ∧ y = y0 :=
  chan_major_inj hx1 hx2 hy1 hy2 hx.1 hx.2 hy.1 hy.2 e

/-- C1 (`conv_first` is the thresholded XNOR-popcount): with
`FILTER_SIZE = F*F`, for `I ≥ F`, `n < N` and `x, y < O = I-F+1`, after
`conv_first(input, output, threshold, N, I)` the entry
`output[x + y*O + n*O*O]` is `1` if
`2*match_count - valid_window_size > threshold[x + y*O + n*O*O]` and `0`
otherwise. -/
theorem conv_first_spec (k : Consts) (input output : Fmap) (threshold : Int → Int)
    (N I : Int) (hFS : k.FILTER_SIZE = k.F * k.F) (_hI : k.F ≤ I) (n x y : Int)
    (hn : 0 ≤ n ∧ n < N) (hx : 0 ≤ x ∧ x < I - k.F + 1) (hy : 0 ≤ y ∧ y < I - k.F + 1) :
    conv_first k input output threshold N I
        (x + y * (I - k.F + 1) + n * (I - k.F + 1) * (I - k.F + 1))
      = if 2 * spec_match_count1 k input n x y I - spec_valid_window_size k x y I
            > threshold (x + y * (I - k.F + 1) + n * (I - k.F + 1) * (I - k.F + 1))
        then true else false := by
  have e : conv_first k input output threshold N I
      = nest3 N (I - k.F + 1) (I - k.F + 1)
          (fun n x y => x + y * (I - k.F + 1) + n * ((I - k.F + 1) * (I - k.F + 1)))
          (fun n x y =>
            if 0 + ((spec_match_count1 k input n x y I, spec_valid_window_size k x y I).1 * 2
                - (spec_match_count1 k input n x y I, spec_valid_window_size k x y I).2)
              > threshold (x + y * (I - k.F + 1) + n * ((I - k.F + 1) * (I - k.F + 1)))
            then true else false) output := by
    unfold conv_first nest3
    simp only [conv_first_window k input _ _ _ I hFS]
  rw [e, mul_assoc n]
  refine (nest3_get _ _ _ _ _ output n x y hn hx hy
    (conv_index_inj N (I - k.F + 1) n x y hx hy)).trans ?_
  simp only [zero_add, mul_comm _ (2 : Int)]

/-- Instance of `conv_first_spec` on the sample constants, `N = 2`, `I = 5`. -/
theorem conv_first_spec_witness :
    (sampleConsts.FILTER_SIZE = sampleConsts.F * sampleConsts.F ∧ sampleConsts.F ≤ 5) ∧
    conv_first sampleConsts sampleInput sampleOutput (fun _ => 0) 2 5
        (1 + 2 * (5 - sampleConsts.F + 1)
          + 1 * (5 - sampleConsts.F + 1) * (5 - sampleConsts.F + 1))
      = if 2 * spec_match_count1 sampleConsts sampleInput 1 1 2 5
              - spec_valid_window_size sampleConsts 1 2 5
            > (fun _ => (0 : Int)) (1 + 2 * (5 - sampleConsts.F + 1)
                + 1 * (5 - sampleConsts.F + 1) * (5 - sampleConsts.F + 1))
        then true else false :=
  ⟨by decide,
   conv_first_spec sampleConsts sampleInput sampleOutput (fun _ => 0) 2 5 (by decide)
    (by decide) 1 1 2 (by decide) (by decide) (by decide)⟩

/-- C2 (`conv_second` sums over the input channels before thresholding): with
`FILTER_SIZE = F*F`, for `I ≥ F`, `n < N` and `x, y < O = I-F+1`, after
`conv_second(input, output, threshold, N, I)` the entry
`output[x + y*O + n*O*O]` is `1` exactly when the sum over the input channels
`m < N_CHANNEL1` of `2*match_count_m - valid_window_size` exceeds
`threshold[x + y*O + n*O*O]`. -/
theorem conv_second_spec (k : Consts) (input output : Fmap) (threshold : Int → Int)
    (N I : Int) (hFS : k.FILTER_SIZE = k.F * k.F) (_hI : k.F ≤ I) (n x y : Int)
    (hn : 0 ≤ n ∧ n < N) (hx : 0 ≤ x ∧ x < I - k.F + 1) (hy : 0 ≤ y ∧ y < I - k.F + 1) :
    conv_second k input output threshold N I
        (x + y * (I - k.F + 1) + n * (I - k.F + 1) * (I - k.F + 1)) = true
      ↔ (∑ m ∈ Finset.Ico (0 : Int) k.N_CHANNEL1,
            (2 * spec_match_count2 k input N n m x y I - spec_valid_window_size k x y I))
          > threshold (x + y * (I - k.F + 1) + n * (I - k.F + 1) * (I - k.F + 1)) := by
  have e : conv_second k input output threshold N I
      = nest3 N (I - k.F + 1) (I - k.F + 1)
          (fun n x y => x + y * (I - k.F + 1) + n * ((I - k.F + 1) * (I - k.F + 1)))
          (fun n x y =>
            if (0 + ∑ m ∈ Finset.Ico (0 : Int) k.N_CHANNEL1,
                ((spec_match_count2 k input N n m x y I,
                    spec_valid_window_size k x y I).1 * 2
                  - (spec_match_count2 k input N n m x y I,
                    spec_valid_window_size k x y I).2))
              > threshold (x + y * (I - k.F + 1) + n * ((I - k.F + 1) * (I - k.F + 1)))
            then true else false) output := by
    unfold conv_second nest3
    simp only [conv_second_window k input N _ _ _ _ I hFS, forLoop_sum]
  rw [e, mul_assoc n]
  rw [nest3_get _ _ _ _ _ output n x y hn hx hy
    (conv_index_inj N (I - k.F + 1) n x y hx hy)]
  simp only [zero_add, mul_comm _ (2 : Int)]
  simp

/-- Instance of `conv_second_spec` on the sample constants, `N = 2`, `I = 5`. -/
theorem conv_second_spec_witness :
    (sampleConsts.FILTER_SIZE = sampleConsts.F * sampleConsts.F ∧ sampleConsts.F ≤ 5) ∧
    (conv_second sampleConsts sampleInput sampleOutput (fun _ => 0) 2 5
        (1 + 2 * (5 - sampleConsts.F + 1)
          + 1 * (5 - sampleConsts.F + 1) * (5 - sampleConsts.F + 1)) = true
      ↔ (∑ m ∈ Finset.Ico (0 : Int) sampleConsts.N_CHANNEL1,
            (2 * spec_match_count2 sampleConsts sampleInput 2 1 m 1 2 5
              - spec_valid_window_size sampleConsts 1 2 5))
          > (fun _ => (0 : Int)) (1 + 2 * (5 - sampleConsts.F + 1)
              + 1 * (5 - sampleConsts.F + 1) * (5 - sampleConsts.F + 1))) :=
  ⟨by decide,
   conv_second_spec sampleConsts sampleInput sampleOutput (fun _ => 0) 2 5 (by decide)
    (by decide) 1 1 2 (by decide) (by decide) (by decide)⟩

/-! ## Dense layer -/

theorem forLoop_one {σ : Type} (init : σ) (body : Int → σ → σ) :
    forLoop 1 init body = body 0 init := rfl

theorem forLoop_two {σ : Type} (init : σ) (body : Int → σ → σ) :
    forLoop 2 init body = body 1 (body 0 init) := rfl

/-! ## Max pooling -/

theorem max_pool_eq_nest3 (k : Consts) (input output : Fmap) (M I : Int) :
    max_pool k input output M I
      = nest3 M (Int.tdiv I 2) (Int.tdiv I 2)
          (fun m x y => x + y * Int.tdiv I 2 + m * (Int.tdiv I 2 * Int.tdiv I 2))
          (fun m x y =>
            forLoop 2 false fun c max =>
              forLoop 2 max fun r max =>
                if input (2 * x + c + (2 * y + r) * I + m * (I * I)) then true else max)
          (forLoop k.MAX_FMAP output fun i output => output.set i false) :=
  rfl

/-- The 2x2 reduction of `max_pool` is the logical OR of the four bits. -/
theorem pool_window (input : Fmap) (I m x y : Int) :
    (forLoop 2 false fun c max =>
        forLoop 2 max fun r max =>
          if input (2 * x + c + (2 * y + r) * I + m * (I * I)) then true else max) = true
      ↔ ∃ c r : Int, (c = 0 ∨ c = 1) ∧ (r = 0 ∨ r = 1) ∧
          input ((2 * x + c) + (2 * y + r) * I + m * I * I) = true := by
  rw [forLoop_two, forLoop_two, forLoop_two]
  simp only [mul_assoc]
  constructor
  · intro h
    split at h
    · next h1 => exact ⟨1, 1, Or.inr rfl, Or.inr rfl, h1⟩
    · split at h
      · next h1 => exact ⟨1, 0, Or.inr rfl, Or.inl rfl, h1⟩
      · split at h
        · next h1 => exact ⟨0, 1, Or.inl rfl, Or.inr rfl, h1⟩
        · split at h
          · next h1 => exact ⟨0, 0, Or.inl rfl, Or.inl rfl, h1⟩
          · exact absurd h (by decide)
  · rintro ⟨c, r, hc, hr, h⟩
    rcases hc with rfl | rfl <;> rcases hr with rfl | rfl <;>
      (simp only [add_zero] at h ⊢; simp [h])

/-- Every index written by a channel-major loop nest is below `M * O * O`. -/
theorem chan_major_lt {M O m x y : Int} (hm : 0 ≤ m) (hm2 : m < M) (hx : 0 ≤ x) (hx2 : x < O)
    (hy : 0 ≤ y) (hy2 : y < O) :
    0 ≤ x + y * O + m * (O * O) ∧ x + y * O + m * (O * O) < M * O * O := by
  have h1 : 0 ≤ y * O := mul_nonneg hy (by omega)
  have h2 : 0 ≤ m * (O * O) := mul_nonneg hm (mul_nonneg (by omega) (by omega))
  have h3 : (y + 1) * O ≤ O * O := mul_le_mul_of_nonneg_right (by omega) (by omega)
  have h4 : (m + 1) * (O * O) ≤ M * (O * O) :=
    mul_le_mul_of_nonneg_right (by omega) (mul_nonneg (by omega) (by omega))
  constructor
  · linarith
  · nlinarith

/-- C8 (`max_pool` is the 2x2 logical OR and zeroes the rest): for even `I`
with `M*I*I ≤ MAX_FMAP` and `O = I/2`, after `max_pool(input, output, M, I)`
the entry `output[x + y*O + m*O*O]` (`m < M`, `x, y < O`) is `1` exactly when
one of `input[(2x+c) + (2y+r)*I + m*I*I]`, `c, r ∈ {0,1}`, is `1`, and every
output index `i` with `M*O*O ≤ i < MAX_FMAP` holds `0`. -/
theorem max_pool_spec (k : Consts) (input output : Fmap) (M I : Int)
    (_hI : I % 2 = 0) (_hcap : M * I * I ≤ k.MAX_FMAP) :
    (∀ m x y : Int, 0 ≤ m → m < M → 0 ≤ x → x < Int.tdiv I 2 → 0 ≤ y → y < Int.tdiv I 2 →
      (max_pool k input output M I
          (x + y * Int.tdiv I 2 + m * Int.tdiv I 2 * Int.tdiv I 2) = true
        ↔ ∃ c r : Int, (c = 0 ∨ c = 1) ∧ (r = 0 ∨ r = 1) ∧
            input ((2 * x + c) + (2 * y + r) * I + m * I * I) = true)) ∧
    (∀ i : Int, 0 ≤ i → M * Int.tdiv I 2 * Int.tdiv I 2 ≤ i → i < k.MAX_FMAP →
      max_pool k input output M I i = false) := by
  constructor
  · intro m x y hm hm2 hx hx2 hy hy2
    rw [max_pool_eq_nest3, mul_assoc m]
    rw [nest3_get _ _ _ _ _ _ m x y ⟨hm, hm2⟩ ⟨hx, hx2⟩ ⟨hy, hy2⟩
      (conv_index_inj M (Int.tdiv I 2) m x y ⟨hx, hx2⟩ ⟨hy, hy2⟩)]
    exact pool_window input I m x y
  · intro i hi hlo hhi
    rw [max_pool_eq_nest3, nest3_frame, zero_loop_get, if_pos ⟨hi, hhi⟩]
    intro m x y hm hm2 hx hx2 hy hy2 e
    have := (chan_major_lt hm hm2 hx hx2 hy hy2).2
    omega

/-- Instance of `max_pool_spec` on the sample constants, `M = 2`, `I = 4`. -/
theorem max_pool_spec_witness :
    ((4 : Int) % 2 = 0 ∧ (2 : Int) * 4 * 4 ≤ sampleConsts.MAX_FMAP) ∧
    (max_pool sampleConsts sampleInput sampleOutput 2 4
        (1 + 0 * Int.tdiv 4 2 + 1 * Int.tdiv 4 2 * Int.tdiv 4 2) = true
      ↔ ∃ c r : Int, (c = 0 ∨ c = 1) ∧ (r = 0 ∨ r = 1) ∧
          sampleInput ((2 * 1 + c) + (2 * 0 + r) * 4 + 1 * 4 * 4) = true) ∧
    max_pool sampleConsts sampleInput sampleOutput 2 4 8 = false :=
  ⟨by decide,
   (max_pool_spec sampleConsts sampleInput sampleOutput 2 4 (by decide) (by decide)).1
      1 1 0 (by decide) (by decide) (by decide) (by decide) (by decide) (by decide),
   (max_pool_spec sampleConsts sampleInput sampleOutput 2 4 (by decide) (by decide)).2
      8 (by decide) (by decide) (by decide)⟩

/-! ## Reshape -/

theorem reshape_eq_nest3 (k : Consts) (input output : Fmap) :
    reshape k input output
      = nest3 k.N_CHANNEL2 k.O_WIDTH k.O_WIDTH
          (fun c y x => c + (x + y * k.O_WIDTH) * k.N_CHANNEL2)
          (fun c y x => input (x + y * k.O_WIDTH + c * k.O_WIDTH * k.O_WIDTH)) output :=
  rfl

/-- Position-major indices are distinct for distinct `(c, y, x)`. -/
theorem pos_major_inj {C W c x y c2 x2 y2 : Int} (hc : 0 ≤ c) (hcC : c < C) (hx : 0 ≤ x)
    (hxW : x < W) (hc2 : 0 ≤ c2) (hc2C : c2 < C) (hx2 : 0 ≤ x2) (hx2W : x2 < W)
    (h : c + (x + y * W) * C = c2 + (x2 + y2 * W) * C) : c = c2 ∧ y = y2 ∧ x = x2 := by
  obtain ⟨e1, e2⟩ := row_major_inj hc hcC hc2 hc2C h
  obtain ⟨e3, e4⟩ := row_major_inj hx hxW hx2 hx2W e2
  exact ⟨e1, e4, e3⟩

/-- C9 (`reshape` turns the channel-major layout into the position-major
layout): with `C = N_CHANNEL2` and `W = O_WIDTH`, after
`reshape(input, output)`, for every `c < C` and `x, y < W`,
`output[c + (x + y*W)*C] = input[x + y*W + c*W*W]`. -/
theorem reshape_spec (k : Consts) (input output : Fmap) (c x y : Int)
    (hc : 0 ≤ c ∧ c < k.N_CHANNEL2) (hx : 0 ≤ x ∧ x < k.O_WIDTH)
    (hy : 0 ≤ y ∧ y < k.O_WIDTH) :
    reshape k input output (c + (x + y * k.O_WIDTH) * k.N_CHANNEL2)
      = input (x + y * k.O_WIDTH + c * k.O_WIDTH * k.O_WIDTH) := by
  rw [reshape_eq_nest3]
  refine nest3_get _ _ _ _ _ output c y x hc hy hx ?_
  intro a b d ha ha2 _ _ hd hd2 e
  exact pos_major_inj ha ha2 hd hd2 hc.1 hc.2 hx.1 hx.2 e

/-- Instance of `reshape_spec` on the sample constants. -/
theorem reshape_spec_witness :
    reshape sampleConsts sampleInput sampleOutput
        (1 + (0 + 1 * sampleConsts.O_WIDTH) * sampleConsts.N_CHANNEL2)
      = sampleInput (0 + 1 * sampleConsts.O_WIDTH
          + 1 * sampleConsts.O_WIDTH * sampleConsts.O_WIDTH) :=
  reshape_spec sampleConsts sampleInput sampleOutput 1 0 1 (by decide) (by decide)
    (by decide)

/-! ## Reshape as a bijection of indices -/

/-- A loop over a pair of independent states is a pair of loops. -/
theorem forLoop_pair {α β : Type} (n : Int) (init : α × β) (f : Int → α → α)
    (g : Int → β → β) :
    forLoop n init (fun i st => (f i st.1, g i st.2))
      = (forLoop n init.1 f, forLoop n init.2 g) := by
  rcases le_or_lt n 0 with hn | hn
  · simp [forLoop_nonpos hn]
  · refine forLoop_inv (fun i st => st = (forLoop i init.1 f, forLoop i init.2 g)) hn.le
      init _ ?_ ?_
    · simp [forLoop_nonpos le_rfl]
    · intro i st hi _ hs
      rw [forLoop_succ hi, forLoop_succ hi, hs]

theorem forLoop_append_init {β : Type} (n : Int) (tr : List β) (g : Int → List β) :
    forLoop n tr (fun i t => t ++ g i) = tr ++ forLoop n [] (fun i t => t ++ g i) := by
  rcases le_or_lt n 0 with hn | hn
  · simp [forLoop_nonpos hn]
  · refine forLoop_inv (fun i s => s = tr ++ forLoop i [] (fun i t => t ++ g i)) hn.le
      tr _ ?_ ?_
    · simp [forLoop_nonpos le_rfl]
    · intro i s hi _ hs
      rw [forLoop_succ hi, hs, List.append_assoc]

theorem mem_forLoop_append {β : Type} (n : Int) (g : Int → List β) (b : β) :
    b ∈ forLoop n [] (fun i t => t ++ g i) ↔ ∃ i : Int, 0 ≤ i ∧ i < n ∧ b ∈ g i := by
  rcases le_or_lt n 0 with hn | hn
  · rw [forLoop_nonpos hn]
    simp only [List.not_mem_nil, false_iff, not_exists]
    intro i h
    omega
  · refine forLoop_inv (fun i s => b ∈ s ↔ ∃ j : Int, 0 ≤ j ∧ j < i ∧ b ∈ g j) hn.le
      [] _ ?_ ?_
    · simp only [List.not_mem_nil, false_iff, not_exists]
      intro i h
      omega
    · intro i s hi _ hs
      rw [List.mem_append, hs]
      constructor
      · rintro (⟨j, hj, hj2, hb⟩ | hb)
        · exact ⟨j, hj, by omega, hb⟩
        · exact ⟨i, hi, by omega, hb⟩
      · rintro ⟨j, hj, hj2, hb⟩
        rcases eq_or_ne j i with rfl | hne
        · exact Or.inr hb
        · exact Or.inl ⟨j, hj, by omega, hb⟩

theorem nodup_forLoop_append {β : Type} (n : Int) (g : Int → List β)
    (hg : ∀ i : Int, 0 ≤ i → i < n → (g i).Nodup)
    (hdisj : ∀ i j : Int, 0 ≤ i → i < j → j < n → ∀ b, b ∈ g i → b ∈ g j → False) :
    (forLoop n [] (fun i t => t ++ g i)).Nodup := by
  rcases le_or_lt n 0 with hn | hn
  · rw [forLoop_nonpos hn]
    exact List.nodup_nil
  · refine (forLoop_inv (fun i s => s = forLoop i [] (fun i t => t ++ g i) ∧ s.Nodup)
      hn.le [] _ ⟨(forLoop_nonpos le_rfl _ _).symm, List.nodup_nil⟩ ?_).2
    intro i s hi hlt hs
    refine ⟨by rw [forLoop_succ hi, ← hs.1], ?_⟩
    refine List.nodup_append.mpr ⟨hs.2, hg i hi hlt, ?_⟩
    intro b hb hb2
    rw [hs.1, mem_forLoop_append] at hb
    obtain ⟨j, hj, hj2, hb3⟩ := hb
    exact hdisj j i hj hj2 hlt b hb3 hb2

theorem trace3_eq (C W : Int) (pr : Int → Int → Int → Int × Int) :
    trace3 C W pr
      = forLoop C [] fun c tr => tr ++
          forLoop W [] fun y tr => tr ++
            forLoop W [] fun x tr => tr ++ [pr c y x] := by
  unfold trace3
  refine forLoop_congr _ _ _ _ fun c tr _ _ => ?_
  rw [← forLoop_append_init]
  refine forLoop_congr _ _ _ _ fun y tr _ _ => ?_
  rw [← forLoop_append_init]

theorem mem_trace3 (C W : Int) (pr : Int → Int → Int → Int × Int) (p : Int × Int) :
    p ∈ trace3 C W pr ↔ ∃ c x y : Int, 0 ≤ c ∧ c < C ∧ 0 ≤ x ∧ x < W ∧ 0 ≤ y ∧ y < W ∧
      p = pr c y x := by
  rw [trace3_eq, mem_forLoop_append]
  simp only [mem_forLoop_append, List.mem_singleton]
  constructor
  · rintro ⟨c, hc, hc2, y, hy, hy2, x, hx, hx2, e⟩
    exact ⟨c, x, y, hc, hc2, hx, hx2, hy, hy2, e⟩
  · rintro ⟨c, x, y, hc, hc2, hx, hx2, hy, hy2, e⟩
    exact ⟨c, hc, hc2, y, hy, hy2, x, hx, hx2, e⟩

theorem nodup_trace3 (C W : Int) (pr : Int → Int → Int → Int × Int)
    (hinj : ∀ c y x c2 y2 x2 : Int, 0 ≤ c → c < C → 0 ≤ y → y < W → 0 ≤ x → x < W →
      0 ≤ c2 → c2 < C → 0 ≤ y2 → y2 < W → 0 ≤ x2 → x2 < W →
      pr c y x = pr c2 y2 x2 → c = c2 ∧ y = y2 ∧ x = x2) :
    (trace3 C W pr).Nodup := by
  rw [trace3_eq]
  refine nodup_forLoop_append _ _ (fun c hc hc2 => ?_) ?_
  · refine nodup_forLoop_append _ _ (fun y hy hy2 => ?_) ?_
    · refine nodup_forLoop_append _ _ (fun x _ _ => List.nodup_singleton _) ?_
      intro x x2 hx hlt hx2 b hb hb2
      rw [List.mem_singleton] at hb hb2
      have := hinj c y x c y x2 hc hc2 hy hy2 hx (by omega) hc hc2 hy hy2 (by omega) hx2
        (hb.symm.trans hb2)
      omega
    · intro y y2 hy hlt hy2 b hb hb2
      rw [mem_forLoop_append] at hb hb2
      obtain ⟨x, hx, hx2, e⟩ := hb
      obtain ⟨x3, hx3, hx4, e2⟩ := hb2
      rw [List.mem_singleton] at e e2
      have := hinj c y x c y2 x3 hc hc2 hy (by omega) hx hx2 hc hc2 (by omega) hy2 hx3 hx4
        (e.symm.trans e2)
      omega
  · intro c c2 hc hlt hc2 b hb hb2
    rw [mem_forLoop_append] at hb hb2
    obtain ⟨y, hy, hy2, hb⟩ := hb
    obtain ⟨y3, hy3, hy4, hb2⟩ := hb2
    rw [mem_forLoop_append] at hb hb2
    obtain ⟨x, hx, hx2, e⟩ := hb
    obtain ⟨x3, hx3, hx4, e2⟩ := hb2
    rw [List.mem_singleton] at e e2
    have := hinj c y x c2 y3 x3 hc (by omega) hy hy2 hx hx2 (by omega) hc2 hy3 hy4 hx3 hx4
      (e.symm.trans e2)
    omega

/-- The instrumented `reshape` computes the output of `reshape` and the trace
of its loop nest. -/
theorem reshape_traced_eq (k : Consts) (input output : Fmap) :
    reshape_traced k input output
      = (reshape k input output,
         trace3 k.N_CHANNEL2 k.O_WIDTH
           (fun c y x => (x + y * k.O_WIDTH + c * k.O_WIDTH * k.O_WIDTH,
             c + (x + y * k.O_WIDTH) * k.N_CHANNEL2))) := by
  have h1 : ∀ (c y : Int) (st : Fmap × List (Int × Int)),
      (forLoop k.O_WIDTH st fun x st =>
        (st.1.set (c + (x + y * k.O_WIDTH) * k.N_CHANNEL2)
            (input (x + y * k.O_WIDTH + c * k.O_WIDTH * k.O_WIDTH)),
          st.2 ++ [(x + y * k.O_WIDTH + c * k.O_WIDTH * k.O_WIDTH,
            c + (x + y * k.O_WIDTH) * k.N_CHANNEL2)]))
        = (forLoop k.O_WIDTH st.1 fun x output =>
            output.set (c + (x + y * k.O_WIDTH) * k.N_CHANNEL2)
              (input (x + y * k.O_WIDTH + c * k.O_WIDTH * k.O_WIDTH)),
           forLoop k.O_WIDTH st.2 fun x tr =>
            tr ++ [(x + y * k.O_WIDTH + c * k.O_WIDTH * k.O_WIDTH,
              c + (x + y * k.O_WIDTH) * k.N_CHANNEL2)]) :=
    fun c y st => forLoop_pair k.O_WIDTH st
      (fun x output => output.set (c + (x + y * k.O_WIDTH) * k.N_CHANNEL2)
        (input (x + y * k.O_WIDTH + c * k.O_WIDTH * k.O_WIDTH)))
      (fun x tr => tr ++ [(x + y * k.O_WIDTH + c * k.O_WIDTH * k.O_WIDTH,
        c + (x + y * k.O_WIDTH) * k.N_CHANNEL2)])
  have h2 : ∀ (c : Int) (st : Fmap × List (Int × Int)),
      (forLoop k.O_WIDTH st fun y st =>
        forLoop k.O_WIDTH st fun x st =>
          (st.1.set (c + (x + y * k.O_WIDTH) * k.N_CHANNEL2)
              (input (x + y * k.O_WIDTH + c * k.O_WIDTH * k.O_WIDTH)),
            st.2 ++ [(x + y * k.O_WIDTH + c * k.O_WIDTH * k.O_WIDTH,
              c + (x + y * k.O_WIDTH) * k.N_CHANNEL2)]))
        = (forLoop k.O_WIDTH st.1 fun y output =>
            forLoop k.O_WIDTH output fun x output =>
              output.set (c + (x + y * k.O_WIDTH) * k.N_CHANNEL2)
                (input (x + y * k.O_WIDTH + c * k.O_WIDTH * k.O_WIDTH)),
           forLoop k.O_WIDTH st.2 fun y tr =>
            forLoop k.O_WIDTH tr fun x tr =>
              tr ++ [(x + y * k.O_WIDTH + c * k.O_WIDTH * k.O_WIDTH,
                c + (x + y * k.O_WIDTH) * k.N_CHANNEL2)]) := by
    intro c st
    rw [forLoop_congr _ _ _ _ (fun y s _ _ => h1 c y s)]
    exact forLoop_pair k.O_WIDTH st
      (fun y output => forLoop k.O_WIDTH output fun x output =>
        output.set (c + (x + y * k.O_WIDTH) * k.N_CHANNEL2)
          (input (x + y * k.O_WIDTH + c * k.O_WIDTH * k.O_WIDTH)))
      (fun y tr => forLoop k.O_WIDTH tr fun x tr =>
        tr ++ [(x + y * k.O_WIDTH + c * k.O_WIDTH * k.O_WIDTH,
          c + (x + y * k.O_WIDTH) * k.N_CHANNEL2)])
  unfold reshape_traced reshape trace3
  simp only []
  rw [forLoop_congr _ _ _ _ (fun c s _ _ => h2 c s)]
  exact forLoop_pair k.N_CHANNEL2 (output, [])
    (fun c output => forLoop k.O_WIDTH output fun y output =>
      forLoop k.O_WIDTH output fun x output =>
        output.set (c + (x + y * k.O_WIDTH) * k.N_CHANNEL2)
          (input (x + y * k.O_WIDTH + c * k.O_WIDTH * k.O_WIDTH)))
    (fun c tr => forLoop k.O_WIDTH tr fun y tr =>
      forLoop k.O_WIDTH tr fun x tr =>
        tr ++ [(x + y * k.O_WIDTH + c * k.O_WIDTH * k.O_WIDTH,
          c + (x + y * k.O_WIDTH) * k.N_CHANNEL2)])

/-- Every index below `B * W` splits as `x + q * W` with `x < W`, `q < B`. -/
theorem row_major_decomp {W B i : Int} (hW : 0 < W) (hi : 0 ≤ i) (hlt : i < B * W) :
    ∃ x q : Int, 0 ≤ x ∧ x < W ∧ 0 ≤ q ∧ q < B ∧ i = x + q * W :=
  ⟨i % W, i / W, Int.emod_nonneg _ (by omega), Int.emod_lt_of_pos _ hW,
    Int.ediv_nonneg hi hW.le, Int.ediv_lt_of_lt_mul hW hlt, by
      rw [mul_comm]; exact (Int.emod_add_ediv i W).symm⟩

theorem row_major_range {W B x q : Int} (hx : 0 ≤ x) (hxW : x < W) (hq : 0 ≤ q)
    (hqB : q < B) : 0 ≤ x + q * W ∧ x + q * W < B * W := by
  have h1 : 0 ≤ q * W := mul_nonneg hq (by omega)
  have h2 : (q + 1) * W ≤ B * W := mul_le_mul_of_nonneg_right (by omega) (by omega)
  constructor
  · omega
  · nlinarith

theorem reshape_index_map_eq (k : Consts) (r c : Int) (hr : 0 ≤ r)
    (hr2 : r < k.O_WIDTH * k.O_WIDTH) :
    reshape_index_map k (r + c * (k.O_WIDTH * k.O_WIDTH)) = c + r * k.N_CHANNEL2 := by
  unfold reshape_index_map
  rw [Int.add_mul_ediv_right _ _ (by omega), Int.add_mul_emod_self,
    Int.ediv_eq_zero_of_lt hr hr2, Int.emod_eq_of_lt hr hr2, zero_add]

/-- An index below `C * W * W` is the channel-major index of some `(c, x, y)`. -/
theorem chan_major_decomp {C W i : Int} (hW : 0 ≤ W) (hi : 0 ≤ i) (hlt : i < C * W * W) :
    ∃ c x y : Int, 0 ≤ c ∧ c < C ∧ 0 ≤ x ∧ x < W ∧ 0 ≤ y ∧ y < W ∧
      i = x + y * W + c * W * W := by
  have hW0 : 0 < W := by
    rcases eq_or_lt_of_le hW with h | h
    · rw [← h] at hlt; omega
    · exact h
  obtain ⟨x, q, hx, hx2, hq, hq2, e⟩ := row_major_decomp hW0 hi hlt
  obtain ⟨y, c, hy, hy2, hc, hc2, e2⟩ := row_major_decomp hW0 hq hq2
  exact ⟨c, x, y, hc, hc2, hx, hx2, hy, hy2, by rw [e, e2]; ring⟩

/-- An index below `C * W * W` is the position-major index of some
`(c, x, y)`. -/
theorem pos_major_decomp {C W o : Int} (hW : 0 ≤ W) (ho : 0 ≤ o) (hlt : o < C * W * W) :
    ∃ c x y : Int, 0 ≤ c ∧ c < C ∧ 0 ≤ x ∧ x < W ∧ 0 ≤ y ∧ y < W ∧
      o = c + (x + y * W) * C := by
  have hW0 : 0 < W := by
    rcases eq_or_lt_of_le hW with h | h
    · rw [← h] at hlt; omega
    · exact h
  have hC0 : 0 < C := by
    by_contra h
    have : C * (W * W) ≤ 0 := mul_nonpos_of_nonpos_of_nonneg (by omega) (mul_self_nonneg W)
    rw [mul_assoc] at hlt
    omega
  obtain ⟨c, r, hc, hc2, hr, hr2, e⟩ :=
    row_major_decomp (B := W * W) hC0 ho (by rw [mul_comm, ← mul_assoc]; exact hlt)
  obtain ⟨x, y, hx, hx2, hy, hy2, e2⟩ := row_major_decomp hW0 hr hr2
  exact ⟨c, x, y, hc, hc2, hx, hx2, hy, hy2, by rw [e, e2]⟩

theorem pos_major_lt {C W c x y : Int} (hc : 0 ≤ c) (hc2 : c < C) (hx : 0 ≤ x) (hx2 : x < W)
    (hy : 0 ≤ y) (hy2 : y < W) :
    0 ≤ c + (x + y * W) * C ∧ c + (x + y * W) * C < C * W * W := by
  obtain ⟨h1, h2⟩ := row_major_range hx hx2 hy hy2
  obtain ⟨h3, h4⟩ := row_major_range hc hc2 h1 h2
  exact ⟨h3, by linarith⟩

/-- C10 (`reshape` is a bijection of indices): with `C = N_CHANNEL2` and
`W = O_WIDTH ≥ 0`, the loop nest of `reshape` visits exactly the index pairs
`(x + y*W + c*W*W, c + (x + y*W)*C)` for `c < C`, `x, y < W`; the indices read
are the indices `0 .. C*W*W - 1`, each once, the indices written are the
indices `0 .. C*W*W - 1`, each once, and the index map is a bijection of
`{0, ..., C*W*W - 1}` onto itself. -/
theorem reshape_bijective (k : Consts) (input output : Fmap) (hW : 0 ≤ k.O_WIDTH) :
    (reshape_traced k input output).1 = reshape k input output ∧
    (∀ p : Int × Int, p ∈ (reshape_traced k input output).2 ↔
      ∃ c x y : Int, 0 ≤ c ∧ c < k.N_CHANNEL2 ∧ 0 ≤ x ∧ x < k.O_WIDTH ∧
        0 ≤ y ∧ y < k.O_WIDTH ∧
        p = (x + y * k.O_WIDTH + c * k.O_WIDTH * k.O_WIDTH,
              c + (x + y * k.O_WIDTH) * k.N_CHANNEL2)) ∧
    ((reshape_traced k input output).2.map Prod.fst).Nodup ∧
    (∀ i : Int, i ∈ (reshape_traced k input output).2.map Prod.fst ↔
      0 ≤ i ∧ i < k.N_CHANNEL2 * k.O_WIDTH * k.O_WIDTH) ∧
    ((reshape_traced k input output).2.map Prod.snd).Nodup ∧
    (∀ o : Int, o ∈ (reshape_traced k input output).2.map Prod.snd ↔
      0 ≤ o ∧ o < k.N_CHANNEL2 * k.O_WIDTH * k.O_WIDTH) ∧
    Set.BijOn (reshape_index_map k)
      (Set.Ico 0 (k.N_CHANNEL2 * k.O_WIDTH * k.O_WIDTH))
      (Set.Ico 0 (k.N_CHANNEL2 * k.O_WIDTH * k.O_WIDTH)) ∧
    (∀ c x y : Int, 0 ≤ c → c < k.N_CHANNEL2 → 0 ≤ x → x < k.O_WIDTH →
      0 ≤ y → y < k.O_WIDTH →
      reshape_index_map k (x + y * k.O_WIDTH + c * k.O_WIDTH * k.O_WIDTH)
        = c + (x + y * k.O_WIDTH) * k.N_CHANNEL2) := by
  rw [reshape_traced_eq]
  simp only []
  have hmem := mem_trace3 k.N_CHANNEL2 k.O_WIDTH
    (fun c y x => (x + y * k.O_WIDTH + c * k.O_WIDTH * k.O_WIDTH,
      c + (x + y * k.O_WIDTH) * k.N_CHANNEL2))
  have hinjI : ∀ c y x c2 y2 x2 : Int, 0 ≤ y → y < k.O_WIDTH → 0 ≤ x → x < k.O_WIDTH →
      0 ≤ y2 → y2 < k.O_WIDTH → 0 ≤ x2 → x2 < k.O_WIDTH →
      x + y * k.O_WIDTH + c * k.O_WIDTH * k.O_WIDTH
        = x2 + y2 * k.O_WIDTH + c2 * k.O_WIDTH * k.O_WIDTH →
      c = c2 ∧ y = y2 ∧ x = x2 := by
    intro c y x c2 y2 x2 hy hy2 hx hx2 hy3 hy4 hx3 hx4 e
    rw [mul_assoc, mul_assoc c2] at e
    obtain ⟨r1, r2, r3⟩ := chan_major_inj hx hx2 hy hy2 hx3 hx4 hy3 hy4 e
    exact ⟨r1, r3, r2⟩
  have hnodup := nodup_trace3 k.N_CHANNEL2 k.O_WIDTH
    (fun c y x => (x + y * k.O_WIDTH + c * k.O_WIDTH * k.O_WIDTH,
      c + (x + y * k.O_WIDTH) * k.N_CHANNEL2))
    (fun c y x c2 y2 x2 _ _ hy hy2 hx hx2 _ _ hy3 hy4 hx3 hx4 e =>
      hinjI c y x c2 y2 x2 hy hy2 hx hx2 hy3 hy4 hx3 hx4 (congrArg Prod.fst e))
  have hmap : ∀ c x y : Int, 0 ≤ x → x < k.O_WIDTH → 0 ≤ y → y < k.O_WIDTH →
      reshape_index_map k (x + y * k.O_WIDTH + c * k.O_WIDTH * k.O_WIDTH)
        = c + (x + y * k.O_WIDTH) * k.N_CHANNEL2 := by
    intro c x y hx hx2 hy hy2
    obtain ⟨h1, h2⟩ := row_major_range hx hx2 hy hy2
    rw [mul_assoc]
    exact reshape_index_map_eq k _ c h1 h2
  refine ⟨trivial, hmem, ?_, ?_, ?_, ?_, ⟨?_, ?_, ?_⟩, ?_⟩
  · refine List.Nodup.map_on ?_ hnodup
    intro p hp q hq e
    obtain ⟨c, x, y, hc, hc2, hx, hx2, hy, hy2, rfl⟩ := (hmem p).mp hp
    obtain ⟨c2, x2, y2, hc3, hc4, hx3, hx4, hy3, hy4, rfl⟩ := (hmem q).mp hq
    obtain ⟨r1, r2, r3⟩ := hinjI c y x c2 y2 x2 hy hy2 hx hx2 hy3 hy4 hx3 hx4 e
    subst r1 r2 r3
    rfl
  · intro i
    rw [List.mem_map]
    constructor
    · rintro ⟨p, hp, rfl⟩
      obtain ⟨c, x, y, hc, hc2, hx, hx2, hy, hy2, rfl⟩ := (hmem p).mp hp
      have := chan_major_lt hc hc2 hx hx2 hy hy2
      simp only [mul_assoc] at this ⊢
      exact this
    · rintro ⟨hi, hlt⟩
      obtain ⟨c, x, y, hc, hc2, hx, hx2, hy, hy2, e⟩ := chan_major_decomp hW hi hlt
      exact ⟨_, (hmem _).mpr ⟨c, x, y, hc, hc2, hx, hx2, hy, hy2, rfl⟩, e.symm⟩
  · refine List.Nodup.map_on ?_ hnodup
    intro p hp q hq e
    obtain ⟨c, x, y, hc, hc2, hx, hx2, hy, hy2, rfl⟩ := (hmem p).mp hp
    obtain ⟨c2, x2, y2, hc3, hc4, hx3, hx4, hy3, hy4, rfl⟩ := (hmem q).mp hq
    obtain ⟨r1, r2, r3⟩ := pos_major_inj hc hc2 hx hx2 hc3 hc4 hx3 hx4 e
    subst r1 r2 r3
    rfl
  · intro o
    rw [List.mem_map]
    constructor
    · rintro ⟨p, hp, rfl⟩
      obtain ⟨c, x, y, hc, hc2, hx, hx2, hy, hy2, rfl⟩ := (hmem p).mp hp
      exact pos_major_lt hc hc2 hx hx2 hy hy2
    · rintro ⟨ho, hlt⟩
      obtain ⟨c, x, y, hc, hc2, hx, hx2, hy, hy2, e⟩ := pos_major_decomp hW ho hlt
      exact ⟨_, (hmem _).mpr ⟨c, x, y, hc, hc2, hx, hx2, hy, hy2, rfl⟩, e.symm⟩
  · intro i hi
    obtain ⟨c, x, y, hc, hc2, hx, hx2, hy, hy2, e⟩ := chan_major_decomp hW hi.1 hi.2
    rw [e, hmap c x y hx hx2 hy hy2]
    exact pos_major_lt hc hc2 hx hx2 hy hy2
  · intro i hi j hj e
    obtain ⟨c, x, y, hc, hc2, hx, hx2, hy, hy2, e1⟩ := chan_major_decomp hW hi.1 hi.2
    obtain ⟨c2, x2, y2, hc3, hc4, hx3, hx4, hy3, hy4, e2⟩ :=
      chan_major_decomp hW hj.1 hj.2
    rw [e1, e2, hmap c x y hx hx2 hy hy2, hmap c2 x2 y2 hx3 hx4 hy3 hy4] at e
    obtain ⟨r1, r2, r3⟩ := pos_major_inj hc hc2 hx hx2 hc3 hc4 hx3 hx4 e
    rw [e1, e2, r1, r2, r3]
  · intro o ho
    obtain ⟨c, x, y, hc, hc2, hx, hx2, hy, hy2, e⟩ := pos_major_decomp hW ho.1 ho.2
    refine ⟨x + y * k.O_WIDTH + c * k.O_WIDTH * k.O_WIDTH, ?_, ?_⟩
    · have := chan_major_lt hc hc2 hx hx2 hy hy2
      simp only [mul_assoc] at this ⊢
      exact this
    · rw [hmap c x y hx hx2 hy hy2, e]
  · intro c x y _ _ hx hx2 hy hy2
    exact hmap c x y hx hx2 hy hy2

/-- Instance of `reshape_bijective` on the sample constants. -/
theorem reshape_bijective_witness :
    (0 : Int) ≤ sampleConsts.O_WIDTH ∧
    ((reshape_traced sampleConsts sampleInput sampleOutput).2.map Prod.fst).Nodup ∧
    ((reshape_traced sampleConsts sampleInput sampleOutput).2.map Prod.snd).Nodup ∧
    Set.BijOn (reshape_index_map sampleConsts)
      (Set.Ico 0 (sampleConsts.N_CHANNEL2 * sampleConsts.O_WIDTH * sampleConsts.O_WIDTH))
      (Set.Ico 0 (sampleConsts.N_CHANNEL2 * sampleConsts.O_WIDTH * sampleConsts.O_WIDTH)) :=
  ⟨by decide,
   (reshape_bijective sampleConsts sampleInput sampleOutput (by decide)).2.2.1,
   (reshape_bijective sampleConsts sampleInput sampleOutput (by decide)).2.2.2.2.1,
   (reshape_bijective sampleConsts sampleInput sampleOutput (by decide)).2.2.2.2.2.2.1⟩

/-! ## Two runs of one loop -/

/-- A relation between the states of two loops that every pair of iterations
keeps holds after the loops. -/
theorem forLoop_rel {σ τ : Type} (R : σ → τ → Prop) (n : Int) (init : σ) (init2 : τ)
    (body : Int → σ → σ) (body2 : Int → τ → τ) (h0 : R init init2)
    (hstep : ∀ i s t, 0 ≤ i → i < n → R s t → R (body i s) (body2 i t)) :
    R (forLoop n init body) (forLoop n init2 body2) := by
  rcases le_or_lt n 0 with hn | hn
  · rw [forLoop_nonpos hn, forLoop_nonpos hn]; exact h0
  · refine forLoop_inv (fun i s => R s (forLoop i init2 body2)) hn.le init body ?_ ?_
    · show R init (forLoop 0 init2 body2)
      rw [forLoop_nonpos le_rfl]; exact h0
    · intro i s hi hlt hs
      show R (body i s) (forLoop (i + 1) init2 body2)
      rw [forLoop_succ hi]
      exact hstep i s _ hi hlt hs

/-- Two nests that store at the same indices, with stored values related by
`Q` and initial entries `j` related by `Q`, end with entries `j` related by
`Q`. -/
theorem nest3_rel (Q : bit → bit → Prop) (A B C : Int) (idx : Int → Int → Int → Int)
    (val val2 : Int → Int → Int → bit) (out out2 : Fmap) (j : Int)
    (hv : ∀ a b c, 0 ≤ a → a < A → 0 ≤ b → b < B → 0 ≤ c → c < C →
      Q (val a b c) (val2 a b c))
    (h0 : Q (out j) (out2 j)) :
    Q (nest3 A B C idx val out j) (nest3 A B C idx val2 out2 j) := by
  unfold nest3
  refine forLoop_rel (fun s t : Fmap => Q (s j) (t j)) _ _ _ _ _ h0 ?_
  intro a s t ha ha2 hst
  refine forLoop_rel (fun s t : Fmap => Q (s j) (t j)) _ _ _ _ _ hst ?_
  intro b s t hb hb2 hst
  refine forLoop_rel (fun s t : Fmap => Q (s j) (t j)) _ _ _ _ _ hst ?_
  intro c s t hc hc2 hst
  rcases eq_or_ne j (idx a b c) with e | e
  · rw [e, Fmap.set_same, Fmap.set_same]
    exact hv a b c ha ha2 hb hb2 hc hc2
  · rw [Fmap.set_other _ _ e, Fmap.set_other _ _ e]
    exact hst

theorem conv_first_eq_nest3 (k : Consts) (input output : Fmap) (threshold : Int → Int)
    (N I : Int) :
    conv_first k input output threshold N I
      = nest3 N (I - k.F + 1) (I - k.F + 1)
          (fun n x y => x + y * (I - k.F + 1) + n * ((I - k.F + 1) * (I - k.F + 1)))
          (fun n x y =>
            if 0 + ((conv_first_acc k input n x y I).1 * 2 - (conv_first_acc k input n x y I).2)
                > threshold (x + y * (I - k.F + 1) + n * ((I - k.F + 1) * (I - k.F + 1)))
            then true else false) output :=
  rfl

theorem conv_second_eq_nest3 (k : Consts) (input output : Fmap) (threshold : Int → Int)
    (N I : Int) :
    conv_second k input output threshold N I
      = nest3 N (I - k.F + 1) (I - k.F + 1)
          (fun n x y => x + y * (I - k.F + 1) + n * ((I - k.F + 1) * (I - k.F + 1)))
          (fun n x y =>
            if conv_second_sum k input N n x y I
                > threshold (x + y * (I - k.F + 1) + n * ((I - k.F + 1) * (I - k.F + 1)))
            then true else false) output :=
  rfl

theorem conv_first_acc_eq (k : Consts) (input : Fmap) (n x y I : Int)
    (hFS : k.FILTER_SIZE = k.F * k.F) :
    conv_first_acc k input n x y I
      = (spec_match_count1 k input n x y I, spec_valid_window_size k x y I) :=
  conv_first_window k input n x y I hFS

/-- The bit stored by `conv_first` at output position `(n, x, y)`. -/
theorem conv_first_at (k : Consts) (input output : Fmap) (threshold : Int → Int)
    (N I : Int) (n x y : Int) (hn : 0 ≤ n ∧ n < N) (hx : 0 ≤ x ∧ x < I - k.F + 1)
    (hy : 0 ≤ y ∧ y < I - k.F + 1) :
    conv_first k input output threshold N I
        (x + y * (I - k.F + 1) + n * (I - k.F + 1) * (I - k.F + 1))
      = if 2 * (conv_first_acc k input n x y I).1 - (conv_first_acc k input n x y I).2
            > threshold (x + y * (I - k.F + 1) + n * (I - k.F + 1) * (I - k.F + 1))
        then true else false := by
  rw [conv_first_eq_nest3, mul_assoc n]
  refine (nest3_get _ _ _ _ _ output n x y hn hx hy
    (conv_index_inj N (I - k.F + 1) n x y hx hy)).trans ?_
  simp only [zero_add, mul_comm _ (2 : Int)]

/-! ## XNOR-popcount and thresholds -/

theorem xnor_popcount_eq_sum (a b : Fmap) (L : Int) :
    xnor_popcount a b L = ∑ i ∈ Finset.Ico (0 : Int) L, eqInt (a i) (b i) := by
  unfold xnor_popcount
  rw [forLoop_sum, zero_add]

theorem eqInt_bipolar (u v : bit) :
    2 * eqInt u v - 1 = (2 * bitInt u - 1) * (2 * bitInt v - 1) := by
  cases u <;> cases v <;> decide

/-- The counter `one_out` of the window loops of `conv_first` is the number of
matches at the positions accepted by `if_mac`. -/
theorem conv_first_acc_fst (k : Consts) (input : Fmap) (n x y I : Int) :
    (conv_first_acc k input n x y I).1
      = ∑ c ∈ Finset.Ico (0 : Int) k.F, ∑ r ∈ Finset.Ico (0 : Int) k.F,
          (if if_mac k (x + c) (y + r) I then
            eqInt (input (x + c + (y + r) * I)) (k.w_conv1 (c + r * k.F + n * k.FILTER_SIZE))
          else 0) :=
  congrArg Prod.fst (window_loop k.F (fun c r => if_mac k (x + c) (y + r) I)
    (fun c r => eqInt (input (x + c + (y + r) * I))
      (k.w_conv1 (c + r * k.F + n * k.FILTER_SIZE))))

/-- C11 (XNOR-popcount equivalence): for two bit sequences `a`, `b` of length
`L`, the count `matches` accumulated by the loop `one_out += a[i] == b[i]` is
the number of positions `i < L` with `a[i] = b[i]`, and `2*matches - L` equals
the sum over `i < L` of `(2*a[i] - 1)*(2*b[i] - 1)`. -/
theorem xnor_popcount_bipolar (a b : Fmap) (L : Int) (hL : 0 ≤ L) :
    xnor_popcount a b L
        = (((Finset.Ico (0 : Int) L).filter fun i => a i = b i).card : Int) ∧
    2 * xnor_popcount a b L - L
        = ∑ i ∈ Finset.Ico (0 : Int) L, (2 * bitInt (a i) - 1) * (2 * bitInt (b i) - 1) := by
  constructor
  · rw [xnor_popcount_eq_sum, Finset.card_filter]
    push_cast
    refine Finset.sum_congr rfl fun i _ => ?_
    unfold eqInt
    split <;> simp_all
  · have hcard : (∑ _i ∈ Finset.Ico (0 : Int) L, (1 : Int)) = L := by
      rw [Finset.sum_const, Int.card_Ico, sub_zero, nsmul_eq_mul, mul_one,
        Int.toNat_of_nonneg hL]
    calc 2 * xnor_popcount a b L - L
        = 2 * (∑ i ∈ Finset.Ico (0 : Int) L, eqInt (a i) (b i))
            - ∑ _i ∈ Finset.Ico (0 : Int) L, (1 : Int) := by
          rw [xnor_popcount_eq_sum, hcard]
      _ = ∑ i ∈ Finset.Ico (0 : Int) L, (2 * eqInt (a i) (b i) - 1) := by
          rw [Finset.mul_sum, ← Finset.sum_sub_distrib]
      _ = ∑ i ∈ Finset.Ico (0 : Int) L, (2 * bitInt (a i) - 1) * (2 * bitInt (b i) - 1) :=
          Finset.sum_congr rfl fun i _ => eqInt_bipolar (a i) (b i)

/-- Instance of `xnor_popcount_bipolar` on two sequences of length 5. -/
theorem xnor_popcount_bipolar_witness :
    (0 : Int) ≤ 5 ∧
    xnor_popcount sampleInput onesInput4x4 5
        = (((Finset.Ico (0 : Int) 5).filter fun i => sampleInput i = onesInput4x4 i).card : Int) ∧
    2 * xnor_popcount sampleInput onesInput4x4 5 - 5
        = ∑ i ∈ Finset.Ico (0 : Int) 5,
            (2 * bitInt (sampleInput i) - 1) * (2 * bitInt (onesInput4x4 i) - 1) :=
  ⟨by decide, xnor_popcount_bipolar sampleInput onesInput4x4 5 (by decide)⟩

/-- C12 (threshold monotonicity): for fixed input, weights, `N` and `I`, if
`t[i] ≤ t2[i]` at every index, every output bit of `conv_first` and of
`conv_second` computed with `t2` is at most the same bit computed with `t`: a
bit that is `1` under the raised thresholds `t2` is `1` under `t`. -/
theorem conv_threshold_monotone (k : Consts) (input output : Fmap) (t t2 : Int → Int)
    (N I : Int) (ht : ∀ i : Int, t i ≤ t2 i) (j : Int) :
    (conv_first k input output t2 N I j ≤ conv_first k input output t N I j) ∧
    (conv_second k input output t2 N I j ≤ conv_second k input output t N I j) := by
  constructor
  · rw [conv_first_eq_nest3, conv_first_eq_nest3]
    refine nest3_rel (fun u v => u ≤ v) _ _ _ _ _ _ _ _ j ?_ le_rfl
    intro n x y _ _ _ _ _ _
    have := ht (x + y * (I - k.F + 1) + n * ((I - k.F + 1) * (I - k.F + 1)))
    split
    · next h => rw [if_pos (lt_of_le_of_lt this h)]
    · exact Bool.false_le _
  · rw [conv_second_eq_nest3, conv_second_eq_nest3]
    refine nest3_rel (fun u v => u ≤ v) _ _ _ _ _ _ _ _ j ?_ le_rfl
    intro n x y _ _ _ _ _ _
    have := ht (x + y * (I - k.F + 1) + n * ((I - k.F + 1) * (I - k.F + 1)))
    split
    · next h => rw [if_pos (lt_of_le_of_lt this h)]
    · exact Bool.false_le _

/-- Instance of `conv_threshold_monotone`: thresholds `0` raised to `20` on the
worked example. -/
theorem conv_threshold_monotone_witness :
    (conv_first exampleConsts onesInput4x4 zeroOutput (fun _ => 20) 1 4 0
      ≤ conv_first exampleConsts onesInput4x4 zeroOutput (fun _ => 0) 1 4 0) ∧
    (conv_second exampleConsts onesInput4x4 zeroOutput (fun _ => 20) 1 4 0
      ≤ conv_second exampleConsts onesInput4x4 zeroOutput (fun _ => 0) 1 4 0) :=
  conv_threshold_monotone exampleConsts onesInput4x4 zeroOutput (fun _ => 0) (fun _ => 20)
    1 4 (fun _ => (by decide : (0 : Int) ≤ 20)) 0

/-- C13, as stated, fails.  On the worked example both runs have signed sum
`9` at output position `0`; with thresholds `0` and `20` the differences
`threshold - signed_sum` are `-9 ≤ 11`, yet the first bit is `1` and the second
is `0`, so the first bit is not at most the second. -/
theorem conv_bit_not_monotone :
    2 * (conv_first_acc exampleConsts onesInput4x4 0 0 0 4).1
        - (conv_first_acc exampleConsts onesInput4x4 0 0 0 4).2 = 9 ∧
    ((0 : Int) - 9 ≤ 20 - 9) ∧
    conv_first exampleConsts onesInput4x4 zeroOutput (fun _ => 0) 1 4 0 = true ∧
    conv_first exampleConsts onesInput4x4 zeroOutput (fun _ => 20) 1 4 0 = false ∧
    ¬ (conv_first exampleConsts onesInput4x4 zeroOutput (fun _ => 0) 1 4 0
        ≤ conv_first exampleConsts onesInput4x4 zeroOutput (fun _ => 20) 1 4 0) := by
  decide

/-- C13, amended: the output bit of `conv_first` is a non-increasing step
function of `threshold - signed_sum`.  For two output positions (of one run or
of two runs) with signed sums `2*one_out - mac_num` and thresholds satisfying
`threshold1 - signed_sum1 ≤ threshold2 - signed_sum2`, the output bit of
position 2 is at most the output bit of position 1. -/
theorem conv_bit_antitone (k : Consts)
    (input1 output1 : Fmap) (t1 : Int → Int) (N1 I1 n1 x1 y1 : Int)
    (hn1 : 0 ≤ n1 ∧ n1 < N1) (hx1 : 0 ≤ x1 ∧ x1 < I1 - k.F + 1)
    (hy1 : 0 ≤ y1 ∧ y1 < I1 - k.F + 1)
    (input2 output2 : Fmap) (t2 : Int → Int) (N2 I2 n2 x2 y2 : Int)
    (hn2 : 0 ≤ n2 ∧ n2 < N2) (hx2 : 0 ≤ x2 ∧ x2 < I2 - k.F + 1)
    (hy2 : 0 ≤ y2 ∧ y2 < I2 - k.F + 1)
    (hd : t1 (x1 + y1 * (I1 - k.F + 1) + n1 * (I1 - k.F + 1) * (I1 - k.F + 1))
          - (2 * (conv_first_acc k input1 n1 x1 y1 I1).1
              - (conv_first_acc k input1 n1 x1 y1 I1).2)
        ≤ t2 (x2 + y2 * (I2 - k.F + 1) + n2 * (I2 - k.F + 1) * (I2 - k.F + 1))
          - (2 * (conv_first_acc k input2 n2 x2 y2 I2).1
              - (conv_first_acc k input2 n2 x2 y2 I2).2)) :
    conv_first k input2 output2 t2 N2 I2
        (x2 + y2 * (I2 - k.F + 1) + n2 * (I2 - k.F + 1) * (I2 - k.F + 1))
      ≤ conv_first k input1 output1 t1 N1 I1
        (x1 + y1 * (I1 - k.F + 1) + n1 * (I1 - k.F + 1) * (I1 - k.F + 1)) := by
  rw [conv_first_at k input1 output1 t1 N1 I1 n1 x1 y1 hn1 hx1 hy1,
    conv_first_at k input2 output2 t2 N2 I2 n2 x2 y2 hn2 hx2 hy2]
  split
  · next h => rw [if_pos (by omega)]
  · exact Bool.false_le _

/-- Instance of `conv_bit_antitone` on the worked example: thresholds `0` and
`5` at output position `0`. -/
theorem conv_bit_antitone_witness :
    conv_first exampleConsts onesInput4x4 zeroOutput (fun _ => 5) 1 4
        (0 + 0 * (4 - exampleConsts.F + 1)
          + 0 * (4 - exampleConsts.F + 1) * (4 - exampleConsts.F + 1))
      ≤ conv_first exampleConsts onesInput4x4 zeroOutput (fun _ => 0) 1 4
        (0 + 0 * (4 - exampleConsts.F + 1)
          + 0 * (4 - exampleConsts.F + 1) * (4 - exampleConsts.F + 1)) :=
  conv_bit_antitone exampleConsts
    onesInput4x4 zeroOutput (fun _ => 0) 1 4 0 0 0 (by decide) (by decide) (by decide)
    onesInput4x4 zeroOutput (fun _ => 5) 1 4 0 0 0 (by decide) (by decide) (by decide)
    (by decide)

/-- C14 (end-to-end example): `conv_first` with `N = 1`, `I = 4`, `F = 3`
(`O = 2`), no padding, a 4x4 input of all-one bits, a 3x3 kernel of all-one
weights and threshold `0` counts `match_count = 9` over `9` window positions
at each of the four output positions, so `signed_sum = 9`, and writes `1` to
`output[0]`, `output[1]`, `output[2]` and `output[3]`. -/
theorem conv_first_example :
    (exampleConsts.F = 3 ∧ exampleConsts.PADDING = 0 ∧ (4 : Int) - exampleConsts.F + 1 = 2) ∧
    (∀ x ∈ [(0 : Int), 1], ∀ y ∈ [(0 : Int), 1],
      conv_first_acc exampleConsts onesInput4x4 0 x y 4 = (9, 9) ∧
      spec_match_count1 exampleConsts onesInput4x4 0 x y 4 = 9 ∧
      2 * (conv_first_acc exampleConsts onesInput4x4 0 x y 4).1
        - (conv_first_acc exampleConsts onesInput4x4 0 x y 4).2 = 9) ∧
    conv_first exampleConsts onesInput4x4 zeroOutput (fun _ => 0) 1 4 0 = true ∧
    conv_first exampleConsts onesInput4x4 zeroOutput (fun _ => 0) 1 4 1 = true ∧
    conv_first exampleConsts onesInput4x4 zeroOutput (fun _ => 0) 1 4 2 = true ∧
    conv_first exampleConsts onesInput4x4 zeroOutput (fun _ => 0) 1 4 3 = true ∧
    conv_first exampleConsts onesInput4x4 zeroOutput (fun _ => 0) 1 4 4 = false := by
  decide

/-! ## Padding followed by convolution; the two convolutions -/

/-- The entry of the padded map at an interior position. -/
theorem pad_interior_get (k : Consts) (input output : Fmap) (M I : Int)
    (hP : 0 ≤ k.PADDING) (m x y : Int) (hm : 0 ≤ m ∧ m < M) (hx : 0 ≤ x ∧ x < I)
    (hy : 0 ≤ y ∧ y < I) :
    pad k input output M I
        ((x + Int.tdiv k.PADDING 2) + (y + Int.tdiv k.PADDING 2) * (I + k.PADDING)
          + m * ((I + k.PADDING) * (I + k.PADDING)))
      = input (x + y * I + m * (I * I)) := by
  obtain ⟨h0, h1⟩ := tdiv_two_bounds hP
  rw [pad_eq_nest3]
  refine nest3_get _ _ _
    (fun m x y => (x + Int.tdiv k.PADDING 2)
      + (y + Int.tdiv k.PADDING 2) * (I + k.PADDING)
      + m * ((I + k.PADDING) * (I + k.PADDING)))
    (fun m x y => input (x + y * I + m * (I * I))) _ m x y hm hx hy ?_
  intro a b c _ _ hb hb2 hc hc2 e
  obtain ⟨r1, r2, r3⟩ := chan_major_inj (W := I + k.PADDING) (by omega) (by omega)
    (by omega) (by omega) (by omega) (by omega) (by omega) (by omega) e
  exact ⟨r1, by omega, by omega⟩

/-- With even non-negative padding the boundary test of `if_mac` on the padded
map selects the offsets that fall on real pixels. -/
theorem valid_offsets_padded (k : Consts) (x y I : Int) (hP : 0 ≤ k.PADDING)
    (heven : k.PADDING % 2 = 0) :
    spec_valid_offsets k x y (I + k.PADDING) = spec_real_offsets k x y I := by
  unfold spec_valid_offsets spec_real_offsets
  refine Finset.filter_congr fun p _ => ?_
  have e : Int.tdiv k.PADDING 2 = k.PADDING / 2 := Int.tdiv_eq_ediv hP (by decide)
  rw [e]
  omega

/-- C16 (padding followed by convolution counts exactly the real pixels): for
a single-channel input of width `I`, even `PADDING ≥ 0`,
`(I+PADDING)^2 ≤ MAX_FMAP`, `p = pad(input, 1, I)` and `I2 = I + PADDING ≥ F`,
for `n < N` and `x, y < I2-F+1` the bit written by
`conv_first(p, output, threshold, N, I2)` at `x + y*(I2-F+1) + n*(I2-F+1)^2`
is `1` if and only if `2*matches - valid > threshold` at that index, where
`valid` counts the offsets `(c, r)` with `0 ≤ x+c-PADDING/2 < I` and
`0 ≤ y+r-PADDING/2 < I` and `matches` counts those at which
`input[(x+c-PADDING/2) + (y+r-PADDING/2)*I]` equals `w_conv1[c + r*F + n*F*F]`. -/
theorem pad_then_conv_first (k : Consts) (input padOut output : Fmap)
    (threshold : Int → Int) (N I : Int) (hFS : k.FILTER_SIZE = k.F * k.F)
    (hP : 0 ≤ k.PADDING) (heven : k.PADDING % 2 = 0)
    (_hcap : (I + k.PADDING) ^ 2 ≤ k.MAX_FMAP) (_hI : k.F ≤ I + k.PADDING)
    (n x y : Int) (hn : 0 ≤ n ∧ n < N) (hx : 0 ≤ x ∧ x < I + k.PADDING - k.F + 1)
    (hy : 0 ≤ y ∧ y < I + k.PADDING - k.F + 1) :
    conv_first k (pad k input padOut 1 I) output threshold N (I + k.PADDING)
        (x + y * (I + k.PADDING - k.F + 1)
          + n * (I + k.PADDING - k.F + 1) ^ 2) = true
      ↔ 2 * spec_real_matches k input n x y I - ((spec_real_offsets k x y I).card : Int)
          > threshold (x + y * (I + k.PADDING - k.F + 1)
              + n * (I + k.PADDING - k.F + 1) ^ 2) := by
  have hm : spec_match_count1 k (pad k input padOut 1 I) n x y (I + k.PADDING)
      = spec_real_matches k input n x y I := by
    unfold spec_match_count1 spec_real_matches
    rw [valid_offsets_padded k x y I hP heven]
    congr 2
    refine Finset.filter_congr fun p hp => ?_
    unfold spec_real_offsets at hp
    rw [Finset.mem_filter] at hp
    obtain ⟨_, h1, h2, h3, h4⟩ := hp
    have hpad := pad_interior_get k input padOut 1 I hP 0
      (x + p.1 - Int.tdiv k.PADDING 2) (y + p.2 - Int.tdiv k.PADDING 2)
      ⟨le_rfl, by decide⟩ ⟨h1, h2⟩ ⟨h3, h4⟩
    simp only [sub_add_cancel, zero_mul, add_zero] at hpad
    rw [hpad]
  have hv : spec_valid_window_size k x y (I + k.PADDING)
      = ((spec_real_offsets k x y I).card : Int) := by
    unfold spec_valid_window_size
    rw [valid_offsets_padded k x y I hP heven]
  have hsq : (I + k.PADDING - k.F + 1) ^ 2
      = (I + k.PADDING - k.F + 1) * (I + k.PADDING - k.F + 1) := by ring
  rw [hsq, ← mul_assoc n,
    conv_first_at k (pad k input padOut 1 I) output threshold N (I + k.PADDING) n x y hn hx hy,
    conv_first_acc_eq k _ n x y _ hFS, hm, hv]
  simp

/-- Instance of `pad_then_conv_first` on the sample constants: a 3x3 input
padded to 5x5. -/
theorem pad_then_conv_first_witness :
    (sampleConsts.FILTER_SIZE = sampleConsts.F * sampleConsts.F ∧
      (0 : Int) ≤ sampleConsts.PADDING ∧ sampleConsts.PADDING % 2 = 0 ∧
      ((3 : Int) + sampleConsts.PADDING) ^ 2 ≤ sampleConsts.MAX_FMAP ∧
      sampleConsts.F ≤ 3 + sampleConsts.PADDING) ∧
    (conv_first sampleConsts (pad sampleConsts sampleInput sampleOutput 1 3) zeroOutput
        (fun _ => 0) 2 (3 + sampleConsts.PADDING)
        (1 + 2 * (3 + sampleConsts.PADDING - sampleConsts.F + 1)
          + 1 * (3 + sampleConsts.PADDING - sampleConsts.F + 1) ^ 2) = true
      ↔ 2 * spec_real_matches sampleConsts sampleInput 1 1 2 3
            - ((spec_real_offsets sampleConsts 1 2 3).card : Int)
          > (fun _ => (0 : Int)) (1 + 2 * (3 + sampleConsts.PADDING - sampleConsts.F + 1)
              + 1 * (3 + sampleConsts.PADDING - sampleConsts.F + 1) ^ 2)) :=
  ⟨by decide,
   pad_then_conv_first sampleConsts sampleInput sampleOutput zeroOutput (fun _ => 0) 2 3
    (by decide) (by decide) (by decide) (by decide) (by decide) 1 1 2 (by decide)
    (by decide) (by decide)⟩

/-- C17 (the two convolutions are one algorithm): when the input channel count
`N_CHANNEL1` of `conv_second` is `1` and `w_conv2` holds the same values as
`w_conv1`, `conv_second(input, output, threshold, N, I)` and
`conv_first(input, output, threshold, N, I)` produce the same output buffer,
for every input, threshold, `N` and `I ≥ F`. -/
theorem conv_second_eq_conv_first (k : Consts) (input output : Fmap)
    (threshold : Int → Int) (N I : Int) (hC : k.N_CHANNEL1 = 1)
    (hw : ∀ i : Int, k.w_conv2 i = k.w_conv1 i) (_hI : k.F ≤ I) :
    conv_second k input output threshold N I = conv_first k input output threshold N I := by
  have hsum : ∀ n x y : Int, conv_second_sum k input N n x y I
      = 0 + ((conv_first_acc k input n x y I).1 * 2 - (conv_first_acc k input n x y I).2) := by
    intro n x y
    unfold conv_second_sum conv_first_acc
    rw [hC, forLoop_one]
    simp only [zero_mul, add_zero, hw]
  rw [conv_second_eq_nest3, conv_first_eq_nest3]
  simp only [hsum]

/-- Instance of `conv_second_eq_conv_first` on the constants of the worked
example, which have one input channel and equal kernels. -/
theorem conv_second_eq_conv_first_witness :
    (exampleConsts.N_CHANNEL1 = 1 ∧ exampleConsts.F ≤ 4) ∧
    conv_second exampleConsts onesInput4x4 zeroOutput (fun _ => 0) 1 4
      = conv_first exampleConsts onesInput4x4 zeroOutput (fun _ => 0) 1 4 :=
  ⟨by decide,
   conv_second_eq_conv_first exampleConsts onesInput4x4 zeroOutput (fun _ => 0) 1 4
    (by decide) (fun _ => rfl) (by decide)⟩

/-! ## Which output entries the stages write -/

/-- The bit stored by `conv_second` at output position `(n, x, y)`. -/
theorem conv_second_at (k : Consts) (input output : Fmap) (threshold : Int → Int)
    (N I : Int) (n x y : Int) (hn : 0 ≤ n ∧ n < N) (hx : 0 ≤ x ∧ x < I - k.F + 1)
    (hy : 0 ≤ y ∧ y < I - k.F + 1) :
    conv_second k input output threshold N I
        (x + y * (I - k.F + 1) + n * (I - k.F + 1) * (I - k.F + 1))
      = if conv_second_sum k input N n x y I
            > threshold (x + y * (I - k.F + 1) + n * (I - k.F + 1) * (I - k.F + 1))
        then true else false := by
  rw [conv_second_eq_nest3, mul_assoc n]
  exact nest3_get _ _ _ _ _ output n x y hn hx hy
    (conv_index_inj N (I - k.F + 1) n x y hx hy)

/-- The convolutions leave alone every entry outside `0 .. N*O*O - 1`. -/
theorem conv_frame (k : Consts) (input output : Fmap) (threshold : Int → Int) (N I j : Int)
    (hj : j < 0 ∨ N * (I - k.F + 1) * (I - k.F + 1) ≤ j) :
    conv_first k input output threshold N I j = output j ∧
    conv_second k input output threshold N I j = output j := by
  have hne : ∀ n x y : Int, 0 ≤ n → n < N → 0 ≤ x → x < I - k.F + 1 → 0 ≤ y →
      y < I - k.F + 1 →
      x + y * (I - k.F + 1) + n * ((I - k.F + 1) * (I - k.F + 1)) ≠ j := by
    intro n x y hn hn2 hx hx2 hy hy2 e
    have := chan_major_lt hn hn2 hx hx2 hy hy2
    omega
  constructor
  · rw [conv_first_eq_nest3]
    exact nest3_frame _ _ _ _ _ _ j hne
  · rw [conv_second_eq_nest3]
    exact nest3_frame _ _ _ _ _ _ j hne

/-- After the zeroing loop and a nest of stores, the entries `0 .. n - 1` do
not depend on the prior contents of the buffer. -/
theorem zeroed_nest3_indep (n A B C : Int) (idx : Int → Int → Int → Int)
    (val : Int → Int → Int → bit) (out out2 : Fmap) (j : Int) (hj : 0 ≤ j ∧ j < n) :
    nest3 A B C idx val (forLoop n out fun i output => output.set i false) j
      = nest3 A B C idx val (forLoop n out2 fun i output => output.set i false) j := by
  refine nest3_rel (fun u v => u = v) _ _ _ _ _ _ _ _ j (fun _ _ _ _ _ _ _ _ _ => rfl) ?_
  rw [zero_loop_get, zero_loop_get, if_pos hj, if_pos hj]

/-- C20 (the convolutions do not clear their output buffer): for `I ≥ F` and
`O = I-F+1`, `conv_first` and `conv_second` write exactly the indices
`0 .. N*O*O - 1` of `output`: each of them is the output index of a position
`(n, x, y)` and ends with a value that does not depend on the prior contents
of `output`, while every entry with index `≥ N*O*O` keeps the value it had
before the call.  `pad` and `max_pool` instead determine all of
`output[0 .. MAX_FMAP-1]`, whatever it held before. -/
theorem conv_keeps_unwritten_entries (k : Consts) (input output : Fmap)
    (threshold : Int → Int) (N I : Int) (hI : k.F ≤ I) :
    (∀ j : Int, 0 ≤ j → j < N * (I - k.F + 1) * (I - k.F + 1) →
      (∃ n x y : Int, 0 ≤ n ∧ n < N ∧ 0 ≤ x ∧ x < I - k.F + 1 ∧ 0 ≤ y ∧ y < I - k.F + 1 ∧
        j = x + y * (I - k.F + 1) + n * (I - k.F + 1) * (I - k.F + 1)) ∧
      ∀ out2 : Fmap,
        conv_first k input output threshold N I j = conv_first k input out2 threshold N I j ∧
        conv_second k input output threshold N I j
          = conv_second k input out2 threshold N I j) ∧
    (∀ j : Int, N * (I - k.F + 1) * (I - k.F + 1) ≤ j →
      conv_first k input output threshold N I j = output j ∧
      conv_second k input output threshold N I j = output j) ∧
    (∀ (M Ip : Int) (out2 : Fmap) (j : Int), 0 ≤ j → j < k.MAX_FMAP →
      pad k input output M Ip j = pad k input out2 M Ip j ∧
      max_pool k input output M Ip j = max_pool k input out2 M Ip j) := by
  refine ⟨fun j hj hj2 => ?_, fun j hj => conv_frame k input output threshold N I j (Or.inr hj),
    fun M Ip out2 j hj hj2 => ?_⟩
  · obtain ⟨n, x, y, hn, hn2, hx, hx2, hy, hy2, e⟩ :=
      chan_major_decomp (by omega) hj hj2
    refine ⟨⟨n, x, y, hn, hn2, hx, hx2, hy, hy2, e⟩, fun out2 => ?_⟩
    rw [e, conv_first_at k input output threshold N I n x y ⟨hn, hn2⟩ ⟨hx, hx2⟩ ⟨hy, hy2⟩,
      conv_first_at k input out2 threshold N I n x y ⟨hn, hn2⟩ ⟨hx, hx2⟩ ⟨hy, hy2⟩,
      conv_second_at k input output threshold N I n x y ⟨hn, hn2⟩ ⟨hx, hx2⟩ ⟨hy, hy2⟩,
      conv_second_at k input out2 threshold N I n x y ⟨hn, hn2⟩ ⟨hx, hx2⟩ ⟨hy, hy2⟩]
    exact ⟨rfl, rfl⟩
  · rw [pad_eq_nest3, pad_eq_nest3, max_pool_eq_nest3, max_pool_eq_nest3]
    exact ⟨zeroed_nest3_indep _ _ _ _ _ _ _ _ j ⟨hj, hj2⟩,
      zeroed_nest3_indep _ _ _ _ _ _ _ _ j ⟨hj, hj2⟩⟩

/-- Instance of `conv_keeps_unwritten_entries` on the worked example with an
output buffer of ones and threshold `20`: `output[3]` is overwritten with `0`,
`output[4]` keeps its `1`. -/
theorem conv_keeps_unwritten_entries_witness :
    exampleConsts.F ≤ 4 ∧
    conv_first exampleConsts onesInput4x4 sampleOutput (fun _ => 20) 1 4 3 = false ∧
    conv_first exampleConsts onesInput4x4 sampleOutput (fun _ => 20) 1 4 4
      = sampleOutput 4 ∧
    sampleOutput 4 = true :=
  ⟨by decide, by decide,
   ((conv_keeps_unwritten_entries exampleConsts onesInput4x4 sampleOutput (fun _ => 20) 1 4
      (by decide)).2.1 4 (by decide)).1,
   rfl⟩

/-! ## Index safety of `conv_second` -/

/-- The first component of a loop state whose evolution does not read the
second component is computed by the loop on the first component alone. -/
theorem forLoop_fst {σ γ : Type} (n : Int) (init : σ × γ) (body : Int → σ × γ → σ × γ)
    (f : Int → σ → σ) (h : ∀ i st, 0 ≤ i → i < n → (body i st).1 = f i st.1) :
    (forLoop n init body).1 = forLoop n init.1 f := by
  rcases le_or_lt n 0 with hn | hn
  · rw [forLoop_nonpos hn, forLoop_nonpos hn]
  · refine forLoop_inv (fun i st => st.1 = forLoop i init.1 f) hn.le init body ?_ ?_
    · show init.1 = forLoop 0 init.1 f
      rw [forLoop_nonpos le_rfl]
    · intro i st hi hlt hs
      show (body i st).1 = forLoop (i + 1) init.1 f
      rw [forLoop_succ hi, h i st hi hlt, hs]

/-- The recorded run of `conv_second` computes the output of `conv_second`. -/
theorem conv_second_traced_fst (k : Consts) (input output : Fmap) (threshold : Int → Int)
    (N I : Int) :
    (conv_second_traced k input output threshold N I).1
      = conv_second k input output threshold N I := by
  unfold conv_second_traced conv_second
  refine forLoop_fst _ _ _ _ fun n st _ _ => ?_
  refine forLoop_fst _ _ _ _ fun x st _ _ => ?_
  refine forLoop_fst _ _ _ _ fun y st _ _ => ?_
  have hs : ∀ (l : List (BufferId × Int)),
      (forLoop k.N_CHANNEL1 ((0 : Int), l) fun m s =>
        ((s.1 + ((forLoop k.F (((0 : Int), (0 : Int)), s.2) fun c a =>
            forLoop k.F a fun r a =>
              if if_mac k (x + c) (y + r) I then
                ((a.1.1 + eqInt (input (x + c + (y + r) * I + m * (I * I)))
                    (k.w_conv2 (c + r * k.F + (n + m * N) * k.FILTER_SIZE)), a.1.2 + 1),
                  a.2 ++ [(BufferId.input, x + c + (y + r) * I + m * (I * I)),
                    (BufferId.weight, c + r * k.F + (n + m * N) * k.FILTER_SIZE)])
              else a).1.1 * 2
          - (forLoop k.F (((0 : Int), (0 : Int)), s.2) fun c a =>
            forLoop k.F a fun r a =>
              if if_mac k (x + c) (y + r) I then
                ((a.1.1 + eqInt (input (x + c + (y + r) * I + m * (I * I)))
                    (k.w_conv2 (c + r * k.F + (n + m * N) * k.FILTER_SIZE)), a.1.2 + 1),
                  a.2 ++ [(BufferId.input, x + c + (y + r) * I + m * (I * I)),
                    (BufferId.weight, c + r * k.F + (n + m * N) * k.FILTER_SIZE)])
              else a).1.2),
          (forLoop k.F (((0 : Int), (0 : Int)), s.2) fun c a =>
            forLoop k.F a fun r a =>
              if if_mac k (x + c) (y + r) I then
                ((a.1.1 + eqInt (input (x + c + (y + r) * I + m * (I * I)))
                    (k.w_conv2 (c + r * k.F + (n + m * N) * k.FILTER_SIZE)), a.1.2 + 1),
                  a.2 ++ [(BufferId.input, x + c + (y + r) * I + m * (I * I)),
                    (BufferId.weight, c + r * k.F + (n + m * N) * k.FILTER_SIZE)])
              else a).2) : Int × List (BufferId × Int))).1
      = conv_second_sum k input N n x y I := by
    intro l
    unfold conv_second_sum
    refine forLoop_fst _ _ _ _ fun m s _ _ => ?_
    have ha : (forLoop k.F (((0 : Int), (0 : Int)), s.2) fun c a =>
            forLoop k.F a fun r a =>
              if if_mac k (x + c) (y + r) I then
                ((a.1.1 + eqInt (input (x + c + (y + r) * I + m * (I * I)))
                    (k.w_conv2 (c + r * k.F + (n + m * N) * k.FILTER_SIZE)), a.1.2 + 1),
                  a.2 ++ [(BufferId.input, x + c + (y + r) * I + m * (I * I)),
                    (BufferId.weight, c + r * k.F + (n + m * N) * k.FILTER_SIZE)])
              else a).1
        = forLoop k.F ((0 : Int), (0 : Int)) fun c acc =>
            forLoop k.F acc fun r acc =>
              if if_mac k (x + c) (y + r) I then
                (acc.1 + eqInt (input (x + c + (y + r) * I + m * (I * I)))
                  (k.w_conv2 (c + r * k.F + (n + m * N) * k.FILTER_SIZE)), acc.2 + 1)
              else acc := by
      refine forLoop_fst _ _ _ _ fun c a _ _ => ?_
      refine forLoop_fst _ _ _ _ fun r a _ _ => ?_
      split <;> rfl
    simp only [ha]
  simp only [hs]
  rfl

/-- Every access recorded by the run of `conv_second` is in the range the
specification gives for its buffer. -/
theorem conv_second_traced_safe (k : Consts) (input output : Fmap) (threshold : Int → Int)
    (N I : Int) (hFS : k.FILTER_SIZE = k.F * k.F) :
    ∀ e ∈ (conv_second_traced k input output threshold N I).2,
      spec_access_in_range k N I e := by
  unfold conv_second_traced
  refine forLoop_preserves
    (fun st : Fmap × List (BufferId × Int) => ∀ e ∈ st.2, spec_access_in_range k N I e)
    _ _ _ (fun e he => absurd he (List.not_mem_nil e)) ?_
  intro n st hn hn2 hP
  refine forLoop_preserves
    (fun st : Fmap × List (BufferId × Int) => ∀ e ∈ st.2, spec_access_in_range k N I e)
    _ _ _ hP ?_
  intro x st hx hx2 hP
  refine forLoop_preserves
    (fun st : Fmap × List (BufferId × Int) => ∀ e ∈ st.2, spec_access_in_range k N I e)
    _ _ _ hP ?_
  intro y st hy hy2 hP e he
  dsimp only at he
  rw [List.mem_append] at he
  rcases he with he | he
  · revert e
    refine forLoop_preserves
      (fun s : Int × List (BufferId × Int) => ∀ e ∈ s.2, spec_access_in_range k N I e)
      _ _ _ hP ?_
    intro m s hm hm2 hPs
    dsimp only
    refine forLoop_preserves
      (fun a : (Int × Int) × List (BufferId × Int) =>
        ∀ e ∈ a.2, spec_access_in_range k N I e) _ _ _ hPs ?_
    intro c a hc hc2 hPa
    refine forLoop_preserves
      (fun a : (Int × Int) × List (BufferId × Int) =>
        ∀ e ∈ a.2, spec_access_in_range k N I e) _ _ _ hPa ?_
    intro r a hr hr2 hPa e he
    split at he
    · dsimp only at he
      rw [List.mem_append] at he
      rcases he with he | he
      · exact hPa e he
      · simp only [List.mem_cons, List.mem_singleton, List.not_mem_nil, or_false] at he
        rcases he with rfl | rfl
        · have := chan_major_lt (M := k.N_CHANNEL1) (O := I) (m := m) (x := x + c)
            (y := y + r) hm hm2 (by omega) (by omega) (by omega) (by omega)
          exact ⟨this.1, this.2⟩
        · obtain ⟨h1, h2⟩ := row_major_range (W := k.F) (B := k.F) hc hc2 hr hr2
          obtain ⟨h3, h4⟩ := row_major_range (W := N) (B := k.N_CHANNEL1) hn hn2 hm hm2
          obtain ⟨h5, h6⟩ := row_major_range (W := k.F * k.F) (B := k.N_CHANNEL1 * N)
            h1 h2 h3 h4
          show 0 ≤ c + r * k.F + (n + m * N) * k.FILTER_SIZE ∧
            c + r * k.F + (n + m * N) * k.FILTER_SIZE < k.N_CHANNEL1 * N * k.F * k.F
          rw [hFS]
          exact ⟨h5, by linarith⟩
    · exact hPa e he
  · simp only [List.mem_cons, List.mem_singleton, List.not_mem_nil, or_false] at he
    have := chan_major_lt (M := N) (O := I - k.F + 1) (m := n) (x := x) (y := y)
      hn hn2 hx hx2 hy hy2
    rcases he with rfl | rfl
    · exact this
    · exact this

/-- An entry that one iteration records and no iteration removes is in the
final record. -/
theorem forLoop_mem {σ β : Type} (e : β) (n : Int) (init : σ × List β)
    (body : Int → σ × List β → σ × List β) (i0 : Int) (h0 : 0 ≤ i0) (h1 : i0 < n)
    (hadd : ∀ st, e ∈ (body i0 st).2)
    (hmono : ∀ i st, 0 ≤ i → i < n → e ∈ st.2 → e ∈ (body i st).2) :
    e ∈ (forLoop n init body).2 := by
  refine forLoop_inv (fun i st => i0 < i → e ∈ st.2) (by omega) init body (by omega) ?_ h1
  intro i st hi hlt hI hlt2
  rcases eq_or_ne i i0 with rfl | hne
  · exact hadd st
  · exact hmono i st hi hlt (hI (by omega))

/-- The loops over the channels and the window only extend the record. -/
theorem conv_second_inner_mono (k : Consts) (input : Fmap) (N I n x y : Int)
    (l : List (BufferId × Int)) (e : BufferId × Int) (he : e ∈ l) :
    e ∈ (forLoop k.N_CHANNEL1 ((0 : Int), l) fun m s =>
      ((s.1 + ((forLoop k.F (((0 : Int), (0 : Int)), s.2) fun c a =>
          forLoop k.F a fun r a =>
            if if_mac k (x + c) (y + r) I then
              ((a.1.1 + eqInt (input (x + c + (y + r) * I + m * (I * I)))
                  (k.w_conv2 (c + r * k.F + (n + m * N) * k.FILTER_SIZE)), a.1.2 + 1),
                a.2 ++ [(BufferId.input, x + c + (y + r) * I + m * (I * I)),
                  (BufferId.weight, c + r * k.F + (n + m * N) * k.FILTER_SIZE)])
            else a).1.1 * 2
        - (forLoop k.F (((0 : Int), (0 : Int)), s.2) fun c a =>
          forLoop k.F a fun r a =>
            if if_mac k (x + c) (y + r) I then
              ((a.1.1 + eqInt (input (x + c + (y + r) * I + m * (I * I)))
                  (k.w_conv2 (c + r * k.F + (n + m * N) * k.FILTER_SIZE)), a.1.2 + 1),
                a.2 ++ [(BufferId.input, x + c + (y + r) * I + m * (I * I)),
                  (BufferId.weight, c + r * k.F + (n + m * N) * k.FILTER_SIZE)])
            else a).1.2),
        (forLoop k.F (((0 : Int), (0 : Int)), s.2) fun c a =>
          forLoop k.F a fun r a =>
            if if_mac k (x + c) (y + r) I then
              ((a.1.1 + eqInt (input (x + c + (y + r) * I + m * (I * I)))
                  (k.w_conv2 (c + r * k.F + (n + m * N) * k.FILTER_SIZE)), a.1.2 + 1),
                a.2 ++ [(BufferId.input, x + c + (y + r) * I + m * (I * I)),
                  (BufferId.weight, c + r * k.F + (n + m * N) * k.FILTER_SIZE)])
            else a).2) : Int × List (BufferId × Int))).2 := by
  refine forLoop_preserves (fun s : Int × List (BufferId × Int) => e ∈ s.2) _ _ _ he ?_
  intro m s _ _ hs
  dsimp only
  refine forLoop_preserves (fun a : (Int × Int) × List (BufferId × Int) => e ∈ a.2)
    _ _ _ hs ?_
  intro c a _ _ ha
  refine forLoop_preserves (fun a : (Int × Int) × List (BufferId × Int) => e ∈ a.2)
    _ _ _ ha ?_
  intro r a _ _ ha
  split
  · exact List.mem_append_left _ ha
  · exact ha

/-- Every output position has its threshold read and its output write in the
record. -/
theorem conv_second_traced_mem (k : Consts) (input output : Fmap) (threshold : Int → Int)
    (N I : Int) (n x y : Int) (hn : 0 ≤ n ∧ n < N) (hx : 0 ≤ x ∧ x < I - k.F + 1)
    (hy : 0 ≤ y ∧ y < I - k.F + 1) (b : BufferId)
    (hb : b = BufferId.threshold ∨ b = BufferId.output) :
    (b, x + y * (I - k.F + 1) + n * ((I - k.F + 1) * (I - k.F + 1)))
      ∈ (conv_second_traced k input output threshold N I).2 := by
  unfold conv_second_traced
  refine forLoop_mem _ _ _ _ n hn.1 hn.2 (fun st => ?_) (fun n2 st _ _ he => ?_)
  · refine forLoop_mem _ _ _ _ x hx.1 hx.2 (fun st => ?_) (fun x2 st _ _ he => ?_)
    · refine forLoop_mem _ _ _ _ y hy.1 hy.2 (fun st => ?_) (fun y2 st _ _ he => ?_)
      · dsimp only
        refine List.mem_append_right _ ?_
        rcases hb with rfl | rfl <;> simp
      · dsimp only
        exact List.mem_append_left _ (conv_second_inner_mono k input N I n x y2 st.2 _ he)
    · refine forLoop_preserves
        (fun s : Fmap × List (BufferId × Int) =>
          (b, x + y * (I - k.F + 1) + n * ((I - k.F + 1) * (I - k.F + 1))) ∈ s.2)
        _ _ _ he (fun y2 s _ _ hs => ?_)
      dsimp only
      exact List.mem_append_left _ (conv_second_inner_mono k input N I n x2 y2 s.2 _ hs)
  · refine forLoop_preserves
      (fun s : Fmap × List (BufferId × Int) =>
        (b, x + y * (I - k.F + 1) + n * ((I - k.F + 1) * (I - k.F + 1))) ∈ s.2)
      _ _ _ he (fun x2 s _ _ hs => ?_)
    refine forLoop_preserves
      (fun s : Fmap × List (BufferId × Int) =>
        (b, x + y * (I - k.F + 1) + n * ((I - k.F + 1) * (I - k.F + 1))) ∈ s.2)
      _ _ _ hs (fun y2 s _ _ hs => ?_)
    dsimp only
    exact List.mem_append_left _ (conv_second_inner_mono k input N I n2 x2 y2 s.2 _ hs)

/-- C18 (index safety of `conv_second`): with `FILTER_SIZE = F*F`, `I ≥ F`,
`O = I-F+1` and `C = N_CHANNEL1`, every access of `conv_second` is in range:
input indices `x + c + (y + r)*I + m*I*I` are below `C*I*I`, weight indices
`c + r*F + (n + m*N)*F*F` are below `C*N*F*F`, threshold and output indices
`x + y*O + n*O*O` are below `N*O*O`; every output position is written,
distinct `(n, x, y)` write distinct indices; so with `C*I*I ≤ MAX_FMAP` and
`N*O*O ≤ MAX_FMAP` every access of `input`, `threshold` and `output` is below
`MAX_FMAP`. -/
theorem conv_second_index_safety (k : Consts) (input output : Fmap)
    (threshold : Int → Int) (N I : Int) (hFS : k.FILTER_SIZE = k.F * k.F)
    (_hI : k.F ≤ I) :
    (conv_second_traced k input output threshold N I).1
        = conv_second k input output threshold N I ∧
    (∀ e ∈ (conv_second_traced k input output threshold N I).2,
      spec_access_in_range k N I e) ∧
    (∀ n x y : Int, 0 ≤ n → n < N → 0 ≤ x → x < I - k.F + 1 → 0 ≤ y → y < I - k.F + 1 →
      (BufferId.threshold, x + y * (I - k.F + 1) + n * (I - k.F + 1) * (I - k.F + 1))
          ∈ (conv_second_traced k input output threshold N I).2 ∧
      (BufferId.output, x + y * (I - k.F + 1) + n * (I - k.F + 1) * (I - k.F + 1))
          ∈ (conv_second_traced k input output threshold N I).2) ∧
    (∀ n x y n2 x2 y2 : Int, 0 ≤ n → n < N → 0 ≤ x → x < I - k.F + 1 → 0 ≤ y →
      y < I - k.F + 1 → 0 ≤ n2 → n2 < N → 0 ≤ x2 → x2 < I - k.F + 1 → 0 ≤ y2 →
      y2 < I - k.F + 1 →
      x + y * (I - k.F + 1) + n * (I - k.F + 1) * (I - k.F + 1)
        = x2 + y2 * (I - k.F + 1) + n2 * (I - k.F + 1) * (I - k.F + 1) →
      n = n2 ∧ x = x2 ∧ y = y2) ∧
    (k.N_CHANNEL1 * I * I ≤ k.MAX_FMAP → N * (I - k.F + 1) * (I - k.F + 1) ≤ k.MAX_FMAP →
      ∀ e ∈ (conv_second_traced k input output threshold N I).2,
        e.1 ≠ BufferId.weight → 0 ≤ e.2 ∧ e.2 < k.MAX_FMAP) := by
  have hsafe := conv_second_traced_safe k input output threshold N I hFS
  refine ⟨conv_second_traced_fst k input output threshold N I, hsafe, ?_, ?_, ?_⟩
  · intro n x y hn hn2 hx hx2 hy hy2
    rw [mul_assoc n]
    exact ⟨conv_second_traced_mem k input output threshold N I n x y ⟨hn, hn2⟩ ⟨hx, hx2⟩
        ⟨hy, hy2⟩ _ (Or.inl rfl),
      conv_second_traced_mem k input output threshold N I n x y ⟨hn, hn2⟩ ⟨hx, hx2⟩
        ⟨hy, hy2⟩ _ (Or.inr rfl)⟩
  · intro n x y n2 x2 y2 _ _ hx hx2 hy hy2 _ _ hx3 hx4 hy3 hy4 e
    rw [mul_assoc n, mul_assoc n2] at e
    exact chan_major_inj hx hx2 hy hy2 hx3 hx4 hy3 hy4 e
  · intro hcap1 hcap2 e he hne
    have h := hsafe e he
    obtain ⟨b, i⟩ := e
    cases b
    · exact ⟨h.1, lt_of_lt_of_le h.2 hcap1⟩
    · exact absurd rfl hne
    · exact ⟨h.1, lt_of_lt_of_le h.2 hcap2⟩
    · exact ⟨h.1, lt_of_lt_of_le h.2 hcap2⟩

/-- Instance of `conv_second_index_safety` on the worked example: the run
makes 80 accesses, all in range. -/
theorem conv_second_index_safety_witness :
    (exampleConsts.FILTER_SIZE = exampleConsts.F * exampleConsts.F ∧ exampleConsts.F ≤ 4) ∧
    (conv_second_traced exampleConsts onesInput4x4 zeroOutput (fun _ => 0) 1 4).2.length = 80 ∧
    (∀ e ∈ (conv_second_traced exampleConsts onesInput4x4 zeroOutput (fun _ => 0) 1 4).2,
      spec_access_in_range exampleConsts 1 4 e) :=
  ⟨by decide, by decide,
   (conv_second_index_safety exampleConsts onesInput4x4 zeroOutput (fun _ => 0) 1 4
      (by decide) (by decide)).2.1⟩

/-! ## Binary32: order and exact integers -/

theorem F32.lt_irrefl (a : F32) : F32.lt a a = false := by
  cases a <;> simp [F32.lt]

theorem F32.lt_not_nan {a b : F32} (h : F32.lt a b = true) : a ≠ F32.nan ∧ b ≠ F32.nan := by
  cases a <;> cases b <;> simp_all [F32.lt]

theorem F32.lt_trans {a b c : F32} (h1 : F32.lt a b = true) (h2 : F32.lt b c = true) :
    F32.lt a c = true := by
  cases a <;> cases b <;> cases c <;> simp_all [F32.lt]
  omega

theorem F32.lt_asymm {a b : F32} (h : F32.lt a b = true) : F32.lt b a = false := by
  cases a <;> cases b <;> simp_all [F32.lt]
  all_goals omega

/-- From `b ≤ m` (as numbers) and `m < c` follows `b < c`. -/
theorem F32.lt_of_not_lt_of_lt {m b c : F32} (hb : b ≠ F32.nan) (h1 : F32.lt m b = false)
    (h2 : F32.lt m c = true) : F32.lt b c = true := by
  cases m <;> cases b <;> cases c <;> simp_all [F32.lt]
  omega

/-- Two different numbers are ordered one way or the other. -/
theorem F32.lt_or_gt_of_ne {a b : F32} (ha : a ≠ F32.nan) (hb : b ≠ F32.nan) (h : a ≠ b) :
    F32.lt a b = true ∨ F32.lt b a = true := by
  cases a <;> cases b <;> simp_all [F32.lt]

theorem F32.le_not_gt {a b : F32} (h : F32.le a b = true) : F32.gt a b = false := by
  unfold F32.le at h
  unfold F32.gt
  rcases Bool.or_eq_true _ _ |>.mp h with h1 | h1
  · exact F32.lt_asymm h1
  · simp only [Bool.and_eq_true, decide_eq_true_eq] at h1
    rw [h1.1]
    exact F32.lt_irrefl b

theorem bitLogLoop_spec (fuel n : Nat) (h : n ≤ fuel) (hn : n ≠ 0) :
    2 ^ bitLogLoop fuel n ≤ n ∧ n < 2 ^ (bitLogLoop fuel n + 1) := by
  induction fuel generalizing n with
  | zero => omega
  | succ fuel ih =>
    unfold bitLogLoop
    split
    · next h2 => simp; omega
    · next h2 =>
      obtain ⟨i1, i2⟩ := ih (n / 2) (by omega) (by omega)
      rw [pow_succ, pow_succ]
      constructor <;> omega

/-- The position of the leading bit brackets a positive number between two
powers of two. -/
theorem bitLog_spec (n : Nat) (hn : n ≠ 0) : 2 ^ bitLog n ≤ n ∧ n < 2 ^ (bitLog n + 1) :=
  bitLogLoop_spec n n le_rfl hn

theorem bitLog_lt {n k : Nat} (hn : n ≠ 0) (h : n < 2 ^ k) : bitLog n < k := by
  by_contra hk
  have h1 := (bitLog_spec n hn).1
  have h2 : 2 ^ k ≤ 2 ^ bitLog n := Nat.pow_le_pow_right (by decide) (by omega)
  omega

theorem le_bitLog {n k : Nat} (h : 2 ^ k ≤ n) : k ≤ bitLog n := by
  by_contra hk
  have hn : n ≠ 0 := by
    have := Nat.two_pow_pos k
    omega
  have h1 := (bitLog_spec n hn).2
  have h2 : 2 ^ (bitLog n + 1) ≤ 2 ^ k := Nat.pow_le_pow_right (by decide) (by omega)
  omega

/-- The loop of `isqrt` narrows the bracket `r^2 ≤ n < (r + 2^b)^2` down to
`b = 0`. -/
theorem isqrtLoop_spec (n b r : Nat) (h1 : r ^ 2 ≤ n) (h2 : n < (r + 2 ^ b) ^ 2) :
    isqrtLoop n b r ^ 2 ≤ n ∧ n < (isqrtLoop n b r + 1) ^ 2 := by
  induction b generalizing r with
  | zero => exact ⟨h1, by simpa using h2⟩
  | succ b ih =>
    unfold isqrtLoop
    by_cases h : (r + 2 ^ b) ^ 2 ≤ n
    · rw [if_pos h]
      refine ih _ h ?_
      rw [add_assoc, ← two_mul, ← pow_succ']
      exact h2
    · rw [if_neg h]
      exact ih _ h1 (by omega)

/-- The integer square root is the floor of the square root. -/
theorem isqrt_spec (n : Nat) : isqrt n ^ 2 ≤ n ∧ n < (isqrt n + 1) ^ 2 := by
  refine isqrtLoop_spec n _ 0 (by simp) ?_
  rw [zero_add, ← pow_mul]
  rcases Nat.eq_zero_or_pos n with rfl | hpos
  · exact Nat.two_pow_pos _
  · refine lt_of_lt_of_le (bitLog_spec n (by omega)).2 (Nat.pow_le_pow_right (by decide) ?_)
    omega

/-- Rounding leaves a multiple of `2^149` units below `2^24 * 2^149` as it is:
the integers below `2^24` are binary32 values. -/
theorem F32.round_int_exact (z : Nat) (hz : z < 2 ^ 24) :
    F32.round false (z * 2 ^ 149) 0 false = F32.fin ((z * 2 ^ 149 : Nat) : Int) := by
  rcases Nat.eq_zero_or_pos z with rfl | hpos
  · decide!
  · have hn : z * 2 ^ 149 ≠ 0 := Nat.mul_ne_zero (by omega) (by positivity)
    have hlo : 149 ≤ bitLog (z * 2 ^ 149) :=
      le_bitLog (Nat.le_mul_of_pos_left _ hpos)
    have hlt : z * 2 ^ 149 < 2 ^ 173 := by
      calc z * 2 ^ 149 < 2 ^ 24 * 2 ^ 149 := Nat.mul_lt_mul_of_pos_right hz (by positivity)
        _ = 2 ^ 173 := by rw [← pow_add]
    have hhi : bitLog (z * 2 ^ 149) < 173 := bitLog_lt hn hlt
    have hbig : ¬ 2 ^ 24 * 2 ^ 253 ≤ z * 2 ^ 149 := by
      have h1 : z * 2 ^ 149 < 2 ^ 24 * 2 ^ 149 :=
        Nat.mul_lt_mul_of_pos_right hz (by positivity)
      have h2 : (2 : Nat) ^ 24 * 2 ^ 149 ≤ 2 ^ 24 * 2 ^ 253 :=
        Nat.mul_le_mul_left _ (Nat.pow_le_pow_right (by decide) (by decide))
      exact Nat.not_le.mpr (Nat.lt_of_lt_of_le h1 h2)
    unfold F32.round
    generalize bitLog (z * 2 ^ 149) = L at hlo hhi
    obtain ⟨e, he⟩ : ∃ e, 149 = (L - 23) + e := ⟨149 - (L - 23), by omega⟩
    have hdiv : z * 2 ^ 149 = (z * 2 ^ e) * 2 ^ (L - 23) := by
      conv_lhs => rw [he, pow_add]
      ring
    have hpow : 0 < 2 ^ (L - 23) := by positivity
    have hq : z * 2 ^ 149 / 2 ^ (L - 23) = z * 2 ^ e := by
      rw [hdiv]
      exact Nat.mul_div_cancel _ hpow
    have hr : z * 2 ^ 149 % 2 ^ (L - 23) = 0 := by
      rw [hdiv]
      exact Nat.mul_mod_left _ _
    have hL : ¬ L < 24 + 0 := by omega
    have hne : ¬ (2 * 0 = 2 ^ (L - 23)) := by omega
    simp only [hL, if_false, hq, hr, Nat.sub_zero, Nat.mul_zero, Nat.not_lt_zero, decide_False,
      Bool.false_or, Bool.false_and, hne, ← hdiv, hbig, Bool.false_eq_true]

theorem F32.ofInt_nat (z : Nat) (hz : z < 2 ^ 24) :
    F32.ofInt (z : Int) = F32.fin ((z * 2 ^ 149 : Nat) : Int) := by
  unfold F32.ofInt
  have h1 : decide ((z : Int) < 0) = false := by simp
  rw [h1, Int.natAbs_ofNat]
  exact F32.round_int_exact z hz

theorem F32.add_fin (x y : Int) :
    F32.add (F32.fin x) (F32.fin y)
      = F32.round (decide (x + y < 0)) (x + y).natAbs 0 false := by
  simp only [F32.add]

/-- Adding two small non-negative integers in binary32 is exact. -/
theorem F32.add_ofInt_nat (a b : Nat) (h : a + b < 2 ^ 24) :
    F32.add (F32.ofInt (a : Int)) (F32.ofInt (b : Int)) = F32.ofInt ((a + b : Nat) : Int) := by
  rw [F32.ofInt_nat a (by omega), F32.ofInt_nat b (by omega), F32.ofInt_nat (a + b) h]
  rw [F32.add_fin]
  have e : ((a * 2 ^ 149 : Nat) : Int) + ((b * 2 ^ 149 : Nat) : Int)
      = (((a + b) * 2 ^ 149 : Nat) : Int) := by
    push_cast; ring
  have h1 : decide ((((a + b) * 2 ^ 149 : Nat) : Int) < 0) = false := by
    simp only [decide_eq_false_iff_not, not_lt]
    exact Int.ofNat_nonneg _
  rw [e, h1, Int.natAbs_ofNat]
  exact F32.round_int_exact (a + b) h

theorem eqInt_cases (u v : bit) : eqInt u v = ((0 : Nat) : Int) ∨ eqInt u v = ((1 : Nat) : Int) := by
  unfold eqInt
  split
  · right; rfl
  · left; rfl

/-- For `M < 2^24` the `float` counter of the popcount loop of `dense` holds
the number of matches exactly. -/
theorem dense_count32_sum (input weight : Fmap) (M N n : Int) (hM : M < 2 ^ 24) :
    (forLoop M (F32.ofInt 0) fun m one_out =>
        F32.add one_out (F32.ofInt (eqInt (input m) (weight (m * N + n)))))
      = F32.ofInt (∑ m ∈ Finset.Ico (0 : Int) M, eqInt (input m) (weight (m * N + n))) := by
  have h24 : ((2 : Int) ^ 24) = 16777216 := by norm_num
  rcases le_or_lt M 0 with hn | hn
  · rw [forLoop_nonpos hn, Finset.Ico_eq_empty (by omega), Finset.sum_empty]
  · have key := forLoop_inv (fun i s => ∃ c : Nat, (c : Int) ≤ i ∧ s = F32.ofInt (c : Int) ∧
        (c : Int) = ∑ m ∈ Finset.Ico (0 : Int) i, eqInt (input m) (weight (m * N + n)))
      hn.le (F32.ofInt 0)
      (fun m one_out => F32.add one_out (F32.ofInt (eqInt (input m) (weight (m * N + n)))))
      ⟨0, le_rfl, rfl, by simp⟩ ?_
    · obtain ⟨c, _, h2, h3⟩ := key
      rw [h2, h3]
    · rintro i s hi hlt ⟨c, hc, rfl, hsum⟩
      rcases eqInt_cases (input i) (weight (i * N + n)) with e | e
      · refine ⟨c + 0, by omega, ?_, ?_⟩
        · dsimp only
          rw [e, F32.add_ofInt_nat c 0 (by omega)]
        · rw [Ico_zero_succ hi, Finset.sum_insert (by simp), ← hsum, e]
          push_cast; ring
      · refine ⟨c + 1, by omega, ?_, ?_⟩
        · dsimp only
          rw [e, F32.add_ofInt_nat c 1 (by omega)]
        · rw [Ico_zero_succ hi, Finset.sum_insert (by simp), ← hsum, e]
          push_cast; ring

theorem dense_match_sum (input weight : Fmap) (M N n : Int) :
    (∑ m ∈ Finset.Ico (0 : Int) M, eqInt (input m) (weight (m * N + n)))
      = spec_dense_match_count input weight M N n := by
  rw [spec_dense_match_count, Finset.card_filter]
  push_cast
  refine Finset.sum_congr rfl fun m _ => ?_
  unfold eqInt
  split <;> simp_all

/-- The popcount loop of `dense` for unit `n`, which accumulates in a `float`,
holds for `M < 2^24` the value of `xnor_popcount` on the input and the weights
of unit `n`. -/
theorem dense_popcount_loop (input weight : Fmap) (M N n : Int) (hM : M < 2 ^ 24) :
    (forLoop M (F32.ofInt 0) fun m one_out =>
        F32.add one_out (F32.ofInt (eqInt (input m) (weight (m * N + n)))))
      = F32.ofInt (xnor_popcount input (fun m => weight (m * N + n)) M) := by
  rw [dense_count32_sum input weight M N n hM, xnor_popcount_eq_sum]

/-- The routine `dense` is its loop over the units with the activated values
`dense_biased`. -/
theorem dense_eq_loop (input output weight : Fmap) (bias : Int → F32) (M N : Int)
    (use_relu : Bool) :
    dense input output weight bias M N use_relu
      = (dense_loop (dense_biased input weight bias M N) output N use_relu).2 :=
  rfl

/-- For `M < 2^24` the activated value that `dense` computes is the
specification's formula on the integer match count, evaluated in binary32. -/
theorem dense_biased_eq_spec (input weight : Fmap) (bias : Int → F32) (M N n : Int)
    (hM : M < 2 ^ 24) :
    dense_biased input weight bias M N n = spec_activated32 input weight bias M N n := by
  unfold dense_biased spec_activated32
  simp only [dense_count32_sum input weight M N n hM, dense_match_sum]

/-- In ReLU mode entry `n` ends as the comparison of `a n` with zero. -/
theorem dense_loop_relu (a : Int → F32) (output : Fmap) (N n : Int) (hn : 0 ≤ n ∧ n < N) :
    (dense_loop a output N true).2 n
      = if F32.gt (a n) (F32.ofInt 0) then true else false := by
  unfold dense_loop
  refine forLoop_inv (fun i (st : F32 × Fmap) => n < i →
    st.2 n = if F32.gt (a n) (F32.ofInt 0) then true else false) (by omega) _ _ (by omega) ?_ hn.2
  intro i st hi _ hI hlt
  simp only [if_true]
  rcases eq_or_ne n i with rfl | hne
  · exact Fmap.set_same _ _ _
  · rw [Fmap.set_other _ _ hne]
    exact hI (by omega)

theorem F32.minus100_ne_nan : F32.ofInt (-100) ≠ F32.nan := by decide!

/-- In arg-max mode the running maximum starts at `-100` and entry `n` ends as
`1` exactly when `a n` exceeds `-100` and every earlier `a j` that is a
number. -/
theorem dense_loop_argmax (a : Int → F32) (output : Fmap) (N n : Int) (hn : 0 ≤ n ∧ n < N) :
    (dense_loop a output N false).2 n = true
      ↔ (F32.gt (a n) (F32.ofInt (-100)) = true ∧
          ∀ j : Int, 0 ≤ j → j < n → a j = F32.nan ∨ F32.lt (a j) (a n) = true) := by
  unfold dense_loop
  have hmx := F32.minus100_ne_nan
  generalize F32.ofInt (-100) = mx at hmx ⊢
  have key := forLoop_inv (fun i (st : F32 × Fmap) =>
      (F32.lt st.1 mx = false ∧ st.1 ≠ F32.nan) ∧
      (∀ j : Int, 0 ≤ j → j < i → a j = F32.nan ∨ F32.lt st.1 (a j) = false) ∧
      (st.1 = mx ∨ ∃ j : Int, 0 ≤ j ∧ j < i ∧ st.1 = a j) ∧
      (∀ m : Int, 0 ≤ m → m < i →
        (st.2 m = true ↔ (F32.gt (a m) mx = true ∧
          ∀ j : Int, 0 ≤ j → j < m → a j = F32.nan ∨ F32.lt (a j) (a m) = true))))
    (n := N) (by omega) (mx, output)
    (fun n st =>
      if false = true then
        (st.1, st.2.set n (if F32.gt (a n) (F32.ofInt 0) then true else false))
      else if F32.gt (a n) st.1 then
        (a n, st.2.set n true)
      else
        (st.1, st.2.set n false))
    ⟨⟨F32.lt_irrefl mx, hmx⟩, fun j h1 h2 => by omega, Or.inl rfl,
      fun m h1 h2 => by omega⟩ ?_
  · exact key.2.2.2 n hn.1 hn.2
  · rintro i st hi _ ⟨⟨h1, h1n⟩, h2, h3, h4⟩
    simp only [Bool.false_eq_true, if_false]
    by_cases hgt : F32.gt (a i) st.1 = true
    · simp only [hgt, if_true]
      have hlt : F32.lt st.1 (a i) = true := hgt
      have hai : a i ≠ F32.nan := (F32.lt_not_nan hlt).2
      have hbig : F32.lt mx (a i) = true :=
        F32.lt_of_not_lt_of_lt hmx h1 hlt
      refine ⟨⟨F32.lt_asymm hbig, hai⟩, ?_, ?_, ?_⟩
      · intro j hj hj2
        rcases eq_or_ne j i with rfl | hne
        · exact Or.inr (F32.lt_irrefl _)
        · rcases h2 j hj (by omega) with h | h
          · exact Or.inl h
          · right
            by_contra hc
            have hc2 : F32.lt (a i) (a j) = true := by simpa using hc
            rw [F32.lt_trans hlt hc2] at h
            exact absurd h (by decide)
      · exact Or.inr ⟨i, hi, by omega, rfl⟩
      · intro m hm hm2
        rcases eq_or_ne m i with rfl | hne
        · rw [Fmap.set_same]
          simp only [true_iff]
          refine ⟨hbig, fun j hj hj2 => ?_⟩
          rcases h2 j hj hj2 with h | h
          · exact Or.inl h
          · by_cases hj3 : a j = F32.nan
            · exact Or.inl hj3
            · exact Or.inr (F32.lt_of_not_lt_of_lt hj3 h hlt)
        · rw [Fmap.set_other _ _ hne]
          exact h4 m hm (by omega)
    · simp only [hgt, Bool.false_eq_true, if_false]
      have hle : F32.lt st.1 (a i) = false := by
        simpa [F32.gt] using hgt
      refine ⟨⟨h1, h1n⟩, ?_, ?_, ?_⟩
      · intro j hj hj2
        rcases eq_or_ne j i with rfl | hne
        · exact Or.inr hle
        · exact h2 j hj (by omega)
      · rcases h3 with h3 | ⟨j, hj, hj2, hj3⟩
        · exact Or.inl h3
        · exact Or.inr ⟨j, hj, by omega, hj3⟩
      · intro m hm hm2
        rcases eq_or_ne m i with rfl | hne
        · rw [Fmap.set_same]
          simp only [Bool.false_eq_true, false_iff, not_and]
          intro hbig hall
          rcases h3 with h3 | ⟨j, hj, hj2, hj3⟩
          · have : F32.lt st.1 (a m) = true := by rw [h3]; exact hbig
            rw [this] at hle
            exact absurd hle (by decide)
          · rcases hall j hj hj2 with h | h
            · exact h1n (hj3.trans h)
            · rw [← hj3, hle] at h
              exact absurd h (by decide)
        · rw [Fmap.set_other _ _ hne]
          exact h4 m hm (by omega)

/-! ## Binary32: finite results -/

/-- A power of two below a product of two powers of two. -/
theorem two_pow_lt_split (B a b c : Nat) (hB : B ≤ a + c) (hab : a < b) :
    2 ^ B < 2 ^ b * 2 ^ c := by
  rw [← pow_add]
  exact Nat.pow_lt_pow_right (by decide) (by omega)

/-- Rounding a magnitude below `2^B` units, `B ≤ 276`, gives a finite value of
at most `2^B` units. -/
theorem F32.round_fin (neg : Bool) (n t : Nat) (sticky : Bool) (B : Nat) (hB : B ≤ 276)
    (h : n < 2 ^ (t + B)) :
    ∃ k : Int, F32.round neg n t sticky = F32.fin k ∧ k.natAbs ≤ 2 ^ B := by
  have hcap : ∀ k : Nat, k ≤ 2 ^ B → ¬ 2 ^ 24 * 2 ^ 253 ≤ k := fun k hk =>
    Nat.not_le.mpr (lt_of_le_of_lt hk (two_pow_lt_split B 23 24 253 (by omega) (by decide)))
  have key : ∀ (up : Bool),
      (if up then n / 2 ^ (if bitLog n < 24 + t then t else bitLog n - 23) + 1
        else n / 2 ^ (if bitLog n < 24 + t then t else bitLog n - 23))
        * 2 ^ ((if bitLog n < 24 + t then t else bitLog n - 23) - t) ≤ 2 ^ B := by
    intro up
    have hup : ∀ q : Nat, (if up then q + 1 else q) ≤ q + 1 := by
      intro q
      split <;> omega
    by_cases hL : bitLog n < 24 + t
    · rw [if_pos hL, Nat.sub_self, pow_zero, Nat.mul_one]
      have hq : n / 2 ^ t < 2 ^ B := by
        rw [Nat.div_lt_iff_lt_mul (Nat.two_pow_pos _), ← pow_add, Nat.add_comm]
        exact h
      exact le_trans (hup _) hq
    · rw [if_neg hL]
      have hn : n ≠ 0 := by
        rintro rfl
        have e : bitLog 0 = 0 := rfl
        omega
      have hlt := bitLog_lt hn h
      have hq : n / 2 ^ (bitLog n - 23) < 2 ^ 24 := by
        rw [Nat.div_lt_iff_lt_mul (Nat.two_pow_pos _), ← pow_add]
        have e : 24 + (bitLog n - 23) = bitLog n + 1 := by omega
        rw [e]
        exact (bitLog_spec n hn).2
      calc _ ≤ 2 ^ 24 * 2 ^ (bitLog n - 23 - t) :=
            Nat.mul_le_mul_right _ (le_trans (hup _) hq)
        _ = 2 ^ (24 + (bitLog n - 23 - t)) := by rw [← pow_add]
        _ ≤ 2 ^ B := Nat.pow_le_pow_right (by decide) (by omega)
  unfold F32.round
  dsimp only
  generalize hup : (decide (2 ^ (if bitLog n < 24 + t then t else bitLog n - 23)
      < 2 * (n % 2 ^ (if bitLog n < 24 + t then t else bitLog n - 23)))
    || (decide (2 * (n % 2 ^ (if bitLog n < 24 + t then t else bitLog n - 23))
        = 2 ^ (if bitLog n < 24 + t then t else bitLog n - 23))
      && (sticky
        || decide (n / 2 ^ (if bitLog n < 24 + t then t else bitLog n - 23) % 2 = 1)))) = up
  have hk := key up
  rw [if_neg (hcap _ hk)]
  cases neg
  · refine ⟨_, rfl, ?_⟩
    simp only [Bool.false_eq_true, if_false]
    rw [Int.natAbs_ofNat]
    exact hk
  · refine ⟨_, rfl, ?_⟩
    simp only [if_true]
    rw [Int.natAbs_neg, Int.natAbs_ofNat]
    exact hk

/-- Rounding never produces a NaN. -/
theorem F32.round_ne_nan (neg : Bool) (n t : Nat) (sticky : Bool) :
    F32.round neg n t sticky ≠ F32.nan := by
  unfold F32.round
  dsimp only
  split_ifs <;> exact F32.noConfusion

/-- Rounding a non-negative magnitude gives a non-negative value. -/
theorem F32.round_false_nonneg (n t : Nat) (sticky : Bool) (k : Int)
    (h : F32.round false n t sticky = F32.fin k) : 0 ≤ k := by
  unfold F32.round at h
  dsimp only at h
  simp only [Bool.false_eq_true, if_false] at h
  split_ifs at h <;> injection h with h <;> rw [← h] <;> exact Int.ofNat_nonneg _

/-- The binary64 quotient is at most twice the exact quotient, plus one. -/
theorem doubleDiv_fst_le (a b : Nat) :
    (doubleDiv a b).1 ≤ 2 * (a * 2 ^ (64 + bitLog b + 1)) + 1 := by
  unfold doubleDiv
  dsimp only
  generalize a * 2 ^ (64 + bitLog b + 1) = x
  have hq0 : x / b ≤ x := Nat.div_le_self _ _
  generalize x / b = q0 at hq0 ⊢
  have hd : 2 ^ (bitLog q0 - 52) ≤ q0 + 1 := by
    rcases Nat.eq_zero_or_pos q0 with rfl | hpos
    · decide
    · have h1 := (bitLog_spec q0 (by omega)).1
      have h2 : 2 ^ (bitLog q0 - 52) ≤ 2 ^ bitLog q0 :=
        Nat.pow_le_pow_right (by decide) (by omega)
      omega
  have hq : q0 / 2 ^ (bitLog q0 - 52) * 2 ^ (bitLog q0 - 52) ≤ q0 := Nat.div_mul_le_self _ _
  split_ifs
  · rw [Nat.add_mul, Nat.one_mul]
    omega
  · omega

/-- For `M > 0` the constant `(float)(2. / M)` is a non-negative finite value. -/
theorem F32.ofDoubleQuot_two_fin (M : Int) (hM : 0 < M) :
    ∃ k : Int, F32.ofDoubleQuot 2 M = F32.fin k ∧ 0 ≤ k ∧ k.natAbs ≤ 2 ^ 152 := by
  unfold F32.ofDoubleQuot
  rw [if_neg (by omega)]
  dsimp only
  have hneg : decide (M < 0) = false := by
    rw [decide_eq_false_iff_not]
    omega
  rw [hneg]
  have hlt : (doubleDiv 2 M.natAbs).1 * 2 ^ 149 < 2 ^ ((doubleDiv 2 M.natAbs).2 + 152) := by
    have h1 := doubleDiv_fst_le 2 M.natAbs
    have e : (doubleDiv 2 M.natAbs).2 = 64 + bitLog M.natAbs + 1 := rfl
    rw [e]
    generalize 64 + bitLog M.natAbs + 1 = s at h1 ⊢
    have h2 : (doubleDiv 2 M.natAbs).1 < 2 ^ (s + 3) := by
      have h3 : (2 : Nat) ^ (s + 3) = 8 * 2 ^ s := by rw [pow_add]; ring
      have h4 := Nat.two_pow_pos s
      omega
    calc (doubleDiv 2 M.natAbs).1 * 2 ^ 149 < 2 ^ (s + 3) * 2 ^ 149 :=
          Nat.mul_lt_mul_of_pos_right h2 (Nat.two_pow_pos _)
      _ = 2 ^ (s + 152) := by rw [← pow_add]
  obtain ⟨k, hk, hk2⟩ := F32.round_fin false _ _ false 152 (by decide) hlt
  exact ⟨k, hk, F32.round_false_nonneg _ _ _ _ hk, hk2⟩

/-- A number whose square is at most `2^a` is below `2^e` when `a < 2*e`. -/
theorem lt_two_pow_of_sq_le (r a e : Nat) (h : r ^ 2 ≤ 2 ^ a) (hae : a < 2 * e) :
    r < 2 ^ e := by
  by_contra hge
  rw [Nat.not_lt] at hge
  have h1 : (2 ^ e) ^ 2 ≤ r ^ 2 := Nat.pow_le_pow_left hge 2
  rw [← pow_mul] at h1
  have h2 : (2 : Nat) ^ a < 2 ^ (e * 2) := Nat.pow_lt_pow_right (by decide) (by omega)
  exact absurd (le_trans h1 h) (Nat.not_le.mpr h2)

/-- The square root of a non-negative finite value is finite. -/
theorem F32.sqrt_fin (k : Int) (hk : 0 ≤ k) (B : Nat) (hB : B ≤ 276) (hk2 : k.natAbs ≤ 2 ^ B) :
    ∃ y : Int, F32.sqrt (F32.fin k) = F32.fin y := by
  unfold F32.sqrt
  dsimp only
  rw [if_neg (by omega)]
  by_cases h0 : k = 0
  · rw [if_pos h0]
    exact ⟨0, rfl⟩
  · rw [if_neg h0]
    have hr := (isqrt_spec (k.natAbs * 2 ^ 151)).1
    have hn : k.natAbs * 2 ^ 151 ≤ 2 ^ (B + 151) := by
      rw [pow_add]
      exact Nat.mul_le_mul_right _ hk2
    have hlt : isqrt (k.natAbs * 2 ^ 151) < 2 ^ (1 + 276) :=
      lt_two_pow_of_sq_le _ (B + 151) (1 + 276) (le_trans hr hn) (by omega)
    obtain ⟨y, hy, -⟩ := F32.round_fin false _ 1 (decide (isqrt (k.natAbs * 2 ^ 151)
      * isqrt (k.natAbs * 2 ^ 151) ≠ k.natAbs * 2 ^ 151)) 276 le_rfl hlt
    exact ⟨y, hy⟩

/-- Adding a finite value to a value that is not a NaN does not give a NaN. -/
theorem F32.add_fin_ne_nan (u : F32) (hu : u ≠ F32.nan) (b : Int) :
    F32.add u (F32.fin b) ≠ F32.nan := by
  cases u with
  | nan => exact absurd rfl hu
  | ninf => simp [F32.add]
  | pinf => simp [F32.add]
  | fin a =>
    rw [F32.add_fin]
    exact F32.round_ne_nan _ _ _ _

/-- The product of two finite values is the rounded exact product. -/
theorem F32.mul_fin (x y : Int) :
    F32.mul (F32.fin x) (F32.fin y)
      = F32.round (decide (x * y < 0)) (x * y).natAbs 149 false := by
  simp only [F32.mul]


/-- A multiple `x * 2^e` with `x < 2^a` is below `2^(a+e)`. -/
theorem mul_two_pow_lt (x a e B : Nat) (hx : x < 2 ^ a) (h : a + e ≤ B) : x * 2 ^ e < 2 ^ B :=
  calc x * 2 ^ e < 2 ^ a * 2 ^ e := Nat.mul_lt_mul_of_pos_right hx (Nat.two_pow_pos _)
    _ = 2 ^ (a + e) := by rw [← pow_add]
    _ ≤ 2 ^ B := Nat.pow_le_pow_right (by decide) h

/-- The match count of a dense unit lies between `0` and `M`. -/
theorem spec_dense_match_count_le (input weight : Fmap) (M N n : Int) (hM : 0 ≤ M) :
    ∃ c : Nat, spec_dense_match_count input weight M N n = (c : Int) ∧ (c : Int) ≤ M := by
  refine ⟨_, rfl, ?_⟩
  have h := Finset.card_filter_le (Finset.Ico (0 : Int) M)
    (fun m => input m = weight (m * N + n))
  rw [Int.card_Ico] at h
  omega

/-- For `0 < M < 2^24` the bipolar sum `2*match_count - M` is computed as a
finite value. -/
theorem dense_bipolar_fin (input weight : Fmap) (M N n : Int) (hM : 0 < M) (hM2 : M < 2 ^ 24) :
    ∃ x : Int,
      F32.sub (F32.mul (F32.ofInt 2) (F32.ofInt (spec_dense_match_count input weight M N n)))
        (F32.ofInt M) = F32.fin x := by
  have h24 : ((2 : Int) ^ 24) = 16777216 := by norm_num
  obtain ⟨c, hc, hcM⟩ := spec_dense_match_count_le input weight M N n hM.le
  obtain ⟨m, rfl⟩ : ∃ m : Nat, M = (m : Int) := ⟨M.toNat, by omega⟩
  have e2 : F32.ofInt 2 = F32.fin ((2 * 2 ^ 149 : Nat) : Int) := F32.ofInt_nat 2 (by decide)
  rw [hc, e2, F32.ofInt_nat c (by omega), F32.ofInt_nat m (by omega), F32.mul_fin]
  have hprod : (((2 * 2 ^ 149 : Nat) : Int) * ((c * 2 ^ 149 : Nat) : Int)).natAbs
      < 2 ^ (149 + 174) := by
    rw [← Int.natCast_mul, Int.natAbs_ofNat]
    have e : 2 * 2 ^ 149 * (c * 2 ^ 149) = (2 * c) * 2 ^ (149 + 149) := by
      rw [pow_add]
      ring
    rw [e]
    exact mul_two_pow_lt (2 * c) 25 (149 + 149) (149 + 174) (by omega) (by decide)
  obtain ⟨k1, hk1, hk1b⟩ := F32.round_fin
    (decide (((2 * 2 ^ 149 : Nat) : Int) * ((c * 2 ^ 149 : Nat) : Int) < 0)) _ 149 false 174
    (by decide) hprod
  rw [hk1]
  unfold F32.sub F32.neg
  rw [F32.add_fin]
  have hm : m * 2 ^ 149 < 2 ^ 173 := mul_two_pow_lt m 24 149 173 (by omega) (by decide)
  have hsum : (k1 + -((m * 2 ^ 149 : Nat) : Int)).natAbs < 2 ^ (0 + 175) := by
    have h1 : (2 : Nat) ^ 173 + 2 ^ 174 < 2 ^ (0 + 175) := by decide
    omega
  obtain ⟨x, hx, -⟩ := F32.round_fin (decide (k1 + -((m * 2 ^ 149 : Nat) : Int) < 0)) _ 0
    false 175 (by decide) hsum
  exact ⟨x, hx⟩

/-- For `0 < M < 2^24` and a finite bias the activated value that `dense`
computes for a unit is not a NaN. -/
theorem dense_biased_ne_nan (input weight : Fmap) (bias : Int → F32) (M N n : Int)
    (hM : 0 < M) (hM2 : M < 2 ^ 24) (hb : ∃ b : Int, bias n = F32.fin b) :
    dense_biased input weight bias M N n ≠ F32.nan := by
  obtain ⟨b, hb⟩ := hb
  obtain ⟨k, hk, hk0, hk2⟩ := F32.ofDoubleQuot_two_fin M hM
  obtain ⟨y, hy⟩ := F32.sqrt_fin k hk0 152 (by decide) hk2
  obtain ⟨x, hx⟩ := dense_bipolar_fin input weight M N n hM hM2
  rw [dense_biased_eq_spec _ _ _ _ _ _ hM2]
  unfold spec_activated32
  rw [hb, hx, hk, hy, F32.mul_fin]
  exact F32.add_fin_ne_nan _ (F32.round_ne_nan _ _ _ _) b

/-! ## Dense layer -/

/-- C6, as stated (arithmetic over the reals), fails on the binary32 code.
With `M = 3`, `N = 1`, inputs `1, 1, 1`, weights `1, 0, 0` (one match) and
`bias[0]` the `float` nearest to `sqrt(2/3)`, which lies above `sqrt(2/3)`, the
real value `(2*1 - 3)*sqrt(2/3) + bias[0]` is positive, but the code computes
`-c + c = 0` with `c = bias[0]` and writes `0`. -/
theorem dense_relu_not_real_arithmetic :
    ((0 : Int) < 3 ∧ (0 : Int) ≤ 0 ∧ (0 : Int) < 1) ∧
    F32.sqrt (F32.ofDoubleQuot 2 3) = F32.fin 582671451820144047411446949361046764419809280 ∧
    spec_dense_match_count (fun _ => true) (fun i => decide (i = 0)) 3 1 0 = 1 ∧
    (0 : ℝ) < spec_activated Real.sqrt (fun _ => true) (fun i => decide (i = 0))
      (fun _ => ((F32.toRat (F32.fin 582671451820144047411446949361046764419809280) : ℚ) : ℝ))
      3 1 0 ∧
    dense (fun _ => true) (fun _ => true) (fun i => decide (i = 0))
      (fun _ => F32.fin 582671451820144047411446949361046764419809280) 3 1 true 0 = false := by
  have hc : spec_dense_match_count (fun _ => true) (fun i => decide (i = 0)) 3 1 0 = 1 := by
    decide
  refine ⟨by decide, by decide!, hc, ?_, by decide!⟩
  unfold spec_activated
  rw [hc]
  have hs : Real.sqrt (2 / ((3 : Int) : ℝ))
      < ((F32.toRat (F32.fin 582671451820144047411446949361046764419809280) : ℚ) : ℝ) := by
    rw [Real.sqrt_lt' (by simp only [F32.toRat]; norm_num)]
    simp only [F32.toRat]
    norm_num
  push_cast at hs ⊢
  linarith

/-- C6, amended: for `0 < M < 2^24` and `n < N`, after
`dense(input, output, weight, bias, M, N, true)` the entry `output[n]` is `1`
if `(2*match_count_n - M)*c + bias[n] > 0` and `0` otherwise, where
`match_count_n` counts the `m < M` with `input[m] = weight[m*N + n]`,
`c = sqrt(2/M)`, and the arithmetic is that of the code: every operation is
rounded to binary32 (`2/M` first to binary64). -/
theorem dense_relu_spec (input output weight : Fmap) (bias : Int → F32) (M N : Int)
    (_hM : 0 < M) (hM2 : M < 2 ^ 24) (n : Int) (hn : 0 ≤ n ∧ n < N) :
    dense input output weight bias M N true n
      = if F32.gt
            (F32.add
              (F32.mul
                (F32.sub
                  (F32.mul (F32.ofInt 2) (F32.ofInt (spec_dense_match_count input weight M N n)))
                  (F32.ofInt M))
                (F32.sqrt (F32.ofDoubleQuot 2 M)))
              (bias n))
            (F32.ofInt 0)
        then true else false := by
  rw [dense_eq_loop, dense_loop_relu _ _ _ _ hn, dense_biased_eq_spec _ _ _ _ _ _ hM2]
  rfl

/-- Instance of `dense_relu_spec`: `M = 3`, one match, bias the `float` nearest
to `sqrt(2/3)`; the binary32 value is `0` and the output bit is `0`. -/
theorem dense_relu_spec_witness :
    ((0 : Int) < 3 ∧ (3 : Int) < 2 ^ 24 ∧ (0 : Int) ≤ 0 ∧ (0 : Int) < 1) ∧
    spec_activated32 (fun _ => true) (fun i => decide (i = 0))
      (fun _ => F32.fin 582671451820144047411446949361046764419809280) 3 1 0 = F32.fin 0 ∧
    dense (fun _ => true) sampleOutput (fun i => decide (i = 0))
        (fun _ => F32.fin 582671451820144047411446949361046764419809280) 3 1 true 0
      = if F32.gt
            (F32.add
              (F32.mul
                (F32.sub
                  (F32.mul (F32.ofInt 2)
                    (F32.ofInt (spec_dense_match_count (fun _ => true)
                      (fun i => decide (i = 0)) 3 1 0)))
                  (F32.ofInt 3))
                (F32.sqrt (F32.ofDoubleQuot 2 3)))
              ((fun _ => F32.fin 582671451820144047411446949361046764419809280) (0 : Int)))
            (F32.ofInt 0)
        then true else false :=
  ⟨by decide, by decide!,
   dense_relu_spec (fun _ => true) sampleOutput (fun i => decide (i = 0))
    (fun _ => F32.fin 582671451820144047411446949361046764419809280) 3 1 (by decide)
    (by decide) 0 (by decide)⟩

/-- C7 (dense arg-max tie-break): for `dense` called with `use_relu = false`
and a unit `n < N`, `output[n]` is `1` only if the activated value of unit `n`
(the `float` the code computes) is strictly greater than the activated value
of every earlier unit `j < n` that is a number; so a unit whose activated
value equals that of an earlier unit gets output bit `0`. -/
theorem dense_argmax_first_wins (input output weight : Fmap) (bias : Int → F32)
    (M N : Int) (n : Int) (hn : 0 ≤ n ∧ n < N) :
    (dense input output weight bias M N false n = true →
      ∀ j : Int, 0 ≤ j → j < n → dense_biased input weight bias M N j ≠ F32.nan →
        F32.lt (dense_biased input weight bias M N j)
          (dense_biased input weight bias M N n) = true) ∧
    ((∃ j : Int, 0 ≤ j ∧ j < n ∧
        dense_biased input weight bias M N j = dense_biased input weight bias M N n) →
      dense input output weight bias M N false n = false) := by
  rw [dense_eq_loop]
  have h := dense_loop_argmax (dense_biased input weight bias M N) output N n hn
  constructor
  · intro h1 j hj hj2 hnum
    rcases (h.mp h1).2 j hj hj2 with h2 | h2
    · exact absurd h2 hnum
    · exact h2
  · rintro ⟨j, hj, hj2, e⟩
    rw [Bool.eq_false_iff]
    intro h1
    obtain ⟨h3, h4⟩ := h.mp h1
    rcases h4 j hj hj2 with h5 | h5
    · rw [e] at h5
      rw [h5] at h3
      exact (F32.lt_not_nan h3).2 rfl
    · rw [e, F32.lt_irrefl] at h5
      exact absurd h5 (by decide)

/-- Instance of `dense_argmax_first_wins`: `M = N = 2`, all inputs and weights
`1`, biases `2^-30` and `2^-29`.  Both activated values round to `2` in
binary32, so the second unit ties with the first and gets `0`. -/
theorem dense_argmax_first_wins_witness :
    dense_biased (fun _ => true) (fun _ => true)
        (fun n => if n = 0 then F32.fin (2 ^ 119) else F32.fin (2 ^ 120)) 2 2 0 = F32.ofInt 2 ∧
    dense_biased (fun _ => true) (fun _ => true)
        (fun n => if n = 0 then F32.fin (2 ^ 119) else F32.fin (2 ^ 120)) 2 2 1 = F32.ofInt 2 ∧
    dense (fun _ => true) sampleOutput (fun _ => true)
        (fun n => if n = 0 then F32.fin (2 ^ 119) else F32.fin (2 ^ 120)) 2 2 false 1 = false :=
  ⟨by decide!, by decide!,
   (dense_argmax_first_wins (fun _ => true) sampleOutput (fun _ => true)
      (fun n => if n = 0 then F32.fin (2 ^ 119) else F32.fin (2 ^ 120)) 2 2 1 (by decide)).2
      ⟨0, by decide, by decide, by decide!⟩⟩


/-- Among finitely many pairwise distinct numbers there is a strictly largest
one. -/
theorem F32.exists_strict_max (a : Int → F32) (k : Nat)
    (hnum : ∀ j : Int, 0 ≤ j → j < (k : Int) + 1 → a j ≠ F32.nan)
    (hdist : ∀ i j : Int, 0 ≤ i → i < (k : Int) + 1 → 0 ≤ j → j < (k : Int) + 1 → i ≠ j →
      a i ≠ a j) :
    ∃ w : Int, 0 ≤ w ∧ w < (k : Int) + 1 ∧
      ∀ j : Int, 0 ≤ j → j < (k : Int) + 1 → j ≠ w → F32.lt (a j) (a w) = true := by
  induction k with
  | zero =>
    refine ⟨0, le_rfl, by simp, fun j hj hj2 hne => ?_⟩
    simp at hj2
    omega
  | succ k ih =>
    obtain ⟨w, hw, hw2, hmax⟩ := ih (fun j hj hj2 => hnum j hj (by push_cast; omega))
      (fun i j hi hi2 hj hj2 hne =>
        hdist i j hi (by push_cast; omega) hj (by push_cast; omega) hne)
    have hk : (0 : Int) ≤ (k : Int) + 1 := by omega
    have hk2 : (k : Int) + 1 < ((k + 1 : Nat) : Int) + 1 := by push_cast; omega
    rcases F32.lt_or_gt_of_ne (hnum w hw (by push_cast; omega)) (hnum _ hk hk2)
      (hdist w ((k : Int) + 1) hw (by push_cast; omega) hk hk2 (by omega)) with h | h
    · refine ⟨(k : Int) + 1, hk, hk2, fun j hj hj2 hne => ?_⟩
      push_cast at hj2
      by_cases e : j = w
      · rw [e]
        exact h
      · exact F32.lt_trans (hmax j hj (by omega) e) h
    · refine ⟨w, hw, by push_cast; omega, fun j hj hj2 hne => ?_⟩
      push_cast at hj2
      by_cases e : j = (k : Int) + 1
      · rw [e]
        exact h
      · exact hmax j hj (by omega) hne

/-- The activated value the code computes for a unit depends on the weights
and the bias of that unit only. -/
theorem dense_biased_congr (input w1 w2 : Fmap) (b1 b2 : Int → F32) (M N j : Int)
    (hw : ∀ m : Int, 0 ≤ m → m < M → w1 (m * N + j) = w2 (m * N + j)) (hb : b1 j = b2 j) :
    dense_biased input w1 b1 M N j = dense_biased input w2 b2 M N j := by
  unfold dense_biased
  rw [hb]
  have e : (forLoop M (F32.ofInt 0) fun m one_out =>
        F32.add one_out (F32.ofInt (eqInt (input m) (w1 (m * N + j)))))
      = (forLoop M (F32.ofInt 0) fun m one_out =>
        F32.add one_out (F32.ofInt (eqInt (input m) (w2 (m * N + j))))) := by
    refine forLoop_congr _ _ _ _ fun m s hm hm2 => ?_
    rw [hw m hm hm2]
  exact congrArg
    (fun t => F32.add (F32.mul (F32.sub (F32.mul (F32.ofInt 2) t) (F32.ofInt M))
      (F32.sqrt (F32.ofDoubleQuot 2 M))) (b2 j)) e


/-- C5, as stated, fails.  With `M = 2`, `N = 2`, all inputs and weights `1`
and biases `0, 1` the activated values the code computes are `2` and `3`
(distinct), both output bits are `1`, and so it is false that exactly one
output bit is `1`.  With `M = 2`, `N = 1` and bias `-200` the activated value
is `-198` and no output bit is `1`. -/
theorem dense_argmax_not_one_hot :
    ((0 : Int) < 2 ∧ (1 : Int) ≤ 2 ∧
     dense_biased (fun _ => true) (fun _ => true) (fun n => F32.ofInt n) 2 2 0 = F32.ofInt 2 ∧
     dense_biased (fun _ => true) (fun _ => true) (fun n => F32.ofInt n) 2 2 1 = F32.ofInt 3 ∧
     F32.ofInt 2 ≠ F32.ofInt 3 ∧
     dense (fun _ => true) (fun _ => false) (fun _ => true) (fun n => F32.ofInt n)
        2 2 false 0 = true ∧
     dense (fun _ => true) (fun _ => false) (fun _ => true) (fun n => F32.ofInt n)
        2 2 false 1 = true ∧
     ¬ ∃! n : Int, 0 ≤ n ∧ n < 2 ∧
        dense (fun _ => true) (fun _ => false) (fun _ => true)
          (fun n => F32.ofInt n) 2 2 false n = true) ∧
    ((0 : Int) < 2 ∧ (1 : Int) ≤ 1 ∧
     dense_biased (fun _ => true) (fun _ => true) (fun _ => F32.ofInt (-200)) 2 1 0
        = F32.ofInt (-198) ∧
     ¬ ∃ n : Int, 0 ≤ n ∧ n < 1 ∧
        dense (fun _ => true) (fun _ => true) (fun _ => true)
          (fun _ => F32.ofInt (-200)) 2 1 false n = true) := by
  have a0 : dense (fun _ => true) (fun _ => false) (fun _ => true)
      (fun n => F32.ofInt n) 2 2 false 0 = true := by decide!
  have a1 : dense (fun _ => true) (fun _ => false) (fun _ => true)
      (fun n => F32.ofInt n) 2 2 false 1 = true := by decide!
  have b0 : dense (fun _ => true) (fun _ => true) (fun _ => true)
      (fun _ => F32.ofInt (-200)) 2 1 false 0 = false := by decide!
  refine ⟨⟨by decide, by decide, by decide!, by decide!, by decide!, a0, a1, ?_⟩,
    by decide, by decide, by decide!, ?_⟩
  · rintro ⟨n, -, huniq⟩
    have e0 := huniq 0 ⟨by decide, by decide, a0⟩
    have e1 := huniq 1 ⟨by decide, by decide, a1⟩
    omega
  · rintro ⟨n, hn, hn2, h⟩
    have e : n = 0 := by omega
    rw [e, b0] at h
    exact absurd h (by decide)

/-- C5, amended: for `dense` called with `use_relu = false`, `M > 0` and
`N ≥ 1` units whose activated values, as the code computes them in binary32,
are numbers and pairwise distinct, the unit `w` with the strictly largest
activated value has output bit `1` exactly when that value exceeds `-100`, the
initial running maximum, and every unit after `w` has output bit `0`. -/
theorem dense_argmax_last_winner (input output weight : Fmap) (bias : Int → F32)
    (M N : Int) (_hM : 0 < M) (hN : 1 ≤ N)
    (hnum : ∀ j : Int, 0 ≤ j → j < N → dense_biased input weight bias M N j ≠ F32.nan)
    (hdist : ∀ i j : Int, 0 ≤ i → i < N → 0 ≤ j → j < N → i ≠ j →
      dense_biased input weight bias M N i ≠ dense_biased input weight bias M N j) :
    ∃ w : Int, 0 ≤ w ∧ w < N ∧
      (∀ j : Int, 0 ≤ j → j < N → j ≠ w →
        F32.lt (dense_biased input weight bias M N j)
          (dense_biased input weight bias M N w) = true) ∧
      (dense input output weight bias M N false w = true
        ↔ F32.gt (dense_biased input weight bias M N w) (F32.ofInt (-100)) = true) ∧
      (∀ n : Int, w < n → n < N →
        dense input output weight bias M N false n = false) := by
  obtain ⟨k, rfl⟩ : ∃ k : Nat, N = (k : Int) + 1 := ⟨(N - 1).toNat, by omega⟩
  obtain ⟨w, hw, hw2, hstrict⟩ :=
    F32.exists_strict_max (dense_biased input weight bias M ((k : Int) + 1)) k hnum hdist
  refine ⟨w, hw, hw2, hstrict, ?_, ?_⟩
  · rw [dense_eq_loop, dense_loop_argmax _ _ _ _ ⟨hw, hw2⟩]
    refine ⟨fun h => h.1,
      fun h => ⟨h, fun j hj hj2 => Or.inr (hstrict j hj (by omega) (by omega))⟩⟩
  · intro n hn hn2
    rw [dense_eq_loop, Bool.eq_false_iff]
    intro h1
    have h3 := F32.lt_asymm (hstrict n (by omega) hn2 (by omega))
    rcases ((dense_loop_argmax _ _ _ _ ⟨by omega, hn2⟩).mp h1).2 w hw hn with h2 | h2
    · exact hnum w hw hw2 h2
    · rw [h2] at h3
      exact absurd h3 (by decide)

/-- Instance of `dense_argmax_last_winner`: two units with activated values
`2` and `3`. -/
theorem dense_argmax_last_winner_witness :
    ((0 : Int) < 2 ∧ (1 : Int) ≤ 2) ∧
    ∃ w : Int, 0 ≤ w ∧ w < 2 ∧
      (∀ j : Int, 0 ≤ j → j < 2 → j ≠ w →
        F32.lt (dense_biased (fun _ => true) (fun _ => true) (fun n => F32.ofInt n) 2 2 j)
          (dense_biased (fun _ => true) (fun _ => true) (fun n => F32.ofInt n) 2 2 w) = true) ∧
      (dense (fun _ => true) (fun _ => false) (fun _ => true)
          (fun n => F32.ofInt n) 2 2 false w = true
        ↔ F32.gt (dense_biased (fun _ => true) (fun _ => true) (fun n => F32.ofInt n) 2 2 w)
            (F32.ofInt (-100)) = true) ∧
      (∀ n : Int, w < n → n < 2 →
        dense (fun _ => true) (fun _ => false) (fun _ => true)
          (fun n => F32.ofInt n) 2 2 false n = false) := by
  have e0 : dense_biased (fun _ => true) (fun _ => true) (fun n => F32.ofInt n) 2 2 0
      = F32.fin (2 * 2 ^ 149) := by decide!
  have e1 : dense_biased (fun _ => true) (fun _ => true) (fun n => F32.ofInt n) 2 2 1
      = F32.fin (3 * 2 ^ 149) := by decide!
  have cases2 : ∀ j : Int, 0 ≤ j → j < 2 → j = 0 ∨ j = 1 := fun j hj hj2 => by omega
  refine ⟨by decide, dense_argmax_last_winner (fun _ => true) (fun _ => false)
    (fun _ => true) (fun n => F32.ofInt n) 2 2 (by decide) (by decide) ?_ ?_⟩
  · intro j hj hj2
    rcases cases2 j hj hj2 with rfl | rfl
    · rw [e0]
      exact F32.noConfusion
    · rw [e1]
      exact F32.noConfusion
  · intro i j hi hi2 hj hj2 hne
    rcases cases2 i hi hi2 with rfl | rfl <;> rcases cases2 j hj hj2 with rfl | rfl
    · exact absurd rfl hne
    · rw [e0, e1]
      decide!
    · rw [e0, e1]
      decide!
    · exact absurd rfl hne

/-- C15, as stated, fails in arg-max mode.  With `M = 2`, `N = 2`, all inputs
and weights `1`, the runs with biases `0, 1` and with biases `5, 1` differ only
in the bias of unit `0`, yet `output[1]` is `1` in the first run and `0` in the
second. -/
theorem dense_argmax_depends_on_earlier :
    ((0 : Int) < 2 ∧ (0 : Int) ≤ 1 ∧ (1 : Int) < 2) ∧
    (∀ n : Int, n ≠ 0 →
      (fun n : Int => F32.ofInt n) n
        = (fun n : Int => if n = 0 then F32.ofInt 5 else F32.ofInt n) n) ∧
    dense (fun _ => true) (fun _ => false) (fun _ => true) (fun n => F32.ofInt n)
        2 2 false 1 = true ∧
    dense (fun _ => true) (fun _ => false) (fun _ => true)
        (fun n => if n = 0 then F32.ofInt 5 else F32.ofInt n) 2 2 false 1 = false := by
  refine ⟨by decide, ?_, by decide!, by decide!⟩
  intro n hn
  simp only [hn, if_false]

/-- C15, amended: for `M > 0` and `n < N`, in ReLU mode the bit `output[n]`
written by `dense` is determined by the input, `M` and the weights
`weight[m*N + n]` and bias `bias[n]` of unit `n` alone; in arg-max mode it is
determined by the input, `M` and the weights and biases of the units
`0, ..., n`: two runs that differ only in the weights or biases of later units
(and in the prior contents of `output`) produce the same `output[n]`. -/
theorem dense_output_dependencies (input out1 out2 w1 w2 : Fmap) (b1 b2 : Int → F32)
    (M N : Int) (_hM : 0 < M) (n : Int) (hn : 0 ≤ n ∧ n < N) :
    ((∀ m : Int, 0 ≤ m → m < M → w1 (m * N + n) = w2 (m * N + n)) → b1 n = b2 n →
      dense input out1 w1 b1 M N true n = dense input out2 w2 b2 M N true n) ∧
    ((∀ j : Int, 0 ≤ j → j ≤ n →
        (∀ m : Int, 0 ≤ m → m < M → w1 (m * N + j) = w2 (m * N + j)) ∧ b1 j = b2 j) →
      dense input out1 w1 b1 M N false n = dense input out2 w2 b2 M N false n) := by
  constructor
  · intro hw hb
    rw [dense_eq_loop, dense_eq_loop, dense_loop_relu _ _ _ _ hn, dense_loop_relu _ _ _ _ hn,
      dense_biased_congr input w1 w2 b1 b2 M N n hw hb]
  · intro h
    have e : ∀ j : Int, 0 ≤ j → j ≤ n →
        dense_biased input w1 b1 M N j = dense_biased input w2 b2 M N j :=
      fun j hj hj2 => dense_biased_congr input w1 w2 b1 b2 M N j (h j hj hj2).1
        (h j hj hj2).2
    rw [dense_eq_loop, dense_eq_loop, Bool.eq_iff_iff, dense_loop_argmax _ _ _ _ hn,
      dense_loop_argmax _ _ _ _ hn, e n hn.1 le_rfl]
    constructor
    · rintro ⟨h1, h2⟩
      exact ⟨h1, fun j hj hj2 => by rw [← e j hj hj2.le]; exact h2 j hj hj2⟩
    · rintro ⟨h1, h2⟩
      exact ⟨h1, fun j hj hj2 => by rw [e j hj hj2.le]; exact h2 j hj hj2⟩

/-- Instance of `dense_output_dependencies`: in arg-max mode unit `0` of two
units does not depend on the bias of unit `1`. -/
theorem dense_output_dependencies_witness :
    ((0 : Int) < 2 ∧ (0 : Int) ≤ 0 ∧ (0 : Int) < 2) ∧
    dense (fun _ => true) (fun _ => false) (fun _ => true) (fun n => F32.ofInt n)
        2 2 false 0
      = dense (fun _ => true) (fun _ => true) (fun _ => true)
          (fun n => if n = 0 then F32.ofInt 0 else F32.ofInt 7) 2 2 false 0 :=
  ⟨by decide,
   (dense_output_dependencies (fun _ => true) (fun _ => false) (fun _ => true)
    (fun _ => true) (fun _ => true) (fun n => F32.ofInt n)
    (fun n => if n = 0 then F32.ofInt 0 else F32.ofInt 7)
    2 2 (by decide) 0 (by decide)).2
    (fun j hj hj2 => by
      have e : j = 0 := by omega
      subst e
      exact ⟨fun _ _ _ => rfl, rfl⟩)⟩

/-- C19 (the running maximum of `dense` starts at `-100`): in arg-max mode,
when the activated values the code computes are numbers, `output[n]` is `1` if
and only if the activated value of unit `n` is greater than `-100` and greater
than the activated value of every earlier unit; so if every unit's activated
value is at most `-100`, all of `output[0..N-1]` are `0`.  Without the
assumption on the values (for `M = 0` they are all NaN) `output[n]` is `1` if
and only if the value of unit `n` is greater than `-100` and greater than
every earlier value that is a number. -/
theorem dense_argmax_starts_at_minus_100 (input output weight : Fmap) (bias : Int → F32)
    (M N : Int) :
    ((∀ j : Int, 0 ≤ j → j < N → dense_biased input weight bias M N j ≠ F32.nan) →
      ∀ n : Int, 0 ≤ n → n < N →
        (dense input output weight bias M N false n = true
          ↔ (F32.gt (dense_biased input weight bias M N n) (F32.ofInt (-100)) = true ∧
              ∀ j : Int, 0 ≤ j → j < n →
                F32.lt (dense_biased input weight bias M N j)
                  (dense_biased input weight bias M N n) = true))) ∧
    ((∀ j : Int, 0 ≤ j → j < N →
        F32.le (dense_biased input weight bias M N j) (F32.ofInt (-100)) = true) →
      ∀ n : Int, 0 ≤ n → n < N → dense input output weight bias M N false n = false) ∧
    (∀ n : Int, 0 ≤ n → n < N →
      (dense input output weight bias M N false n = true
        ↔ (F32.gt (dense_biased input weight bias M N n) (F32.ofInt (-100)) = true ∧
            ∀ j : Int, 0 ≤ j → j < n →
              dense_biased input weight bias M N j = F32.nan ∨
              F32.lt (dense_biased input weight bias M N j)
                (dense_biased input weight bias M N n) = true))) := by
  have h : ∀ n : Int, 0 ≤ n → n < N →
      (dense input output weight bias M N false n = true
        ↔ (F32.gt (dense_biased input weight bias M N n) (F32.ofInt (-100)) = true ∧
            ∀ j : Int, 0 ≤ j → j < n →
              dense_biased input weight bias M N j = F32.nan ∨
              F32.lt (dense_biased input weight bias M N j)
                (dense_biased input weight bias M N n) = true)) := by
    intro n hn hn2
    rw [dense_eq_loop]
    exact dense_loop_argmax _ _ _ _ ⟨hn, hn2⟩
  refine ⟨fun hnum n hn hn2 => ?_, fun hall n hn hn2 => ?_, h⟩
  · rw [h n hn hn2]
    constructor
    · rintro ⟨h1, h2⟩
      refine ⟨h1, fun j hj hj2 => ?_⟩
      rcases h2 j hj hj2 with h3 | h3
      · exact absurd h3 (hnum j hj (by omega))
      · exact h3
    · rintro ⟨h1, h2⟩
      exact ⟨h1, fun j hj hj2 => Or.inr (h2 j hj hj2)⟩
  · rw [Bool.eq_false_iff]
    intro h1
    have h2 := ((h n hn hn2).mp h1).1
    rw [F32.le_not_gt (hall n hn hn2)] at h2
    exact absurd h2 (by decide)

/-- Instance of `dense_argmax_starts_at_minus_100`: one unit with activated
value `-198` gets output bit `0`. -/
theorem dense_argmax_starts_at_minus_100_witness :
    dense_biased (fun _ => true) (fun _ => true) (fun _ => F32.ofInt (-200)) 2 1 0
      = F32.ofInt (-198) ∧
    F32.le (F32.ofInt (-198)) (F32.ofInt (-100)) = true ∧
    dense (fun _ => true) (fun _ => true) (fun _ => true) (fun _ => F32.ofInt (-200))
      2 1 false 0 = false := by
  have e : dense_biased (fun _ => true) (fun _ => true) (fun _ => F32.ofInt (-200)) 2 1 0
      = F32.ofInt (-198) := by decide!
  have l : F32.le (F32.ofInt (-198)) (F32.ofInt (-100)) = true := by decide!
  refine ⟨e, l, (dense_argmax_starts_at_minus_100 (fun _ => true) (fun _ => true)
    (fun _ => true) (fun _ => F32.ofInt (-200)) 2 1).2.1 ?_ 0 (by decide) (by decide)⟩
  intro j hj hj2
  have e2 : j = 0 := by omega
  subst e2
  rw [e]
  exact l


/-- Rounding decides the arg-max.  With `M = 18` inputs, all `1`, unit `0` with
`10` matching weights and bias `0` and unit `1` with `13` matching weights and
bias `-2`, the formula `(2*match_count - M)*sqrt(2/M) + bias[n]` over the
reals gives `2/3` for both units, while the code computes
`0x1.555556p-1` and then `0x1.555558p-1`, a strict increase, and writes
`output[1] = 1`.  With `M = 0` the computed value is a NaN and the output bit
is `0` in both modes. -/
theorem dense_rounding_examples :
    (spec_dense_match_count (fun _ => true)
        (fun i => if i % 2 = 0 then decide (i < 20) else decide (i < 26)) 18 2 0 = 10 ∧
     spec_dense_match_count (fun _ => true)
        (fun i => if i % 2 = 0 then decide (i < 20) else decide (i < 26)) 18 2 1 = 13 ∧
     spec_activated Real.sqrt (fun _ => true)
        (fun i => if i % 2 = 0 then decide (i < 20) else decide (i < 26))
        (fun n => if n = 0 then (0 : ℝ) else -2) 18 2 0 = 2 / 3 ∧
     spec_activated Real.sqrt (fun _ => true)
        (fun i => if i % 2 = 0 then decide (i < 20) else decide (i < 26))
        (fun n => if n = 0 then (0 : ℝ) else -2) 18 2 1 = 2 / 3 ∧
     dense_biased (fun _ => true)
        (fun i => if i % 2 = 0 then decide (i < 20) else decide (i < 26))
        (fun n => if n = 0 then F32.ofInt 0 else F32.ofInt (-2)) 18 2 0
        = F32.fin (11184811 * 2 ^ 125) ∧
     dense_biased (fun _ => true)
        (fun i => if i % 2 = 0 then decide (i < 20) else decide (i < 26))
        (fun n => if n = 0 then F32.ofInt 0 else F32.ofInt (-2)) 18 2 1
        = F32.fin (11184812 * 2 ^ 125) ∧
     dense (fun _ => true) (fun _ => false)
        (fun i => if i % 2 = 0 then decide (i < 20) else decide (i < 26))
        (fun n => if n = 0 then F32.ofInt 0 else F32.ofInt (-2)) 18 2 false 1 = true) ∧
    (dense_biased (fun _ => true) (fun _ => true) (fun _ => F32.ofInt 1) 0 1 0 = F32.nan ∧
     dense (fun _ => true) (fun _ => true) (fun _ => true) (fun _ => F32.ofInt 1)
        0 1 false 0 = false ∧
     dense (fun _ => true) (fun _ => true) (fun _ => true) (fun _ => F32.ofInt 1)
        0 1 true 0 = false) := by
  have c0 : spec_dense_match_count (fun _ => true)
      (fun i => if i % 2 = 0 then decide (i < 20) else decide (i < 26)) 18 2 0 = 10 := by
    decide
  have c1 : spec_dense_match_count (fun _ => true)
      (fun i => if i % 2 = 0 then decide (i < 20) else decide (i < 26)) 18 2 1 = 13 := by
    decide
  have hs : Real.sqrt (2 / ((18 : Int) : ℝ)) = 1 / 3 := by
    rw [show (2 : ℝ) / ((18 : Int) : ℝ) = (1 / 3) ^ 2 by norm_num]
    exact Real.sqrt_sq (by norm_num)
  refine ⟨⟨c0, c1, ?_, ?_, by decide!, by decide!, by decide!⟩,
    by decide!, by decide!, by decide!⟩
  · unfold spec_activated
    rw [c0, hs]
    norm_num
  · unfold spec_activated
    rw [c1, hs]
    norm_num

end Layer
